import Mathlib

/-!
# MyDijkstra: weighted directed graph container and shortest-path query

A shallow embedding of `Graph.h`, `Graph_utilities.h` and `main.cpp`.

* `std::map<K, T>` is a list of `(key, value)` entries kept in strictly ascending key
  order (`StdMap.Sorted`); the operations below are the list counterparts of `find`,
  `insert`, `erase` of the standard container.
* `std::vector<T>` is a `List T`; an index outside the vector is undefined behaviour in the
  source and is reported as `Error.undefined_behaviour`.
* `size_t` values are natural numbers, `size_t(-1)` is `SIZE_MAX`; the `int` loop counters
  are natural numbers as well.
* `double` is the type `F64`: the finite values are the integer multiples of `2^(-1074)` that
  a binary64 holds, next to the two infinities and NaN; `operator+` rounds the exact sum to the
  nearest `double`, ties to even, and the comparisons are false on NaN; every operation is
  carried out in binary64 (`FLT_EVAL_METHOD == 0`). `weight_t` is `F64`.
  The container and the functions of `Graph_utilities.h` are written over any weight type `W`
  that has the operations they use, as the class template `Graph` is.
* C++ exceptions are the `Except Error` monad; loops without a syntactic bound take a fuel
  argument and report `Error.out_of_fuel` when it is used up.
-/

namespace MyDijkstra

/-- Exceptional outcomes of the source: the exceptions it throws, undefined behaviour of an
out-of-bounds vector access, and exhaustion of the fuel given to an unbounded loop. -/
inductive Error where
  /-- Exception `std::out_of_range`: `std::map::at` on an absent key, or `"No such key!"`. -/
  | out_of_range
  /-- Exception `runtime_error("Adjacency matrix constructor failed!")`. -/
  | matrix_constructor_failed
  /-- Exception `runtime_error("Adjacency matrix is not squared!")`. -/
  | not_squared
  /-- Exception `runtime_error("Weight less than zero detected!")`. -/
  | negative_weight
  /-- Out-of-bounds `std::vector::operator[]`. -/
  | undefined_behaviour
  /-- The fuel of a `while` loop ran out. -/
  | out_of_fuel
  deriving DecidableEq

/-- Equality of two outcomes is decidable when equality of errors and of values is. -/
instance decEqExcept {ε α : Type} [DecidableEq ε] [DecidableEq α] : DecidableEq (Except ε α)
  | .ok a, .ok b => decidable_of_iff (a = b) ⟨fun h => h ▸ rfl, fun h => Except.ok.inj h⟩
  | .error a, .error b =>
    decidable_of_iff (a = b) ⟨fun h => h ▸ rfl, fun h => Except.error.inj h⟩
  | .ok _, .error _ => isFalse (fun h => Except.noConfusion h)
  | .error _, .ok _ => isFalse (fun h => Except.noConfusion h)

/-! ## `std::map` -/

namespace StdMap

variable {K T : Type} [LinearOrder K]

/-- Keys of the entries, in iteration order. -/
def keys (m : List (K × T)) : List K := m.map Prod.fst

/-- Class invariant of `std::map`: strictly ascending keys. -/
def Sorted (m : List (K × T)) : Prop := (keys m).Pairwise (· < ·)

/-- Models `std::map::find` (`none` stands for `end()`). -/
def find (k : K) : List (K × T) → Option T
  | [] => none
  | (k', v) :: rest => if k' = k then some v else find k rest

/-- Models `std::map::at`: throws `std::out_of_range` when the key is absent. -/
def «at» (k : K) (m : List (K × T)) : Except Error T :=
  match find k m with
  | some v => .ok v
  | none => .error .out_of_range

/-- Models `std::map::insert`: never overwrites; the flag tells whether the entry was added. -/
def insert (k : K) (v : T) : List (K × T) → List (K × T) × Bool
  | [] => ([(k, v)], true)
  | (k', v') :: rest =>
    if k < k' then ((k, v) :: (k', v') :: rest, true)
    else if k' = k then ((k', v') :: rest, false)
    else ((k', v') :: (insert k v rest).1, (insert k v rest).2)

/-- Models `std::map::erase(key)`: the new map and the number of removed entries. -/
def erase (k : K) : List (K × T) → List (K × T) × Nat
  | [] => ([], 0)
  | (k', v') :: rest =>
    if k' = k then (rest, 1)
    else ((k', v') :: (erase k rest).1, (erase k rest).2)

/-- Replace the value stored under an existing key (writing through the reference returned by
`std::map::at`); the map is unchanged when the key is absent. -/
def modify (k : K) (f : T → T) : List (K × T) → List (K × T)
  | [] => []
  | (k', v') :: rest =>
    if k' = k then (k', f v') :: rest else (k', v') :: modify k f rest

/-- Range constructor `std::map(first, last)`: the entries are inserted in order, and an entry
whose key is already present is skipped. -/
def of_range (init : List (K × T)) : List (K × T) :=
  init.foldl (fun m p => (insert p.1 p.2 m).1) []

/-- Models `std::map::insert_or_assign`: the value of an existing key is overwritten; the flag
tells whether a new entry was added. -/
def insert_or_assign (k : K) (v : T) : List (K × T) → List (K × T) × Bool
  | [] => ([(k, v)], true)
  | (k', v') :: rest =>
    if k < k' then ((k, v) :: (k', v') :: rest, true)
    else if k' = k then ((k', v) :: rest, false)
    else ((k', v') :: (insert_or_assign k v rest).1, (insert_or_assign k v rest).2)

/-- Models `std::map::operator[]`: an absent key is inserted with the value-initialised mapped
value `d`; the result is the map and the value the returned reference points to. -/
def index (k : K) (d : T) (m : List (K × T)) : List (K × T) × T :=
  match find k m with
  | some v => (m, v)
  | none => ((insert k d m).1, d)

end StdMap

/-- Modelled from the spec: `Matrix.h` is not among the sources. The spec describes the matrix
collaborator as a rectangular numeric grid with a row count, a column count and `(i, j)` cell
access; `cell i j` is only read for `i < num_rows` and `j < num_cols`. -/
structure Matrix (W : Type) where
  num_rows : Nat
  num_cols : Nat
  cell : Nat → Nat → W

/-! ## `Graph<Key, Value, Weight>` and its nested `Node` -/

/-- Models `Graph::Node`: a payload and the outgoing edges, target key ↦ weight. -/
structure Node (K V W : Type) where
  m_value : V
  m_edges : List (K × W)
  deriving DecidableEq

/-- Models `Graph`: the map from keys to nodes. -/
structure Graph (K V W : Type) where
  m_nodes : List (K × Node K V W)
  deriving DecidableEq

namespace Node

variable {K V W : Type} [LinearOrder K]

/-- Models `Node(const value_type& value)`: no edges. -/
def ofValue (value : V) : Node K V W := ⟨value, []⟩

/-- Models `Node::size`. -/
def size (nd : Node K V W) : Nat := nd.m_edges.length

/-- Models `Node::insert_edge`. -/
def insert_edge (key : K) (weight : W) (nd : Node K V W) : Node K V W × Bool :=
  ({ nd with m_edges := (StdMap.insert key weight nd.m_edges).1 },
    (StdMap.insert key weight nd.m_edges).2)

/-- Models `Node::erase_edge`. -/
def erase_edge (key : K) (nd : Node K V W) : Node K V W × Bool :=
  ({ nd with m_edges := (StdMap.erase key nd.m_edges).1 },
    decide ((StdMap.erase key nd.m_edges).2 = 1))

end Node

namespace Graph

variable {K V W : Type} [LinearOrder K]

/-- Class invariant inherited from `std::map`: node keys strictly ascending, and the target keys
of every node's edges strictly ascending. -/
def WF (g : Graph K V W) : Prop :=
  StdMap.Sorted g.m_nodes ∧ ∀ p ∈ g.m_nodes, StdMap.Sorted p.2.m_edges

/-- Models `Graph::size`. -/
def size (g : Graph K V W) : Nat := g.m_nodes.length

/-- Models `Graph::get_node`. -/
def get_node (key : K) (g : Graph K V W) : Except Error (Node K V W) :=
  StdMap.at key g.m_nodes

/-- Models `Graph::insert_node`. -/
def insert_node (key : K) (value : V) (g : Graph K V W) : Graph K V W × Bool :=
  (⟨(StdMap.insert key (Node.ofValue value) g.m_nodes).1⟩,
    (StdMap.insert key (Node.ofValue value) g.m_nodes).2)

/-- Models `Graph::insert_edge`: `m_nodes.at(key_pair.first).insert_edge(key_pair.second, weight)`. -/
def insert_edge (key_pair : K × K) (weight : W) (g : Graph K V W) :
    Except Error (Graph K V W × Bool) :=
  match StdMap.at key_pair.1 g.m_nodes with
  | .error e => .error e
  | .ok nd =>
    .ok (⟨StdMap.modify key_pair.1 (fun x => (x.insert_edge key_pair.2 weight).1) g.m_nodes⟩,
      (nd.insert_edge key_pair.2 weight).2)

/-- Models `Graph::degree_in`. -/
def degree_in (key : K) (g : Graph K V W) : Except Error Nat :=
  if (StdMap.find key g.m_nodes).isNone then .error .out_of_range
  else .ok (g.m_nodes.foldl
    (fun res it => if (StdMap.find key it.2.m_edges).isSome then res + 1 else res) 0)

/-- Models `Graph::degree_out`. -/
def degree_out (key : K) (g : Graph K V W) : Except Error Nat :=
  (StdMap.at key g.m_nodes).map Node.size

/-- The scan of `Graph::loop` over the edges of the node. -/
def loop_scan (key : K) : List (K × W) → Bool
  | [] => false
  | it :: rest => if it.1 = key then true else loop_scan key rest

/-- Models `Graph::loop`. -/
def loop (key : K) (g : Graph K V W) : Except Error Bool :=
  (StdMap.at key g.m_nodes).map (fun nd => loop_scan key nd.m_edges)

/-- Models `Graph::erase_node`: erase the edge to `key` in every node, then erase the node. -/
def erase_node (key : K) (g : Graph K V W) : Graph K V W × Bool :=
  let swept := g.m_nodes.map (fun it => (it.1, (it.2.erase_edge key).1))
  (⟨(StdMap.erase key swept).1⟩, decide ((StdMap.erase key swept).2 = 1))

/-- The body `if(matr(i, j) != 0) insert_edge({key i, key j}, matr(i, j))` of the double loop
that the matrix constructor and `read_graph` share; `key_of` is `nodes[i].first` in the
constructor and the conversion of `i` to `size_t` in `read_graph`. -/
def fill_cell [Zero W] [DecidableEq W] (key_of : Nat → Except Error K) (matr : Matrix W)
    (i : Nat) (g : Graph K V W) (j : Nat) : Except Error (Graph K V W) :=
  if matr.cell i j ≠ 0 then
    match key_of i, key_of j with
    | .ok a, .ok b =>
      match g.insert_edge (a, b) (matr.cell i j) with
      | .ok r => .ok r.1
      | .error e => .error e
    | .error e, _ => .error e
    | _, .error e => .error e
  else .ok g

/-- The double loop `for i < num_rows, for j < num_cols` over the cells of the matrix. -/
def fill_edges [Zero W] [DecidableEq W] (key_of : Nat → Except Error K) (matr : Matrix W)
    (g : Graph K V W) : Except Error (Graph K V W) :=
  (List.range matr.num_rows).foldlM
    (fun g i => (List.range matr.num_cols).foldlM (fill_cell key_of matr i) g) g

/-- Models the constructor `Graph(const Iterable& nodes, const Matrix& matr)`. -/
def of_matrix [Zero W] [DecidableEq W] (nodes : List (K × V)) (matr : Matrix W) :
    Except Error (Graph K V W) :=
  if matr.num_rows ≠ matr.num_cols ∨ matr.num_rows ≠ nodes.length then
    .error .matrix_constructor_failed
  else
    fill_edges
      (fun i => match nodes[i]? with
        | some p => .ok p.1
        | none => .error .undefined_behaviour)
      matr ⟨StdMap.of_range (nodes.map (fun p => (p.1, Node.ofValue p.2)))⟩

/-- Models `Graph::insert_or_assign_node`. -/
def insert_or_assign_node (key : K) (value : V) (g : Graph K V W) : Graph K V W × Bool :=
  (⟨(StdMap.insert_or_assign key (Node.ofValue value) g.m_nodes).1⟩,
    (StdMap.insert_or_assign key (Node.ofValue value) g.m_nodes).2)

/-- Models `Graph::erase_edges_go_from`: `m_nodes.at(key).m_edges.clear()` inside a `try` whose
handler returns false. -/
def erase_edges_go_from (key : K) (g : Graph K V W) : Graph K V W × Bool :=
  match StdMap.at key g.m_nodes with
  | .ok _ => (⟨StdMap.modify key (fun nd => { nd with m_edges := [] }) g.m_nodes⟩, true)
  | .error _ => (g, false)

/-- The body of the `try` block of `Graph::erase_edges_go_to`: `erase_edge(key)` on every node.
Neither the iteration nor `Node::erase_edge` throws. -/
def erase_edges_go_to_body (key : K) (g : Graph K V W) : Except Error (Graph K V W) :=
  .ok ⟨g.m_nodes.map (fun it => (it.1, (it.2.erase_edge key).1))⟩

/-- Models `Graph::erase_edges_go_to`: the `try` block, whose handler returns false. -/
def erase_edges_go_to (key : K) (g : Graph K V W) : Graph K V W × Bool :=
  match erase_edges_go_to_body key g with
  | .ok g' => (g', true)
  | .error _ => (g, false)

/-- Models `Graph::at`: the stored value, `std::out_of_range` for an absent key; nothing is
written. -/
def «at» (key : K) (g : Graph K V W) : Except Error V :=
  (StdMap.at key g.m_nodes).map Node.m_value

/-- Models `Graph::operator[]`: `m_nodes[key].m_value`. An absent key gets the value-initialised
node `Node()`, whose value is `default` and whose edge map is empty. -/
def index [Inhabited V] (key : K) (g : Graph K V W) : Graph K V W × V :=
  (⟨(StdMap.index key ⟨default, []⟩ g.m_nodes).1⟩,
    (StdMap.index key (⟨default, []⟩ : Node K V W) g.m_nodes).2.m_value)

/-- All edges of the graph as `(source, target, weight)` triples. -/
def edges (g : Graph K V W) : List (K × K × W) :=
  g.m_nodes.flatMap (fun p => p.2.m_edges.map (fun e => (p.1, e.1, e.2)))

end Graph

/-! ## `double` -/

/-- Models the values of the IEEE 754 binary64 type `double`. `finite n` is the number
`n * 2^(-1074)`: every finite `double` is an integer multiple of the least subnormal
`2^(-1074)`, and `IsDouble` tells which multiples a `double` holds. The two zeros, which compare
equal and add alike, are the one value `finite 0`, and all NaNs are the one value `nan`. -/
inductive F64 where
  | finite (n : Int)
  | inf (negative : Bool)
  | nan
  deriving DecidableEq

namespace F64

/-- Loop of `shift`: halve `m` until it is below `2^53`, counting the steps. -/
def shift_loop : Nat → Nat → Nat
  | 0, _ => 0
  | fuel + 1, m => if m < 2 ^ 53 then 0 else shift_loop fuel (m / 2) + 1

/-- The number of low bits that a magnitude `m` loses when it is cut to the 53 significant bits
of a `double`: `0` when `m < 2^53`, otherwise the `k` with `2^52 ≤ m / 2^k < 2^53`. -/
def shift (m : Nat) : Nat := shift_loop m m

/-- Round `m` to a multiple of `2^k`: to the nearest one, and to the even one of the two when
`m` lies half-way. -/
def round_to (k m : Nat) : Nat :=
  if 2 * (m % 2 ^ k) < 2 ^ k ∨ (2 * (m % 2 ^ k) = 2 ^ k ∧ m / 2 ^ k % 2 = 0) then
    m / 2 ^ k * 2 ^ k
  else (m / 2 ^ k + 1) * 2 ^ k

/-- Round a magnitude to 53 significant bits (round to nearest, ties to even). -/
def round_nat (m : Nat) : Nat := round_to (shift m) m

/-- The magnitude `2^1024`, in units of `2^(-1074)`, at which a rounded result overflows. -/
@[irreducible] def overflow : Nat := 2 ^ 2098

/-- The `double` nearest to the exact number `n * 2^(-1074)`, in the default rounding mode
(round to nearest, ties to even): the rounding of every arithmetic operation and conversion. A
magnitude that rounds to `2^1024` or more overflows to the infinity of its sign. -/
def round (n : Int) : F64 :=
  if overflow ≤ round_nat n.natAbs then inf (decide (n < 0))
  else finite (if n < 0 then -(round_nat n.natAbs : Int) else round_nat n.natAbs)

/-- Models `operator+` of `double`: the exact sum of two finite values, rounded; the sum of
the two infinities of opposite sign is NaN. -/
def add : F64 → F64 → F64
  | finite a, finite b => round (a + b)
  | finite _, inf b => inf b
  | inf a, finite _ => inf a
  | inf a, inf b => if a = b then inf a else nan
  | _, _ => nan

/-- Models `operator<` of `double`: false whenever an operand is NaN. -/
def lt : F64 → F64 → Bool
  | finite a, finite b => decide (a < b)
  | finite _, inf b => !b
  | inf a, finite _ => a
  | inf a, inf b => a && !b
  | _, _ => false

/-- Models `operator<=` of `double`: false whenever an operand is NaN. -/
def le : F64 → F64 → Bool
  | finite a, finite b => decide (a ≤ b)
  | finite _, inf b => !b
  | inf a, finite _ => a
  | inf a, inf b => a || !b
  | _, _ => false

/-- The value is one that a `double` can hold: NaN, an infinity, or a multiple of `2^(-1074)`
with at most 53 significant bits and a magnitude below `2^1024`. -/
def IsDouble : F64 → Prop
  | finite n => round_nat n.natAbs = n.natAbs ∧ n.natAbs < overflow
  | _ => True

/-- The exact value of a finite `double` in units of `2^(-1074)` (`0` for the others). -/
def units : F64 → Int
  | finite n => n
  | _ => 0

/-- The `double` `0.0`. -/
instance instZero : Zero F64 := ⟨finite 0⟩

/-- The sign `+` on `F64` is `add`. -/
instance instAdd : Add F64 := ⟨add⟩

/-- Conversion of an integer to `double`, as for the `int` constant `INT_MAX`. -/
instance instNatCast : NatCast F64 := ⟨fun n => round (n * 2 ^ 1074)⟩

/-- The sign `<` on `F64` is `lt`. -/
instance instLT : LT F64 := ⟨fun a b => lt a b = true⟩

/-- The sign `≤` on `F64` is `le`. -/
instance instLE : LE F64 := ⟨fun a b => le a b = true⟩

/-- The comparison `<` is computed by `lt`. -/
instance decidableLT (a b : F64) : Decidable (a < b) :=
  inferInstanceAs (Decidable (lt a b = true))

/-- The comparison `≤` is computed by `le`. -/
instance decidableLE (a b : F64) : Decidable (a ≤ b) :=
  inferInstanceAs (Decidable (le a b = true))

/-- Whether a value is one that a `double` can hold is computed by rounding it. -/
instance decidableIsDouble : (x : F64) → Decidable x.IsDouble
  | finite n =>
    inferInstanceAs (Decidable (round_nat n.natAbs = n.natAbs ∧ n.natAbs < overflow))
  | inf _ => isTrue True.intro
  | nan => isTrue True.intro

end F64

/-- Alias `weight_t = double`. -/
abbrev weight_t := F64

/-! ## `Graph_utilities.h` -/

/-- The value of `size_t(-1)`, used by the source as the "none" marker. -/
def SIZE_MAX : Nat := 18446744073709551615

/-- The constant `INT_MAX`, the initial distance of every node but the source. -/
def INT_MAX : Nat := 2147483647

/-- Alias `graph_t = Graph<size_t, bool, weight_t>`, with the weight type as a parameter. -/
abbrev graph_t (W : Type) := Graph Nat Bool W

section Utilities

variable {W : Type}

/-- Models `read_graph`, from the matrix that `TextMode<weight_t>::read(filename)` returns:
nodes `0 .. num_rows-1` with the value `node_data_t()`, then the edges of the non-zero
cells. -/
def read_graph [Zero W] [DecidableEq W] (matr : Matrix W) : Except Error (graph_t W) :=
  if matr.num_rows ≠ matr.num_cols then .error .not_squared
  else
    Graph.fill_edges (fun i => .ok i) matr
      ((List.range matr.num_rows).foldl (fun g i => (g.insert_node i false).1) ⟨[]⟩)

/-- First loop of `min_not_visited`, at index `i` with the remaining entries of `vec` and
`labels`: the accumulator is `none` while `all_visited` holds and `(min, min_index)` after. -/
def min_not_visited_first (i : Nat) :
    List W → List Bool → Option (W × Nat) → Except Error (Option (W × Nat))
  | [], _, acc => .ok acc
  | _ :: _, [], _ => .error .undefined_behaviour
  | x :: vec, l :: labels, acc =>
    min_not_visited_first (i + 1) vec labels (if !l then some (x, i) else acc)

/-- Second loop of `min_not_visited`: a strictly smaller unvisited entry replaces
`(min, min_index)`. -/
def min_not_visited_second [LT W] [∀ a b : W, Decidable (a < b)] (i : Nat) :
    List W → List Bool → W × Nat → Except Error (W × Nat)
  | [], _, acc => .ok acc
  | _ :: _, [], _ => .error .undefined_behaviour
  | x :: vec, l :: labels, acc =>
    min_not_visited_second (i + 1) vec labels (if x < acc.1 ∧ !l then (x, i) else acc)

/-- Models `min_not_visited`: the index of the selected unvisited entry, `SIZE_MAX` when every
entry is visited. -/
def min_not_visited [LT W] [∀ a b : W, Decidable (a < b)] (vec : List W)
    (labels : List Bool) : Except Error Nat :=
  match min_not_visited_first 0 vec labels none with
  | .error e => .error e
  | .ok none => .ok SIZE_MAX
  | .ok (some acc) =>
    match min_not_visited_second 0 vec labels acc with
    | .error e => .error e
    | .ok r => .ok r.2

/-- The `for` loop of `deijkstra` over the outgoing edges `(it->first, it->second)` of the node
`cur_index`, acting on `(ways, prev_points)`. -/
def relax [Zero W] [Add W] [LT W] [∀ a b : W, Decidable (a < b)] (cur_index : Nat) :
    List (Nat × W) → List W × List Nat → Except Error (List W × List Nat)
  | [], st => .ok st
  | it :: rest, st =>
    if it.2 < 0 then .error .negative_weight
    else
      match st.1[cur_index]?, st.1[it.1]? with
      | some wc, some wn =>
        if wc + it.2 < wn then
          relax cur_index rest (st.1.set it.1 (wc + it.2), st.2.set it.1 cur_index)
        else relax cur_index rest st
      | _, _ => .error .undefined_behaviour

/-- The `while(true)` loop of `deijkstra` on `(ways, labels, prev_points)`; it returns the final
`(ways, prev_points)`. -/
def main_loop [Zero W] [Add W] [LT W] [∀ a b : W, Decidable (a < b)] (graph : graph_t W) :
    Nat → List W → List Bool → List Nat → Except Error (List W × List Nat)
  | 0, _, _, _ => .error .out_of_fuel
  | fuel + 1, ways, labels, prev_points =>
    match min_not_visited ways labels with
    | .error e => .error e
    | .ok cur_index =>
      if cur_index = SIZE_MAX then .ok (ways, prev_points)
      else
        match graph.get_node cur_index with
        | .error e => .error e
        | .ok node =>
          match relax cur_index node.m_edges (ways, prev_points) with
          | .error e => .error e
          | .ok st => main_loop graph fuel st.1 (labels.set cur_index true) st.2

/-- The `while(true)` loop of `deijkstra` with a log: besides the final
`(ways, prev_points)` it returns the values of `cur_index`, one per iteration, in order. -/
def main_loop_trace [Zero W] [Add W] [LT W] [∀ a b : W, Decidable (a < b)]
    (graph : graph_t W) :
    Nat → List W → List Bool → List Nat → Except Error (List Nat × List W × List Nat)
  | 0, _, _, _ => .error .out_of_fuel
  | fuel + 1, ways, labels, prev_points =>
    match min_not_visited ways labels with
    | .error e => .error e
    | .ok cur_index =>
      if cur_index = SIZE_MAX then .ok ([], ways, prev_points)
      else
        match graph.get_node cur_index with
        | .error e => .error e
        | .ok node =>
          match relax cur_index node.m_edges (ways, prev_points) with
          | .error e => .error e
          | .ok st =>
            match main_loop_trace graph fuel st.1 (labels.set cur_index true) st.2 with
            | .error e => .error e
            | .ok r => .ok (cur_index :: r.1, r.2)

/-- The backward walk `while(i != key_from)` of `deijkstra`; `res_route` grows at the front. -/
def route_loop (prev_points : List Nat) (key_from : Nat) :
    Nat → Nat → List Nat → Except Error (List Nat)
  | 0, _, _ => .error .out_of_fuel
  | fuel + 1, i, res_route =>
    if i = key_from then .ok res_route
    else
      match prev_points[i]? with
      | none => .error .undefined_behaviour
      | some p => route_loop prev_points key_from fuel p (i :: res_route)

/-- Models `deijkstra`: the pair `(weight, route)`; the no-path result has the route
`[SIZE_MAX]`. Both loops draw on `fuel`. -/
def deijkstra [Zero W] [Add W] [NatCast W] [LT W] [∀ a b : W, Decidable (a < b)] (fuel : Nat)
    (graph : graph_t W) (key_from key_to : Nat) :
    Except Error (W × List Nat) :=
  if graph.size ≤ key_from then .error .undefined_behaviour
  else
    match main_loop graph fuel ((List.replicate graph.size (INT_MAX : W)).set key_from 0)
        (List.replicate graph.size false) (List.replicate graph.size SIZE_MAX) with
    | .error e => .error e
    | .ok st =>
      match st.2[key_to]?, st.1[key_to]? with
      | some p, some w =>
        if p = SIZE_MAX then .ok (w, [SIZE_MAX])
        else
          match route_loop st.2 key_from fuel p [] with
          | .error e => .error e
          | .ok res_route => .ok (w, key_from :: res_route ++ [key_to])
      | _, _ => .error .undefined_behaviour

end Utilities

/-! ## Vocabulary of the specification -/

namespace Graph

variable {K V W : Type} [LinearOrder K]

/-- The weight of the edge `u → v`, `none` when the graph has no such edge. -/
def edge_weight (g : Graph K V W) (u v : K) : Option W :=
  match StdMap.find u g.m_nodes with
  | none => none
  | some nd => StdMap.find v nd.m_edges

/-- A non-empty sequence of keys with an edge of the graph between every two consecutive
keys. -/
def IsRoute (g : Graph K V W) : List K → Prop
  | [] => False
  | [_] => True
  | u :: v :: rest => (g.edge_weight u v).isSome ∧ IsRoute g (v :: rest)

/-- The weights of the edges along a sequence of keys, added to `acc` one after the other from
the first edge to the last, as `deijkstra` accumulates a distance (`ways[cur_index] +
it->second`). -/
def route_weight_from [Zero W] [Add W] (g : Graph K V W) (acc : W) : List K → W
  | u :: v :: rest => route_weight_from g (acc + (g.edge_weight u v).getD 0) (v :: rest)
  | _ => acc

/-- The weight of a sequence of keys: the weights of its edges added from the first edge to
the last, starting from `0`. Over `F64` every addition rounds, so this is the sum in `double`
arithmetic and not the exact sum. -/
def route_weight [Zero W] [Add W] (g : Graph K V W) (r : List K) : W :=
  route_weight_from g 0 r

/-- A directed path from `a` to `b`: it starts with `a`, ends with `b`, and follows edges. -/
def IsPath (g : Graph K V W) (a b : K) (r : List K) : Prop :=
  r.head? = some a ∧ r.getLast? = some b ∧ g.IsRoute r

/-- Some directed path leads from `a` to `b`. -/
def Reachable (g : Graph K V W) (a b : K) : Prop := ∃ r, g.IsPath a b r

/-- Every edge weight is a value that a `double` can hold. -/
def Doubles (g : Graph K V F64) : Prop :=
  ∀ p ∈ g.m_nodes, ∀ e ∈ p.2.m_edges, e.2.IsDouble

/-- The sum of the weights of all edges of a graph with `double` weights, as an exact number in
units of `2^(-1074)`. -/
def exact_total_weight (g : Graph K V F64) : Int :=
  (g.m_nodes.map (fun p => (p.2.m_edges.map (fun e => e.2.units)).sum)).sum

/-- The sum of the weights of the edges along a sequence of keys, as an exact number in units of
`2^(-1074)`. -/
def exact_route_weight (g : Graph K V F64) : List K → Int
  | u :: v :: rest => ((g.edge_weight u v).getD 0).units + exact_route_weight g (v :: rest)
  | _ => 0

/-- Every edge weight is non-negative. -/
def NonNegative [Zero W] [LE W] (g : Graph K V W) : Prop :=
  ∀ p ∈ g.m_nodes, ∀ e ∈ p.2.m_edges, 0 ≤ e.2

/-- Invariant of the double loop of the matrix constructor: node values are those of the initial
graph `g0`, and the edge between the keys of two indices below `N` is the matrix cell exactly
when the cell is processed (`S`) and non-zero. -/
def FillInv [Zero W] (key_of : Nat → Except Error K) (matr : Matrix W) (N : Nat) (g0 g : Graph K V W)
    (S : Nat → Nat → Prop) : Prop :=
  (∀ x, (StdMap.find x g.m_nodes).map Node.m_value =
    (StdMap.find x g0.m_nodes).map Node.m_value) ∧
  ∀ i j a b, i < N → j < N → key_of i = .ok a → key_of j = .ok b →
    ((S i j ∧ matr.cell i j ≠ 0) → g.edge_weight a b = some (matr.cell i j)) ∧
    (¬ (S i j ∧ matr.cell i j ≠ 0) → g.edge_weight a b = none)

/-- The key space `deijkstra` assumes: a well-formed graph whose `size_t` keys are exactly
`0 .. size-1` and whose edge targets all lie in that range. -/
structure Indexed (g : Graph Nat V W) : Prop where
  wf : g.WF
  size_le : g.size ≤ SIZE_MAX
  keys_eq : StdMap.keys g.m_nodes = List.range g.size
  targets_lt : ∀ p ∈ g.m_nodes, ∀ e ∈ p.2.m_edges, e.1 < g.size

end Graph

/-! ## Invariants of the main loop of `deijkstra` -/

section Invariants

variable {W : Type} [LinearOrderedCommRing W]

end Invariants

/-- The loop invariant of `deijkstra` on `double` weights. `P` holds of the nodes whose distance
is final, `Q` of the nodes whose outgoing edges have all been relaxed, and `dep v` is the number
of predecessor steps from `v` back to the source `s`: at most `d`, and below `d` for the nodes
of `P`. A distance below `INT_MAX` is the distance of the predecessor plus the weight of the
edge from it, in `double` arithmetic. -/
structure PrevTree (g : graph_t F64) (s : Nat) (P Q : Nat → Prop) (d : Nat)
    (ways : List F64) (prev : List Nat) (dep : Nat → Nat) : Prop where
  len_ways : ways.length = g.size
  len_prev : prev.length = g.size
  src_ways : ways.getD s 0 = 0
  src_prev : prev.getD s 0 = SIZE_MAX
  src_dep : dep s = 0
  nonneg : ∀ v, v < g.size → 0 ≤ ways.getD v 0
  le_max : ∀ v, v < g.size → ways.getD v 0 ≤ (INT_MAX : F64)
  double : ∀ v, v < g.size → (ways.getD v 0).IsDouble
  inf_prev : ∀ v, v < g.size → v ≠ s → ways.getD v 0 = (INT_MAX : F64) →
    prev.getD v 0 = SIZE_MAX
  fin_prev : ∀ v, v < g.size → v ≠ s → ways.getD v 0 < (INT_MAX : F64) →
    P (prev.getD v 0) ∧ prev.getD v 0 < g.size ∧
    (∃ w, g.edge_weight (prev.getD v 0) v = some w ∧
      ways.getD v 0 = ways.getD (prev.getD v 0) 0 + w) ∧
    dep v = dep (prev.getD v 0) + 1 ∧ dep v ≤ d ∧ (P v → dep v < d)
  closed : ∀ u, Q u → u < g.size → ∀ v w, g.edge_weight u v = some w →
    ways.getD v 0 ≤ ways.getD u 0 + w

/-- The invariant at the head of the main loop: `PrevTree` for the visited nodes, and no visited
node is farther than an unvisited one. -/
def HeadTree (g : graph_t F64) (s : Nat) (ways : List F64) (labels : List Bool)
    (prev : List Nat) : Prop :=
  labels.length = g.size ∧
  (∀ u v, u < g.size → v < g.size → labels.getD u false = true →
    labels.getD v false = false → ways.getD u 0 ≤ ways.getD v 0) ∧
  ∃ dep, PrevTree g s (fun v => labels.getD v false = true)
    (fun v => labels.getD v false = true) (labels.count true) ways prev dep


/-! ## Concrete graphs -/

/-- The 4-node scenario of the specification: edges `0→2 (7)`, `0→3 (4)`, `1→0 (2)`,
`3→2 (5)`. -/
def scenario : graph_t Int :=
  ⟨[(0, ⟨false, [(2, 7), (3, 4)]⟩), (1, ⟨false, [(0, 2)]⟩), (2, ⟨false, []⟩),
    (3, ⟨false, [(2, 5)]⟩)]⟩

/-- The adjacency matrix of the scenario, commented out in `main.cpp`. -/
def scenario_matrix : Matrix Int :=
  ⟨4, 4, fun i j => ([[0, 0, 7, 4], [2, 0, 0, 0], [0, 0, 0, 0], [0, 0, 5, 0]].getD i []).getD j 0⟩

/-- A matrix with 3 rows and 2 columns. -/
def matrix_3x2 : Matrix Int := ⟨3, 2, fun _ _ => 1⟩

/-- A graph with the self-loop `0→0 (3)` and the edge `0→1 (1)`. -/
def loop_graph : graph_t Int :=
  ⟨[(0, ⟨false, [(0, 3), (1, 1)]⟩), (1, ⟨false, []⟩)]⟩

/-- A graph whose negative edge `1→0 (-1)` leaves a node that is not reachable from node `0`. -/
def unreachable_negative_graph : graph_t Int :=
  ⟨[(0, ⟨false, []⟩), (1, ⟨false, [(0, -1)]⟩)]⟩

/-- A graph with a negative edge `2→3 (-1)` that lies on no path from `0` to `1`. -/
def negative_scenario : graph_t Int :=
  ⟨[(0, ⟨false, [(1, 1), (2, 2)]⟩), (1, ⟨false, []⟩), (2, ⟨false, [(3, -1)]⟩),
    (3, ⟨false, []⟩)]⟩

/-- The 4-node scenario of the specification with its weights as `double`s: edges `0→2 (7.0)`,
`0→3 (4.0)`, `1→0 (2.0)`, `3→2 (5.0)`. -/
def scenario_double : graph_t F64 :=
  ⟨[(0, ⟨false, [(2, 7), (3, 4)]⟩), (1, ⟨false, [(0, 2)]⟩), (2, ⟨false, []⟩),
    (3, ⟨false, [(2, 5)]⟩)]⟩

/-- The `double` nearest to `0.1`: `3602879701896397 * 2^(-55)`. -/
def tenth : F64 := .finite (3602879701896397 * 2 ^ 1019)

/-- The `double` nearest to `0.2`: `3602879701896397 * 2^(-54)`. -/
def fifth : F64 := .finite (3602879701896397 * 2 ^ 1020)

/-- The `double` `0.30000000000000004 = 5404319552844596 * 2^(-54)`, the sum `0.1 + 0.2` in
`double` arithmetic. -/
def three_tenths_up : F64 := .finite (5404319552844596 * 2 ^ 1020)

/-- A graph with the edges `0→1 (0.1)` and `1→2 (0.2)`. -/
def two_step_graph : graph_t F64 :=
  ⟨[(0, ⟨false, [(1, tenth)]⟩), (1, ⟨false, [(2, fifth)]⟩), (2, ⟨false, []⟩)]⟩

/-- A graph with the edges `0→1 (0.1)`, `1→2 (0.2)` and the direct edge
`0→2 (0.30000000000000004)`. -/
def shortcut_graph : graph_t F64 :=
  ⟨[(0, ⟨false, [(1, tenth), (2, three_tenths_up)]⟩), (1, ⟨false, [(2, fifth)]⟩),
    (2, ⟨false, []⟩)]⟩

/-- A graph with the edges `0→1 (2147483646.0)` and `1→2 (0.99999999)`; the second weight is
the `double` `9007199164668999 * 2^(-53)`. -/
def near_max_graph : graph_t F64 :=
  ⟨[(0, ⟨false, [(1, 2147483646)]⟩),
    (1, ⟨false, [(2, .finite (9007199164668999 * 2 ^ 1021))]⟩), (2, ⟨false, []⟩)]⟩

/-- A graph whose only edge `0→1` has the weight `2147483647.0`, the value of `INT_MAX`. -/
def heavy_graph : graph_t F64 :=
  ⟨[(0, ⟨false, [(1, 2147483647)]⟩), (1, ⟨false, []⟩)]⟩

/-- A graph whose edges sum to more than `INT_MAX` while node `1` is at distance `5.0` from
node `0`. -/
def heavy_detour_graph : graph_t F64 :=
  ⟨[(0, ⟨false, [(1, 5), (2, 2147483647)]⟩), (1, ⟨false, []⟩), (2, ⟨false, [(1, 2)]⟩)]⟩

/-! ## Lemmas on `std::map`, lists and indexed graphs -/

namespace StdMap
variable {K T : Type} [LinearOrder K]

theorem find_some_mem (k : K) (v : T) (m : List (K × T)) (h : find k m = some v) :
    (k, v) ∈ m := by
  induction m with
  | nil => simp [find] at h
  | cons e rest ih =>
    obtain ⟨k', v'⟩ := e
    by_cases hk : k' = k
    · simp [find, hk] at h
      simp [hk, h]
    · simp [find, hk] at h
      exact List.mem_cons_of_mem _ (ih h)

theorem find_isSome_of_mem_keys (k : K) (m : List (K × T)) (h : k ∈ keys m) :
    ∃ v, find k m = some v := by
  induction m with
  | nil => simp [keys] at h
  | cons e rest ih =>
    obtain ⟨k', v'⟩ := e
    by_cases hk : k' = k
    · exact ⟨v', by simp [find, hk]⟩
    · have : k ∈ keys rest := by
        simp only [keys, List.map_cons, List.mem_cons] at h
        rcases h with h | h
        · exact absurd h.symm hk
        · exact h
      obtain ⟨v, hv⟩ := ih this
      exact ⟨v, by simp [find, hk, hv]⟩

theorem find_eq_none_iff (k : K) (m : List (K × T)) : find k m = none ↔ k ∉ keys m := by
  induction m with
  | nil => simp [find, keys]
  | cons e rest ih =>
    obtain ⟨k', v'⟩ := e
    by_cases hk : k' = k
    · simp [find, keys, hk]
    · have hk' : ¬ k = k' := fun h => hk h.symm
      simp [find, hk, hk', ih, keys]

theorem Sorted.tail {e : K × T} {m : List (K × T)} (h : Sorted (e :: m)) : Sorted m := by
  unfold Sorted keys at *
  simp only [List.map_cons, List.pairwise_cons] at h
  exact h.2

theorem Sorted.head_lt {e : K × T} {m : List (K × T)} (h : Sorted (e :: m)) :
    ∀ k ∈ keys m, e.1 < k := by
  unfold Sorted keys at *
  simp only [List.map_cons, List.pairwise_cons] at h
  exact h.1

theorem find_of_mem (k : K) (v : T) (m : List (K × T)) (hs : Sorted m) (h : (k, v) ∈ m) :
    find k m = some v := by
  induction m with
  | nil => simp at h
  | cons e rest ih =>
    obtain ⟨k', v'⟩ := e
    simp only [List.mem_cons, Prod.mk.injEq] at h
    rcases h with ⟨h1, h2⟩ | h
    · simp [find, h1, h2]
    · have hlt := hs.head_lt k (List.mem_map_of_mem Prod.fst h)
      have hne : ¬ k' = k := ne_of_lt hlt
      simp [find, hne, ih hs.tail h]

end StdMap

theorem getD_set {α : Type} (l : List α) (i j : Nat) (a d : α) :
    (l.set i a).getD j d = if i = j ∧ i < l.length then a else l.getD j d := by
  simp only [List.getD_eq_getElem?_getD, List.getElem?_set]
  by_cases h : i = j
  · subst h
    by_cases h2 : i < l.length
    · simp [h2]
    · simp [h2, List.getElem?_eq_none (not_lt.mp h2)]
  · simp [h]

theorem getElem?_eq_getD {α : Type} (l : List α) (i : Nat) (d : α) (h : i < l.length) :
    l[i]? = some (l.getD i d) := by
  simp [List.getD_eq_getElem?_getD, List.getElem?_eq_getElem h]

theorem count_true_set (labels : List Bool) (i : Nat) (hi : i < labels.length)
    (hf : labels.getD i false = false) :
    (labels.set i true).count true = labels.count true + 1 := by
  rw [List.count_set _ _ _ _ hi]
  have : labels[i] = false := by
    simpa [List.getD_eq_getElem?_getD, List.getElem?_eq_getElem hi] using hf
  simp [this]

namespace Graph
variable {V W : Type}

theorem Indexed.find_node {g : Graph Nat V W} (hg : g.Indexed) (u : Nat) (hu : u < g.size) :
    ∃ nd, StdMap.find u g.m_nodes = some nd := by
  apply StdMap.find_isSome_of_mem_keys
  rw [hg.keys_eq]
  exact List.mem_range.mpr hu

theorem Indexed.lt_of_find {g : Graph Nat V W} (hg : g.Indexed) (u : Nat) (nd : Node Nat V W)
    (h : StdMap.find u g.m_nodes = some nd) : u < g.size := by
  have hm := StdMap.find_some_mem u nd g.m_nodes h
  have : u ∈ StdMap.keys g.m_nodes := List.mem_map_of_mem Prod.fst hm
  rw [hg.keys_eq] at this
  exact List.mem_range.mp this

theorem Indexed.edge_of_mem {g : Graph Nat V W} (hg : g.Indexed) (u : Nat) (nd : Node Nat V W)
    (h : StdMap.find u g.m_nodes = some nd) (e : Nat × W) (he : e ∈ nd.m_edges) :
    g.edge_weight u e.1 = some e.2 ∧ e.1 < g.size := by
  have hm := StdMap.find_some_mem u nd g.m_nodes h
  refine ⟨?_, hg.targets_lt _ hm e he⟩
  simp only [edge_weight, h]
  exact StdMap.find_of_mem e.1 e.2 nd.m_edges (hg.wf.2 _ hm) he

theorem Indexed.mem_of_edge {g : Graph Nat V W} (u v : Nat) (w : W)
    (h : g.edge_weight u v = some w) :
    ∃ nd, StdMap.find u g.m_nodes = some nd ∧ (u, nd) ∈ g.m_nodes ∧ (v, w) ∈ nd.m_edges := by
  unfold edge_weight at h
  split at h
  · simp at h
  · rename_i nd hnd
    exact ⟨nd, hnd, StdMap.find_some_mem _ _ _ hnd, StdMap.find_some_mem _ _ _ h⟩

end Graph
theorem getD_set_ne {α : Type} (l : List α) {i j : Nat} (a d : α) (h : i ≠ j) :
    (l.set i a).getD j d = l.getD j d := by
  rw [getD_set, if_neg (fun h' => h h'.1)]

theorem getD_set_self {α : Type} (l : List α) {i : Nat} (a d : α) (h : i < l.length) :
    (l.set i a).getD i d = a := by
  rw [getD_set, if_pos ⟨rfl, h⟩]

theorem count_true_le (labels : List Bool) : labels.count true ≤ labels.length :=
  List.count_le_length _ _

/-! ## `min_not_visited` on any weight type -/

section
variable {W : Type}

theorem min_not_visited_first_spec (vec : List W) :
    ∀ (labels : List Bool) (i : Nat) (acc : Option (W × Nat)),
      labels.length = vec.length →
      ∃ r, min_not_visited_first i vec labels acc = .ok r ∧
        ((r = acc ∧ ∀ k, k < vec.length → labels[k]? = some true) ∨
         (∃ k x, r = some (x, i + k) ∧ vec[k]? = some x ∧ labels[k]? = some false)) := by
  induction vec with
  | nil =>
    intro labels i acc _
    exact ⟨acc, by simp [min_not_visited_first]⟩
  | cons x vec ih =>
    intro labels i acc hlen
    cases labels with
    | nil => simp at hlen
    | cons l ls =>
      have hlen' : ls.length = vec.length := by simpa using hlen
      obtain ⟨r, hr, hcase⟩ := ih ls (i + 1) (if !l then some (x, i) else acc) hlen'
      refine ⟨r, by simpa [min_not_visited_first] using hr, ?_⟩
      rcases hcase with ⟨hacc, hall⟩ | ⟨k, y, hry, hv, hl⟩
      · cases l with
        | true =>
          left
          refine ⟨by simpa using hacc, ?_⟩
          intro k hk
          cases k with
          | zero => simp
          | succ k => simpa using hall k (by simpa using hk)
        | false =>
          right
          exact ⟨0, x, by simpa using hacc, by simp, by simp⟩
      · right
        exact ⟨k + 1, y, by rw [hry]; congr 2; omega, by simpa using hv, by simpa using hl⟩

variable [LT W] [∀ a b : W, Decidable (a < b)]

/-- The second loop of `min_not_visited` returns the entry it started with or an unvisited
entry of the vector, whatever the comparison does. -/
theorem min_not_visited_second_index (vec : List W) :
    ∀ (labels : List Bool) (i : Nat) (acc : W × Nat),
      labels.length = vec.length →
      ∃ r, min_not_visited_second i vec labels acc = .ok r ∧
        (r = acc ∨ ∃ k, r.2 = i + k ∧ vec[k]? = some r.1 ∧ labels[k]? = some false) := by
  induction vec with
  | nil =>
    intro labels i acc _
    exact ⟨acc, by simp [min_not_visited_second]⟩
  | cons x vec ih =>
    intro labels i acc hlen
    cases labels with
    | nil => simp at hlen
    | cons l ls =>
      have hlen' : ls.length = vec.length := by simpa using hlen
      obtain ⟨r, hr, hcase⟩ :=
        ih ls (i + 1) (if x < acc.1 ∧ !l then (x, i) else acc) hlen'
      refine ⟨r, by simpa [min_not_visited_second] using hr, ?_⟩
      rcases hcase with hacc | ⟨k, hk, hv, hl⟩
      · by_cases hc : x < acc.1 ∧ (!l) = true
        · right
          rw [if_pos hc] at hacc
          refine ⟨0, by simp [hacc], by simp [hacc], ?_⟩
          have := hc.2
          simpa using this
        · left
          rw [if_neg hc] at hacc
          exact hacc
      · right
        exact ⟨k + 1, by omega, by simpa using hv, by simpa using hl⟩

/-- `min_not_visited` returns the none marker when every position is visited, and otherwise the
index of an unvisited position, whatever the comparison does. -/
theorem min_not_visited_index (vec : List W) (labels : List Bool)
    (hlen : labels.length = vec.length) :
    (min_not_visited vec labels = .ok SIZE_MAX ∧ ∀ k, k < vec.length → labels[k]? = some true) ∨
    ∃ r x, min_not_visited vec labels = .ok r ∧ vec[r]? = some x ∧ labels[r]? = some false := by
  obtain ⟨a, ha, hcase⟩ := min_not_visited_first_spec vec labels 0 none hlen
  rcases hcase with ⟨hnone, hall⟩ | ⟨k, x, hax, hv, hl⟩
  · left
    subst hnone
    exact ⟨by simp [min_not_visited, ha], hall⟩
  · right
    simp only [Nat.zero_add] at hax
    subst hax
    obtain ⟨r, hr, hcase⟩ := min_not_visited_second_index vec labels 0 (x, k) hlen
    simp only [Nat.zero_add] at hcase
    refine ⟨r.2, r.1, by simp [min_not_visited, ha, hr], ?_, ?_⟩
    · rcases hcase with h | ⟨j, hj, hv', _⟩
      · simpa [h] using hv
      · simpa [hj] using hv'
    · rcases hcase with h | ⟨j, hj, _, hl'⟩
      · simpa [h] using hl
      · simpa [hj] using hl'

variable [LE W]

/-- The second loop of `min_not_visited` ends on a least entry, for a comparison that is a
linear order on the values `N` that occur. -/
theorem min_not_visited_second_min (N : W → Prop) (hrefl : ∀ x, N x → x ≤ x)
    (htrans : ∀ x y z : W, x ≤ y → y ≤ z → x ≤ z) (hle : ∀ x y : W, x < y → x ≤ y)
    (htot : ∀ x y : W, N x → N y → ¬ x < y → y ≤ x) (vec : List W) :
    ∀ (labels : List Bool) (i : Nat) (acc : W × Nat), (∀ x ∈ vec, N x) → N acc.1 →
      labels.length = vec.length →
      ∃ r, min_not_visited_second i vec labels acc = .ok r ∧ r.1 ≤ acc.1 ∧
        ∀ (k : Nat) (y : W), vec[k]? = some y → labels[k]? = some false → r.1 ≤ y := by
  induction vec with
  | nil =>
    intro labels i acc _ hacc _
    exact ⟨acc, by simp [min_not_visited_second], hrefl _ hacc, by simp⟩
  | cons x vec ih =>
    intro labels i acc hN hacc hlen
    cases labels with
    | nil => simp at hlen
    | cons l ls =>
      have hlen' : ls.length = vec.length := by simpa using hlen
      have hNx : N x := hN x (List.mem_cons_self _ _)
      have hN' : ∀ y ∈ vec, N y := fun y hy => hN y (List.mem_cons_of_mem _ hy)
      have hNacc' : N (if x < acc.1 ∧ (!l) = true then (x, i) else acc).1 := by
        split
        · exact hNx
        · exact hacc
      have hacc' : (if x < acc.1 ∧ (!l) = true then (x, i) else acc).1 ≤ acc.1 := by
        split
        · rename_i h; exact hle _ _ h.1
        · exact hrefl _ hacc
      obtain ⟨r, hr, hrle, hmin⟩ :=
        ih ls (i + 1) (if x < acc.1 ∧ !l then (x, i) else acc) hN' hNacc' hlen'
      refine ⟨r, by simpa [min_not_visited_second] using hr, htrans _ _ _ hrle hacc', ?_⟩
      intro k y hv hl
      cases k with
      | zero =>
        have hxy : x = y := by simpa using hv
        have hlf : l = false := by simpa using hl
        subst hxy hlf
        by_cases hc : x < acc.1
        · have : r.1 ≤ (x, i).1 := by simpa [hc] using hrle
          exact this
        · have : r.1 ≤ acc.1 := htrans _ _ _ hrle hacc'
          exact htrans _ _ _ this (htot _ _ hNx hacc hc)
      | succ k => exact hmin k y (by simpa using hv) (by simpa using hl)

/-- `min_not_visited` returns the none marker when every position is visited, and otherwise an
unvisited position of least distance, for a comparison that is a linear order on the values
`N` that occur. -/
theorem min_not_visited_min (N : W → Prop) (hrefl : ∀ x, N x → x ≤ x)
    (htrans : ∀ x y z : W, x ≤ y → y ≤ z → x ≤ z) (hle : ∀ x y : W, x < y → x ≤ y)
    (htot : ∀ x y : W, N x → N y → ¬ x < y → y ≤ x) (vec : List W) (labels : List Bool)
    (hN : ∀ x ∈ vec, N x) (hlen : labels.length = vec.length) :
    (min_not_visited vec labels = .ok SIZE_MAX ∧ ∀ k, k < vec.length → labels[k]? = some true) ∨
    ∃ r x, min_not_visited vec labels = .ok r ∧ vec[r]? = some x ∧ labels[r]? = some false ∧
      ∀ (k : Nat) (y : W), vec[k]? = some y → labels[k]? = some false → x ≤ y := by
  obtain ⟨a, ha, hcase⟩ := min_not_visited_first_spec vec labels 0 none hlen
  rcases hcase with ⟨hnone, hall⟩ | ⟨k, x, hax, hv, hl⟩
  · left
    subst hnone
    exact ⟨by simp [min_not_visited, ha], hall⟩
  · right
    simp only [Nat.zero_add] at hax
    subst hax
    have hNx : N x := hN x (List.mem_iff_getElem?.mpr ⟨k, hv⟩)
    obtain ⟨r, hr, hcase⟩ := min_not_visited_second_index vec labels 0 (x, k) hlen
    obtain ⟨r', hr', _, hmin⟩ :=
      min_not_visited_second_min N hrefl htrans hle htot vec labels 0 (x, k) hN hNx hlen
    have hrr : r' = r := by
      rw [hr] at hr'
      injection hr' with h
      exact h.symm
    subst hrr
    simp only [Nat.zero_add] at hcase
    refine ⟨r'.2, r'.1, by simp [min_not_visited, ha, hr], ?_, ?_, hmin⟩
    · rcases hcase with h | ⟨j, hj, hv', _⟩
      · simpa [h] using hv
      · simpa [hj] using hv'
    · rcases hcase with h | ⟨j, hj, _, hl'⟩
      · simpa [h] using hl
      · simpa [hj] using hl'

end

theorem scenario_indexed : scenario.Indexed where
  wf := by
    constructor
    · unfold StdMap.Sorted StdMap.keys scenario; decide
    · unfold StdMap.Sorted StdMap.keys scenario; decide
  size_le := by decide
  keys_eq := by decide
  targets_lt := by decide

/-! ## Negative weights -/

section
variable {W : Type} [Zero W] [Add W] [LT W] [∀ a b : W, Decidable (a < b)]

theorem relax_outcome (cur n : Nat) (hcur : cur < n) :
    ∀ (es : List (Nat × W)) (ways : List W) (prev : List Nat), ways.length = n →
      (∀ e ∈ es, e.1 < n) →
      (relax cur es (ways, prev) = .error .negative_weight ∧ ∃ e ∈ es, e.2 < 0) ∨
      (∃ ways' prev', relax cur es (ways, prev) = .ok (ways', prev') ∧ ways'.length = n ∧
        ∀ e ∈ es, ¬ e.2 < 0) := by
  intro es
  induction es with
  | nil =>
    intro ways prev hlen _
    exact Or.inr ⟨ways, prev, rfl, hlen, by simp⟩
  | cons e rest ih =>
    intro ways prev hlen htar
    by_cases hneg : e.2 < 0
    · left
      exact ⟨by rw [relax, if_pos hneg], e, List.mem_cons_self _ _, hneg⟩
    · have hcl : cur < ways.length := by rw [hlen]; exact hcur
      have hvl : e.1 < ways.length := by rw [hlen]; exact htar e (List.mem_cons_self _ _)
      have htar' : ∀ e' ∈ rest, e'.1 < n := fun e' he' => htar e' (List.mem_cons_of_mem _ he')
      have hstep : relax cur (e :: rest) (ways, prev) =
          if ways.getD cur 0 + e.2 < ways.getD e.1 0 then
            relax cur rest (ways.set e.1 (ways.getD cur 0 + e.2), prev.set e.1 cur)
          else relax cur rest (ways, prev) := by
        rw [relax, if_neg hneg]
        simp only [getElem?_eq_getD ways cur 0 hcl, getElem?_eq_getD ways e.1 0 hvl]
      have key : ∀ (ways1 : List W) (prev1 : List Nat), ways1.length = n →
          (relax cur rest (ways1, prev1) = .error .negative_weight ∧
            ∃ e' ∈ e :: rest, e'.2 < 0) ∨
          (∃ ways' prev', relax cur rest (ways1, prev1) = .ok (ways', prev') ∧
            ways'.length = n ∧ ∀ e' ∈ e :: rest, ¬ e'.2 < 0) := by
        intro ways1 prev1 hlen1
        rcases ih ways1 prev1 hlen1 htar' with ⟨h1, e', he', h2⟩ | ⟨ways', prev', h1, h2, h3⟩
        · exact Or.inl ⟨h1, e', List.mem_cons_of_mem _ he', h2⟩
        · refine Or.inr ⟨ways', prev', h1, h2, ?_⟩
          intro e' he'
          rcases List.mem_cons.mp he' with h | h
          · rw [h]; exact hneg
          · exact h3 e' h
      rw [hstep]
      split
      · exact key _ _ (by simp [hlen])
      · exact key _ _ hlen

theorem main_loop_outcome {g : graph_t W} (hg : g.Indexed) :
    ∀ (fuel : Nat) (ways : List W) (labels : List Bool) (prev : List Nat),
      ways.length = g.size → labels.length = g.size → g.size - labels.count true < fuel →
      (∀ p ∈ g.m_nodes, labels.getD p.1 false = true → ∀ e ∈ p.2.m_edges, ¬ e.2 < 0) →
      (main_loop g fuel ways labels prev = .error .negative_weight ∧
        ∃ p ∈ g.m_nodes, ∃ e ∈ p.2.m_edges, e.2 < 0) ∨
      (∃ st, main_loop g fuel ways labels prev = .ok st ∧ st.1.length = g.size ∧
        ∀ p ∈ g.m_nodes, ∀ e ∈ p.2.m_edges, ¬ e.2 < 0) := by
  intro fuel
  induction fuel with
  | zero => intro _ _ _ _ _ h; omega
  | succ fuel ih =>
    intro ways labels prev hwl hll hfuel hvis
    rcases min_not_visited_index ways labels (by rw [hll, hwl]) with
      ⟨hr, hall⟩ | ⟨cur, x, hr, hx, hl⟩
    · right
      refine ⟨(ways, prev), by simp [main_loop, hr], hwl, ?_⟩
      intro p hp
      apply hvis p hp
      have hlt : p.1 < g.size := by
        have : p.1 ∈ StdMap.keys g.m_nodes := List.mem_map_of_mem Prod.fst hp
        rw [hg.keys_eq] at this
        exact List.mem_range.mp this
      simp [List.getD_eq_getElem?_getD, hall p.1 (by rw [hwl]; exact hlt)]
    · obtain ⟨hcl, _⟩ := List.getElem?_eq_some.mp hx
      have hcur : cur < g.size := by rw [← hwl]; exact hcl
      have hne : cur ≠ SIZE_MAX := by
        have := hg.size_le
        omega
      obtain ⟨nd, hfind⟩ := hg.find_node cur hcur
      have hmem : (cur, nd) ∈ g.m_nodes := StdMap.find_some_mem _ _ _ hfind
      have hnd : g.get_node cur = .ok nd := by simp [Graph.get_node, StdMap.at, hfind]
      have hcl' : cur < labels.length := by rw [hll]; exact hcur
      have hld : labels.getD cur false = false := by
        simp [List.getD_eq_getElem?_getD, hl]
      rcases relax_outcome cur g.size hcur nd.m_edges ways prev hwl
          (fun e he => hg.targets_lt _ hmem e he) with
        ⟨hrel, e, he, hneg⟩ | ⟨ways', prev', hrel, hwl', hpos⟩
      · left
        exact ⟨by simp [main_loop, hr, hne, hnd, hrel], (cur, nd), hmem, e, he, hneg⟩
      · have hcnt := count_true_set labels cur hcl' hld
        have hle := count_true_le (labels.set cur true)
        rw [List.length_set, hll] at hle
        have hstep : main_loop g (fuel + 1) ways labels prev =
            main_loop g fuel ways' (labels.set cur true) prev' := by
          simp [main_loop, hr, hne, hnd, hrel]
        rw [hstep]
        apply ih ways' (labels.set cur true) prev' hwl' (by simp [hll]) (by omega)
        intro p hp hlab e he
        by_cases hpc : p.1 = cur
        · have : StdMap.find cur g.m_nodes = some p.2 := by
            apply StdMap.find_of_mem _ _ _ hg.wf.1
            rw [← hpc]
            exact hp
          rw [hfind] at this
          have hnd2 : nd = p.2 := by simpa using this
          rw [← hnd2] at he
          exact hpos e he
        · rw [getD_set_ne _ _ _ (Ne.symm hpc)] at hlab
          exact hvis p hp hlab e he

omit [Zero W] [Add W] [LT W] [∀ a b : W, Decidable (a < b)] in
theorem route_loop_not_negative (prev : List Nat) (s : Nat) :
    ∀ (fuel i : Nat) (acc : List Nat),
      route_loop prev s fuel i acc ≠ .error .negative_weight := by
  intro fuel
  induction fuel with
  | zero => intro i acc h; simp [route_loop] at h
  | succ fuel ih =>
    intro i acc h
    rw [route_loop] at h
    split at h
    · simp at h
    · split at h
      · simp at h
      · exact ih _ _ h

variable [NatCast W]

theorem deijkstra_outcome {g : graph_t W} (hg : g.Indexed) {s fuel : Nat} (t : Nat)
    (hs : s < g.size) (hfuel : g.size < fuel) :
    (deijkstra fuel g s t = .error .negative_weight ∧
      ∃ p ∈ g.m_nodes, ∃ e ∈ p.2.m_edges, e.2 < 0) ∨
    (deijkstra fuel g s t ≠ .error .negative_weight ∧
      ∀ p ∈ g.m_nodes, ∀ e ∈ p.2.m_edges, ¬ e.2 < 0) := by
  have hlab : ∀ v, (List.replicate g.size false).getD v false = false := by
    intro v
    simp only [List.getD_eq_getElem?_getD, List.getElem?_replicate]
    split <;> rfl
  rcases main_loop_outcome hg fuel ((List.replicate g.size (INT_MAX : W)).set s 0)
      (List.replicate g.size false) (List.replicate g.size SIZE_MAX) (by simp) (by simp)
      (by omega) (fun p _ h => by rw [hlab] at h; exact absurd h (by simp)) with
    ⟨h, hex⟩ | ⟨st, h, _, hnn⟩
  · left
    refine ⟨?_, hex⟩
    unfold deijkstra
    rw [if_neg (by omega), h]
  · right
    refine ⟨?_, hnn⟩
    unfold deijkstra
    rw [if_neg (by omega), h]
    simp only
    split
    · split
      · simp
      · split
        · rename_i e he
          intro h2
          injection h2 with h3
          rw [h3] at he
          exact route_loop_not_negative _ _ _ _ _ he
        · simp
    · simp

theorem deijkstra_negative {g : graph_t W} (hg : g.Indexed) {s fuel : Nat} (t : Nat)
    (hs : s < g.size) (hfuel : g.size < fuel) {u v : Nat} {w : W}
    (hedge : g.edge_weight u v = some w) (hneg : w < 0) :
    deijkstra fuel g s t = .error .negative_weight := by
  rcases deijkstra_outcome hg t hs hfuel with ⟨h, _⟩ | ⟨_, hnn⟩
  · exact h
  · obtain ⟨nd, _, hmem, hvw⟩ := Graph.Indexed.mem_of_edge u v w hedge
    exact absurd hneg (hnn _ hmem _ hvw)

theorem deijkstra_negative_only {g : graph_t W} (hg : g.Indexed) {s fuel : Nat} (t : Nat)
    (hs : s < g.size) (hfuel : g.size < fuel)
    (h : deijkstra fuel g s t = .error .negative_weight) :
    ∃ u v w, g.edge_weight u v = some w ∧ w < 0 := by
  rcases deijkstra_outcome hg t hs hfuel with ⟨_, p, hp, e, he, hneg⟩ | ⟨h2, _⟩
  · have hfind : StdMap.find p.1 g.m_nodes = some p.2 :=
      StdMap.find_of_mem p.1 p.2 g.m_nodes hg.wf.1 hp
    exact ⟨p.1, e.1, e.2, (hg.edge_of_mem p.1 p.2 hfind e he).1, hneg⟩
  · exact absurd h h2

end

theorem negative_scenario_indexed : negative_scenario.Indexed where
  wf := by
    constructor
    · unfold StdMap.Sorted StdMap.keys negative_scenario; decide
    · unfold StdMap.Sorted StdMap.keys negative_scenario; decide
  size_le := by decide
  keys_eq := by decide
  targets_lt := by decide

theorem unreachable_negative_graph_indexed : unreachable_negative_graph.Indexed where
  wf := by
    constructor
    · unfold StdMap.Sorted StdMap.keys unreachable_negative_graph; decide
    · unfold StdMap.Sorted StdMap.keys unreachable_negative_graph; decide
  size_le := by decide
  keys_eq := by decide
  targets_lt := by decide

/-! ## The claims on `deijkstra` that do not depend on the arithmetic -/

section Claims

variable {W : Type} [Zero W] [Add W] [NatCast W] [LT W] [∀ a b : W, Decidable (a < b)]

/-- C4 fails on the code: with destination equal to source the source never gets a
predecessor, the test `prev_points[key_to] == -1` succeeds, and `deijkstra` returns weight `0`
with the no-path route `[size_t(-1)]` instead of the route `[0]`; the same with the weights of
the scenario as `double`s. -/
theorem deijkstra_same_key_no_path :
    deijkstra 5 scenario 0 0 = .ok (0, [SIZE_MAX]) ∧
    deijkstra 5 scenario 0 0 ≠ .ok (0, [0]) ∧
    deijkstra 5 scenario_double 0 0 = .ok (0, [SIZE_MAX]) ∧
    deijkstra 5 scenario_double 0 0 ≠ .ok (0, [0]) :=
  ⟨rfl, by
    intro h
    have h2 : (Except.ok (0, [SIZE_MAX]) : Except Error (Int × List Nat)) = .ok (0, [0]) :=
      h
    injection h2 with h3
    have := (Prod.mk.inj h3).2
    simp [SIZE_MAX] at this, by decide!, by decide!⟩

/-- C5: on a well-formed graph with keys exactly `0..n-1` and edge targets in `0..n-1`, if an
edge of negative weight leaves a node `u` reachable from the source, `deijkstra` raises the
negative-weight error, whatever the destination. -/
theorem deijkstra_negative_weight_raises {g : graph_t W} {s t fuel u v : Nat} {w : W}
    (hg : g.Indexed) (hs : s < g.size) (_ht : t < g.size) (_hreach : g.Reachable s u)
    (hedge : g.edge_weight u v = some w) (hneg : w < 0) (hfuel : g.size < fuel) :
    deijkstra fuel g s t = .error .negative_weight :=
  deijkstra_negative hg t hs hfuel hedge hneg

/-- Witness of C5: the edge `2→3 (-1)` lies on no path from `0` to `1`, and the query from `0`
to `1` raises. -/
theorem deijkstra_negative_weight_raises_witness :
    deijkstra 5 negative_scenario 0 1 = .error .negative_weight :=
  deijkstra_negative_weight_raises (u := 2) (v := 3) (w := -1) negative_scenario_indexed
    (by decide) (by decide) ⟨[0, 2], rfl, rfl, rfl, trivial⟩ rfl (by decide) (by decide)

/-- C20: on an indexed graph, for keys `s`, `t` in range, `deijkstra` raises the negative-weight
error if and only if the graph has an edge of negative weight, wherever it is. -/
theorem deijkstra_negative_weight_iff {g : graph_t W} {s t fuel : Nat} (hg : g.Indexed)
    (hs : s < g.size) (_ht : t < g.size) (hfuel : g.size < fuel) :
    deijkstra fuel g s t = .error .negative_weight ↔
      ∃ u v w, g.edge_weight u v = some w ∧ w < 0 := by
  constructor
  · intro herr
    exact deijkstra_negative_only hg t hs hfuel herr
  · rintro ⟨u, v, w, hedge, hneg⟩
    exact deijkstra_negative hg t hs hfuel hedge hneg

/-- Witness of C20: the negative edge `1→0` leaves node `1`, which is not reachable from the
source `0`, and the query raises. -/
theorem deijkstra_negative_weight_iff_witness :
    deijkstra 3 unreachable_negative_graph 0 0 = .error .negative_weight ∧
    (deijkstra 3 unreachable_negative_graph 0 0 = .error .negative_weight ↔
      ∃ u v w, unreachable_negative_graph.edge_weight u v = some w ∧ w < 0) :=
  ⟨rfl, deijkstra_negative_weight_iff unreachable_negative_graph_indexed (by decide)
    (by decide) (by decide)⟩

end Claims

/-! ## Construction from a matrix -/

namespace StdMap
variable {K T : Type} [LinearOrder K]

theorem mem_keys_insert (k : K) (v : T) (x : K) (m : List (K × T)) :
    x ∈ keys (insert k v m).1 ↔ x = k ∨ x ∈ keys m := by
  induction m with
  | nil => simp [insert, keys]
  | cons e rest ih =>
    obtain ⟨k', v'⟩ := e
    by_cases h1 : k < k'
    · simp [insert, h1, keys]
    · by_cases h2 : k' = k
      · subst h2
        simp [insert, keys]
      · have ih' : x ∈ List.map Prod.fst (insert k v rest).1 ↔ x = k ∨ x ∈ List.map Prod.fst rest :=
          ih
        simp only [insert, if_neg h1, if_neg h2, keys, List.map_cons, List.mem_cons, ih']
        tauto

theorem find_insert_absent (k : K) (v : T) (x : K) (m : List (K × T)) (h : find k m = none) :
    find x (insert k v m).1 = if x = k then some v else find x m := by
  induction m with
  | nil =>
    by_cases hx : x = k
    · simp [insert, find, hx]
    · have : ¬ k = x := fun h' => hx h'.symm
      simp [insert, find, hx, this]
  | cons e rest ih =>
    obtain ⟨k', v'⟩ := e
    have hk' : ¬ k' = k := by
      intro h'
      simp [find, h'] at h
    have hrest : find k rest = none := by
      simpa [find, hk'] using h
    by_cases h1 : k < k'
    · by_cases hx : x = k
      · simp [insert, h1, find, hx]
      · have : ¬ k = x := fun h' => hx h'.symm
        simp [insert, h1, find, hx, this]
    · simp only [insert, if_neg h1, if_neg hk', find, ih hrest]
      by_cases hx : x = k
      · have : ¬ k' = x := by rw [hx]; exact hk'
        simp [hx, hk']
      · simp [hx]

theorem find_modify (k : K) (f : T → T) (x : K) (m : List (K × T)) :
    find x (modify k f m) = if x = k then (find k m).map f else find x m := by
  induction m with
  | nil => simp [modify, find]
  | cons e rest ih =>
    obtain ⟨k', v'⟩ := e
    by_cases h1 : k' = k
    · subst h1
      by_cases hx : x = k'
      · simp [modify, find, hx]
      · have : ¬ k' = x := fun h' => hx h'.symm
        simp [modify, find, hx, this]
    · by_cases hx : x = k
      · subst hx
        simp [modify, find, h1, ih]
      · simp [modify, find, h1, ih, hx]

theorem keys_modify (k : K) (f : T → T) (m : List (K × T)) :
    keys (modify k f m) = keys m := by
  induction m with
  | nil => rfl
  | cons e rest ih =>
    obtain ⟨k', v'⟩ := e
    have ih' : List.map Prod.fst (modify k f rest) = List.map Prod.fst rest := ih
    by_cases h1 : k' = k
    · simp [modify, h1, keys]
    · simp [modify, h1, keys, ih']

theorem mem_keys_foldl_insert (x : K) (l : List (K × T)) :
    ∀ m : List (K × T),
      x ∈ keys (l.foldl (fun m p => (insert p.1 p.2 m).1) m) ↔ x ∈ keys m ∨ x ∈ keys l := by
  induction l with
  | nil => intro m; simp [keys]
  | cons p l ih =>
    intro m
    rw [List.foldl_cons, ih, mem_keys_insert]
    simp only [keys, List.map_cons, List.mem_cons]
    tauto

theorem find_foldl_insert (x : K) (v : T) (l : List (K × T)) :
    ∀ m : List (K × T), (keys l).Nodup → (∀ y ∈ keys l, y ∉ keys m) →
      (find x (l.foldl (fun m p => (insert p.1 p.2 m).1) m) = some v ↔
        find x m = some v ∨ (x, v) ∈ l) := by
  induction l with
  | nil => intro m _ _; simp
  | cons p l ih =>
    intro m hnd hdisj
    have hnd' : p.1 ∉ keys l ∧ (keys l).Nodup := by
      simpa [keys] using hnd
    have hp : find p.1 m = none :=
      (find_eq_none_iff p.1 m).mpr (hdisj p.1 (by simp [keys]))
    have hdisj' : ∀ y ∈ keys l, y ∉ keys (insert p.1 p.2 m).1 := by
      intro y hy hy'
      rcases (mem_keys_insert _ _ _ _).mp hy' with h | h
      · exact hnd'.1 (h ▸ hy)
      · exact hdisj y (by simp only [keys, List.map_cons, List.mem_cons]; exact Or.inr hy) h
    rw [List.foldl_cons, ih _ hnd'.2 hdisj', find_insert_absent _ _ _ _ hp]
    by_cases hx : x = p.1
    · subst hx
      simp only [if_true, hp, List.mem_cons]
      constructor
      · rintro (h | h)
        · right; left
          have : p.2 = v := by simpa using h
          rw [← this]
        · right; right; exact h
      · rintro (h | h | h)
        · simp at h
        · left
          have : v = p.2 := by
            have := congrArg Prod.snd h
            simpa using this
          rw [this]
        · right; exact h
    · simp only [if_neg hx, List.mem_cons]
      constructor
      · rintro (h | h)
        · left; exact h
        · right; right; exact h
      · rintro (h | h | h)
        · left; exact h
        · exact absurd (congrArg Prod.fst h) hx
        · right; exact h

end StdMap

theorem range_foldlM_inv {β : Type} (f : β → Nat → Except Error β) (P : Nat → β → Prop) :
    ∀ (n : Nat) (b0 : β), P 0 b0 →
      (∀ k b, k < n → P k b → ∃ b', f b k = .ok b' ∧ P (k + 1) b') →
      ∃ b', (List.range n).foldlM f b0 = .ok b' ∧ P n b' := by
  intro n
  induction n with
  | zero =>
    intro b0 h0 _
    exact ⟨b0, rfl, h0⟩
  | succ n ih =>
    intro b0 h0 hstep
    obtain ⟨b1, hb1, hP1⟩ := ih b0 h0 (fun k b hk hP => hstep k b (by omega) hP)
    obtain ⟨b2, hb2, hP2⟩ := hstep n b1 (by omega) hP1
    refine ⟨b2, ?_, hP2⟩
    rw [List.range_succ, List.foldlM_append, hb1]
    simp [List.foldlM, bind, Except.bind, hb2, pure, Except.pure]

namespace Graph
variable {K V W : Type} [LinearOrder K]

theorem insert_edge_of_find {g : Graph K V W} {a : K} {nd : Node K V W} (b : K) (w : W)
    (h : StdMap.find a g.m_nodes = some nd) :
    g.insert_edge (a, b) w =
      .ok (⟨StdMap.modify a (fun x => (x.insert_edge b w).1) g.m_nodes⟩,
        (nd.insert_edge b w).2) := by
  simp [insert_edge, StdMap.at, h]

theorem insert_node_fold (k : Nat → K) (v : V) (l : List Nat) :
    ∀ m : List (K × Node K V W),
      (l.foldl (fun g i => (g.insert_node (k i) v).1) (⟨m⟩ : Graph K V W)).m_nodes =
        (l.map (fun i => (k i, (Node.ofValue v : Node K V W)))).foldl
          (fun m p => (StdMap.insert p.1 p.2 m).1) m := by
  induction l with
  | nil => intro m; rfl
  | cons i l ih =>
    intro m
    simp only [List.foldl_cons, List.map_cons]
    exact ih _

section FillCongr
variable [Zero W]

theorem FillInv.congr {key_of : Nat → Except Error K} {matr : Matrix W} {N : Nat}
    {g0 g : Graph K V W} {S S' : Nat → Nat → Prop} (h : FillInv key_of matr N g0 g S)
    (hS : ∀ i j, i < N → j < N → (S i j ↔ S' i j)) : FillInv key_of matr N g0 g S' := by
  refine ⟨h.1, ?_⟩
  intro i j a b hi hj ha hb
  obtain ⟨h1, h2⟩ := h.2 i j a b hi hj ha hb
  rw [← hS i j hi hj]
  exact ⟨h1, h2⟩

end FillCongr

section Fill
variable [Zero W] [DecidableEq W]

theorem fill_cell_keys (key_of : Nat → Except Error K) (matr : Matrix W) (i j : Nat)
    (g : Graph K V W) {a b : K} (hi : key_of i = .ok a) (hj : key_of j = .ok b)
    (ha : a ∈ StdMap.keys g.m_nodes) :
    ∃ g', fill_cell key_of matr i g j = .ok g' ∧
      StdMap.keys g'.m_nodes = StdMap.keys g.m_nodes := by
  unfold fill_cell
  by_cases hz : matr.cell i j ≠ 0
  · obtain ⟨nd, hnd⟩ := StdMap.find_isSome_of_mem_keys a g.m_nodes ha
    rw [if_pos hz, hi, hj]
    simp only [insert_edge_of_find b (matr.cell i j) hnd]
    exact ⟨_, rfl, StdMap.keys_modify _ _ _⟩
  · rw [if_neg hz]
    exact ⟨g, rfl, rfl⟩

theorem fill_edges_keys (key_of : Nat → Except Error K) (matr : Matrix W) (g0 : Graph K V W)
    (hrow : ∀ i, i < matr.num_rows → ∃ a, key_of i = .ok a ∧ a ∈ StdMap.keys g0.m_nodes)
    (hcol : ∀ j, j < matr.num_cols → ∃ b, key_of j = .ok b) :
    ∃ g, fill_edges key_of matr g0 = .ok g ∧
      StdMap.keys g.m_nodes = StdMap.keys g0.m_nodes := by
  unfold fill_edges
  apply range_foldlM_inv _ (fun _ g => StdMap.keys g.m_nodes = StdMap.keys g0.m_nodes)
    matr.num_rows g0 rfl
  intro i g hi hg
  obtain ⟨a, ha, hmem⟩ := hrow i hi
  obtain ⟨g', hg', hk⟩ := range_foldlM_inv (fill_cell key_of matr i)
    (fun _ g' => StdMap.keys g'.m_nodes = StdMap.keys g0.m_nodes) matr.num_cols g hg
    (by
      intro j g1 hj hg1
      obtain ⟨b, hb⟩ := hcol j hj
      obtain ⟨g2, h2, hk2⟩ := fill_cell_keys key_of matr i j g1 ha hb (by rw [hg1]; exact hmem)
      exact ⟨g2, h2, hk2.trans hg1⟩)
  exact ⟨g', hg', hk⟩

theorem FillInv.cell {key_of : Nat → Except Error K} {matr : Matrix W} {N : Nat}
    {g0 g : Graph K V W} {S S' : Nat → Nat → Prop} (h : FillInv key_of matr N g0 g S)
    (hkey : ∀ i, i < N → ∃ a, key_of i = .ok a ∧ (StdMap.find a g0.m_nodes).isSome)
    (hinj : ∀ i j a, i < N → j < N → key_of i = .ok a → key_of j = .ok a → i = j)
    {i j : Nat} (hi : i < N) (hj : j < N) (hS : ¬ S i j)
    (hS' : ∀ i' j', S' i' j' ↔ (S i' j' ∨ (i' = i ∧ j' = j))) :
    ∃ g', fill_cell key_of matr i g j = .ok g' ∧ FillInv key_of matr N g0 g' S' := by
  obtain ⟨a, ha, ha0⟩ := hkey i hi
  obtain ⟨b, hb, _⟩ := hkey j hj
  unfold fill_cell
  by_cases hz : matr.cell i j ≠ 0
  · have hsome : (StdMap.find a g.m_nodes).isSome := by
      have := h.1 a
      obtain ⟨nd0, hnd0⟩ := Option.isSome_iff_exists.mp ha0
      rw [hnd0] at this
      cases hfa : StdMap.find a g.m_nodes with
      | none => rw [hfa] at this; simp at this
      | some nd => rfl
    obtain ⟨nd, hnd⟩ := Option.isSome_iff_exists.mp hsome
    have habs : StdMap.find b nd.m_edges = none := by
      have := (h.2 i j a b hi hj ha hb).2 (fun hh => hS hh.1)
      simpa [edge_weight, hnd] using this
    rw [if_pos hz, ha, hb]
    simp only [insert_edge_of_find b (matr.cell i j) hnd]
    refine ⟨_, rfl, ?_, ?_⟩
    · intro x
      simp only [StdMap.find_modify]
      by_cases hx : x = a
      · subst hx
        rw [if_pos rfl, ← h.1 x, hnd]
        rfl
      · rw [if_neg hx, h.1 x]
    · intro i' j' a' b' hi' hj' ha' hb'
      obtain ⟨h1, h2⟩ := h.2 i' j' a' b' hi' hj' ha' hb'
      have hedge : edge_weight ⟨StdMap.modify a (fun x => (x.insert_edge b (matr.cell i j)).1)
          g.m_nodes⟩ a' b' =
          if a' = a ∧ b' = b then some (matr.cell i j) else g.edge_weight a' b' := by
        simp only [edge_weight, StdMap.find_modify]
        by_cases haa : a' = a
        · subst haa
          simp only [if_true, hnd, Option.map_some', Node.insert_edge, true_and]
          rw [StdMap.find_insert_absent _ _ _ _ habs]
        · simp [haa]
      rw [hedge, hS']
      by_cases hcell : i' = i ∧ j' = j
      · obtain ⟨rfl, rfl⟩ := hcell
        have haa : a' = a := by
          rw [ha] at ha'
          injection ha' with h'
          exact h'.symm
        have hbb : b' = b := by
          rw [hb] at hb'
          injection hb' with h'
          exact h'.symm
        rw [if_pos ⟨haa, hbb⟩]
        exact ⟨fun _ => rfl, fun hn => absurd ⟨Or.inr ⟨rfl, rfl⟩, hz⟩ hn⟩
      · have hne : ¬ (a' = a ∧ b' = b) := by
          rintro ⟨rfl, rfl⟩
          exact hcell ⟨hinj i' i a' hi' hi ha' ha, hinj j' j b' hj' hj hb' hb⟩
        rw [if_neg hne]
        constructor
        · rintro ⟨hs | hs, hm⟩
          · exact h1 ⟨hs, hm⟩
          · exact absurd hs hcell
        · intro hn
          exact h2 (fun hh => hn ⟨Or.inl hh.1, hh.2⟩)
  · rw [if_neg hz]
    refine ⟨g, rfl, h.1, ?_⟩
    intro i' j' a' b' hi' hj' ha' hb'
    obtain ⟨h1, h2⟩ := h.2 i' j' a' b' hi' hj' ha' hb'
    rw [hS']
    constructor
    · rintro ⟨hs | hs, hm⟩
      · exact h1 ⟨hs, hm⟩
      · obtain ⟨rfl, rfl⟩ := hs
        exact absurd hm hz
    · intro hn
      exact h2 (fun hh => hn ⟨Or.inl hh.1, hh.2⟩)

theorem fill_edges_spec (key_of : Nat → Except Error K) {matr : Matrix W} {N : Nat}
    (g0 : Graph K V W) (hr : matr.num_rows = N) (hc : matr.num_cols = N)
    (hkey : ∀ i, i < N → ∃ a, key_of i = .ok a ∧ (StdMap.find a g0.m_nodes).isSome)
    (hinj : ∀ i j a, i < N → j < N → key_of i = .ok a → key_of j = .ok a → i = j)
    (hempty : ∀ x nd, StdMap.find x g0.m_nodes = some nd → nd.m_edges = []) :
    ∃ g, fill_edges key_of matr g0 = .ok g ∧
      FillInv key_of matr N g0 g (fun _ _ => True) := by
  have h0 : FillInv key_of matr N g0 g0 (fun i' _ => i' < 0) := by
    refine ⟨fun _ => rfl, ?_⟩
    intro i j a b _ _ _ _
    refine ⟨fun h => absurd h.1 (Nat.not_lt_zero _), fun _ => ?_⟩
    unfold edge_weight
    cases hfa : StdMap.find a g0.m_nodes with
    | none => rfl
    | some nd => simp [hempty a nd hfa, StdMap.find]
  obtain ⟨g, hg, hinv⟩ := range_foldlM_inv
    (fun g i => (List.range matr.num_cols).foldlM (fill_cell key_of matr i) g)
    (fun i g => FillInv key_of matr N g0 g (fun i' _ => i' < i)) matr.num_rows g0 h0
    (by
      intro i g hi hg
      rw [hr] at hi
      obtain ⟨g', hg', hinv'⟩ := range_foldlM_inv (fill_cell key_of matr i)
        (fun j g' => FillInv key_of matr N g0 g' (fun i' j' => i' < i ∨ (i' = i ∧ j' < j)))
        matr.num_cols g (hg.congr (fun i' j' _ _ => by omega))
        (by
          intro j g1 hj hg1
          rw [hc] at hj
          exact hg1.cell hkey hinj hi hj (by omega) (fun i' j' => by omega))
      refine ⟨g', hg', hinv'.congr ?_⟩
      intro i' j' _ hj'
      rw [hc]
      omega)
  refine ⟨g, hg, hinv.congr ?_⟩
  intro i' j' hi' _
  rw [hr]
  simp [hi']

end Fill
end Graph

theorem nodup_getElem?_inj {α : Type} {l : List α} (h : l.Nodup) {i j : Nat} {a : α}
    (hi : l[i]? = some a) (hj : l[j]? = some a) : i = j := by
  obtain ⟨_, hia⟩ := List.getElem?_eq_some.mp hi
  obtain ⟨_, hja⟩ := List.getElem?_eq_some.mp hj
  exact (List.Nodup.getElem_inj_iff h).mp (hia.trans hja.symm)

namespace Graph
variable {K V W : Type} [LinearOrder K]

/-- The nodes built from distinct keys: each supplied key carries its value and no edge. -/
theorem find_of_range_nodes (l : List (K × V)) (hd : (l.map Prod.fst).Nodup) (k : K)
    (nd : Node K V W) :
    StdMap.find k (StdMap.of_range (l.map (fun p => (p.1, (Node.ofValue p.2 : Node K V W)))))
        = some nd ↔ ∃ v, (k, v) ∈ l ∧ nd = Node.ofValue v := by
  unfold StdMap.of_range
  rw [StdMap.find_foldl_insert k nd _ [] (by simpa [StdMap.keys, List.map_map] using hd)
    (by simp [StdMap.keys])]
  simp only [StdMap.find, List.mem_map, Prod.mk.injEq]
  constructor
  · rintro (h | ⟨p, hp, h1, h2⟩)
    · simp at h
    · exact ⟨p.2, by rw [← h1]; exact hp, h2.symm⟩
  · rintro ⟨v, hv, h⟩
    exact Or.inr ⟨(k, v), hv, rfl, h.symm⟩

section Fill
variable [Zero W] [DecidableEq W]

theorem of_matrix_ok (nodes : List (K × V)) (matr : Matrix W)
    (hsq : matr.num_rows = matr.num_cols) (hn : matr.num_rows = nodes.length) :
    ∃ g, of_matrix nodes matr = .ok g := by
  unfold of_matrix
  rw [if_neg (by rw [not_or]; exact ⟨not_not.mpr hsq, not_not.mpr hn⟩)]
  have hk : ∀ i, i < nodes.length → ∃ a,
      (match nodes[i]? with
        | some p => (Except.ok p.1 : Except Error K)
        | none => .error .undefined_behaviour) = .ok a ∧ a ∈ nodes.map Prod.fst := by
    intro i hi
    refine ⟨nodes[i].1, by simp [List.getElem?_eq_getElem hi], ?_⟩
    exact List.mem_map_of_mem Prod.fst (List.getElem_mem hi)
  obtain ⟨g, hg, _⟩ := fill_edges_keys
    (fun i => match nodes[i]? with
      | some p => (Except.ok p.1 : Except Error K)
      | none => .error .undefined_behaviour) matr
    (⟨StdMap.of_range (nodes.map (fun p => (p.1, Node.ofValue p.2)))⟩ : Graph K V W)
    (by
      intro i hi
      obtain ⟨a, ha, hmem⟩ := hk i (by omega)
      refine ⟨a, ha, ?_⟩
      unfold StdMap.of_range
      rw [StdMap.mem_keys_foldl_insert]
      right
      simpa [StdMap.keys, List.map_map] using hmem)
    (by
      intro j hj
      obtain ⟨b, hb, _⟩ := hk j (by omega)
      exact ⟨b, hb⟩)
  exact ⟨g, hg⟩

theorem of_matrix_characterised (nodes : List (K × V)) (matr : Matrix W) (N : Nat)
    (hr : matr.num_rows = N) (hc : matr.num_cols = N) (hn : nodes.length = N)
    (hd : (nodes.map Prod.fst).Nodup) :
    ∃ g, of_matrix nodes matr = .ok g ∧
      (∀ k v, (k, v) ∈ nodes ↔ ∃ nd, StdMap.find k g.m_nodes = some nd ∧ nd.m_value = v) ∧
      ∀ i j p q, nodes[i]? = some p → nodes[j]? = some q →
        (matr.cell i j ≠ 0 → g.edge_weight p.1 q.1 = some (matr.cell i j)) ∧
        (matr.cell i j = 0 → g.edge_weight p.1 q.1 = none) := by
  have hfind := find_of_range_nodes (W := W) nodes hd
  obtain ⟨g, hg, hval, hedge⟩ := fill_edges_spec
    (fun i => match nodes[i]? with
      | some p => (Except.ok p.1 : Except Error K)
      | none => .error .undefined_behaviour)
    (⟨StdMap.of_range (nodes.map (fun p => (p.1, Node.ofValue p.2)))⟩ : Graph K V W)
    hr hc
    (by
      intro i hi
      have hi' : i < nodes.length := by omega
      refine ⟨nodes[i].1, by simp [List.getElem?_eq_getElem hi'], ?_⟩
      rw [(hfind nodes[i].1 (Node.ofValue nodes[i].2)).mpr
        ⟨nodes[i].2, List.getElem_mem hi', rfl⟩]
      rfl)
    (by
      intro i j a hi hj hia hja
      have hi' : i < nodes.length := by omega
      have hj' : j < nodes.length := by omega
      simp only [List.getElem?_eq_getElem hi', Except.ok.injEq] at hia
      simp only [List.getElem?_eq_getElem hj', Except.ok.injEq] at hja
      apply nodup_getElem?_inj hd (a := a)
      · rw [List.getElem?_map, List.getElem?_eq_getElem hi', Option.map_some', hia]
      · rw [List.getElem?_map, List.getElem?_eq_getElem hj', Option.map_some', hja])
    (by
      intro x nd hx
      obtain ⟨v, _, hv⟩ := (hfind x nd).mp hx
      rw [hv]
      rfl)
  refine ⟨g, ?_, ?_, ?_⟩
  · unfold of_matrix
    rw [if_neg (by simp [hr, hc, hn])]
    exact hg
  · intro k v
    have hv := hval k
    constructor
    · intro hkv
      rw [(hfind k (Node.ofValue v)).mpr ⟨v, hkv, rfl⟩] at hv
      cases hfk : StdMap.find k g.m_nodes with
      | none => rw [hfk] at hv; simp at hv
      | some nd =>
        rw [hfk] at hv
        exact ⟨nd, rfl, by simpa [Node.ofValue] using hv⟩
    · rintro ⟨nd, hnd, hnv⟩
      rw [hnd] at hv
      cases hfk : StdMap.find k (StdMap.of_range
          (nodes.map (fun p => (p.1, (Node.ofValue p.2 : Node K V W))))) with
      | none => rw [hfk] at hv; simp at hv
      | some nd0 =>
        rw [hfk] at hv
        obtain ⟨v0, hv0, hnd0⟩ := (hfind k nd0).mp hfk
        have : nd.m_value = nd0.m_value := by simpa using hv
        rw [hnd0] at this
        have hvv : v = v0 := by rw [← hnv, this]; rfl
        rw [hvv]
        exact hv0
  · intro i j p q hp hq
    obtain ⟨hi, _⟩ := List.getElem?_eq_some.mp hp
    obtain ⟨hj, _⟩ := List.getElem?_eq_some.mp hq
    obtain ⟨h1, h2⟩ := hedge i j p.1 q.1 (by omega) (by omega) (by simp [hp]) (by simp [hq])
    exact ⟨fun h => h1 ⟨trivial, h⟩, fun h => h2 (fun hh => hh.2 h)⟩

end Fill
end Graph

theorem read_graph_nodes {W : Type} (N : Nat) :
    ((List.range N).foldl (fun g i => (g.insert_node i false).1) (⟨[]⟩ : graph_t W)) =
      ⟨StdMap.of_range (((List.range N).map (fun i => (i, false))).map
        (fun p => (p.1, (Node.ofValue p.2 : Node Nat Bool W))))⟩ := by
  have h := Graph.insert_node_fold (W := W) (fun i => i) false (List.range N) []
  have heq : ∀ g g' : graph_t W, g.m_nodes = g'.m_nodes → g = g' := by
    intro g g' hgg
    cases g; cases g'
    simp only at hgg
    rw [hgg]
  apply heq
  rw [h]
  simp [StdMap.of_range, List.map_map, Function.comp_def]

section
variable {W : Type} [Zero W] [DecidableEq W]

theorem range_pairs_nodup (N : Nat) :
    (((List.range N).map (fun i => (i, false))).map Prod.fst).Nodup := by
  simp only [List.map_map, Function.comp_def, List.map_id']
  exact List.nodup_range N

theorem read_graph_ok (matr : Matrix W) (hsq : matr.num_rows = matr.num_cols) :
    ∃ g, read_graph matr = .ok g := by
  unfold read_graph
  rw [if_neg (not_not.mpr hsq), read_graph_nodes]
  obtain ⟨g, hg, _⟩ := Graph.fill_edges_keys (fun i => (Except.ok i : Except Error Nat)) matr
    (⟨StdMap.of_range (((List.range matr.num_rows).map (fun i => (i, false))).map
      (fun p => (p.1, (Node.ofValue p.2 : Node Nat Bool W))))⟩ : graph_t W)
    (by
      intro i hi
      refine ⟨i, rfl, ?_⟩
      unfold StdMap.of_range
      rw [StdMap.mem_keys_foldl_insert]
      right
      simp [StdMap.keys, List.map_map, Function.comp_def, hi])
    (fun j _ => ⟨j, rfl⟩)
  exact ⟨g, hg⟩

theorem read_graph_characterised (matr : Matrix W) (N : Nat) (hr : matr.num_rows = N)
    (hc : matr.num_cols = N) :
    ∃ g, read_graph matr = .ok g ∧
      (∀ k v, (k < N ∧ v = false) ↔
        ∃ nd, StdMap.find k g.m_nodes = some nd ∧ nd.m_value = v) ∧
      ∀ i j, i < N → j < N →
        (matr.cell i j ≠ 0 → g.edge_weight i j = some (matr.cell i j)) ∧
        (matr.cell i j = 0 → g.edge_weight i j = none) := by
  have hfind := Graph.find_of_range_nodes (W := W) ((List.range N).map (fun i => (i, false)))
    (range_pairs_nodup N)
  have hmem : ∀ k v, (k, v) ∈ (List.range N).map (fun i => (i, false)) ↔ (k < N ∧ v = false) := by
    intro k v
    simp only [List.mem_map, List.mem_range, Prod.mk.injEq]
    constructor
    · rintro ⟨i, hi, rfl, rfl⟩
      exact ⟨hi, rfl⟩
    · rintro ⟨hk, rfl⟩
      exact ⟨k, hk, rfl, rfl⟩
  obtain ⟨g, hg, hval, hedge⟩ := Graph.fill_edges_spec
    (fun i => (Except.ok i : Except Error Nat))
    (⟨StdMap.of_range (((List.range N).map (fun i => (i, false))).map
      (fun p => (p.1, (Node.ofValue p.2 : Node Nat Bool W))))⟩ : graph_t W)
    hr hc
    (by
      intro i hi
      refine ⟨i, rfl, ?_⟩
      rw [(hfind i (Node.ofValue false)).mpr ⟨false, (hmem i false).mpr ⟨hi, rfl⟩, rfl⟩]
      rfl)
    (by
      intro i j a _ _ hia hja
      simp only [Except.ok.injEq] at hia hja
      rw [hia, hja])
    (by
      intro x nd hx
      obtain ⟨v, _, hv⟩ := (hfind x nd).mp hx
      rw [hv]
      rfl)
  refine ⟨g, ?_, ?_, ?_⟩
  · unfold read_graph
    rw [if_neg (by simp [hr, hc]), read_graph_nodes, hr]
    exact hg
  · intro k v
    have hv := hval k
    constructor
    · rintro ⟨hk, rfl⟩
      rw [(hfind k (Node.ofValue false)).mpr ⟨false, (hmem k false).mpr ⟨hk, rfl⟩, rfl⟩] at hv
      cases hfk : StdMap.find k g.m_nodes with
      | none => rw [hfk] at hv; simp at hv
      | some nd =>
        rw [hfk] at hv
        exact ⟨nd, rfl, by simpa [Node.ofValue] using hv⟩
    · rintro ⟨nd, hnd, hnv⟩
      rw [hnd] at hv
      cases hfk : StdMap.find k (StdMap.of_range (((List.range N).map (fun i => (i, false))).map
          (fun p => (p.1, (Node.ofValue p.2 : Node Nat Bool W))))) with
      | none => rw [hfk] at hv; simp at hv
      | some nd0 =>
        rw [hfk] at hv
        obtain ⟨v0, hv0, hnd0⟩ := (hfind k nd0).mp hfk
        have : nd.m_value = nd0.m_value := by simpa using hv
        rw [hnd0] at this
        have hvv : v = v0 := by rw [← hnv, this]; rfl
        rw [hvv]
        exact (hmem k v0).mp hv0
  · intro i j hi hj
    obtain ⟨h1, h2⟩ := hedge i j i j hi hj rfl rfl
    exact ⟨fun h => h1 ⟨trivial, h⟩, fun h => h2 (fun hh => hh.2 h)⟩

end

/-! ## Erasing nodes, degrees and loops -/

namespace StdMap
variable {K T : Type} [LinearOrder K]

theorem find_erase (k x : K) (m : List (K × T)) (hs : Sorted m) :
    find x (erase k m).1 = if x = k then none else find x m := by
  induction m with
  | nil => simp [erase, find]
  | cons e rest ih =>
    obtain ⟨k', v'⟩ := e
    by_cases h1 : k' = k
    · subst h1
      have habs : find k' rest = none :=
        (find_eq_none_iff k' rest).mpr (fun hmem => lt_irrefl _ (hs.head_lt k' hmem))
      by_cases hx : x = k'
      · simp [erase, hx, habs]
      · have : ¬ k' = x := fun h => hx h.symm
        simp [erase, find, hx, this]
    · simp only [erase, if_neg h1, find, ih hs.tail]
      by_cases hx : x = k
      · have : ¬ k' = x := by rw [hx]; exact h1
        simp [hx, h1]
      · simp [hx]

theorem erase_count (k : K) (m : List (K × T)) :
    (erase k m).2 = if (find k m).isSome then 1 else 0 := by
  induction m with
  | nil => simp [erase, find]
  | cons e rest ih =>
    obtain ⟨k', v'⟩ := e
    by_cases h1 : k' = k
    · simp [erase, find, h1]
    · simp [erase, find, h1, ih]

theorem find_map_val {T' : Type} (f : T → T') (x : K) (m : List (K × T)) :
    find x (m.map (fun it => (it.1, f it.2))) = (find x m).map f := by
  induction m with
  | nil => simp [find]
  | cons e rest ih =>
    obtain ⟨k', v'⟩ := e
    by_cases h1 : k' = x
    · simp [find, h1]
    · simp [find, h1, ih]

theorem sorted_map_val {T' : Type} (f : T → T') (m : List (K × T)) (hs : Sorted m) :
    Sorted (m.map (fun it => (it.1, f it.2))) := by
  unfold Sorted keys at *
  simpa [List.map_map, Function.comp_def] using hs

end StdMap

namespace Graph
variable {K V W : Type} [LinearOrder K]

theorem loop_scan_eq (k : K) (es : List (K × W)) :
    loop_scan k es = (StdMap.find k es).isSome := by
  induction es with
  | nil => simp [loop_scan, StdMap.find]
  | cons e rest ih =>
    by_cases h : e.1 = k
    · simp [loop_scan, StdMap.find, h]
    · simp [loop_scan, StdMap.find, h, ih]

theorem out_filter_length (a k : K) (es : List (K × W)) :
    ((es.map (fun e => (a, e.1, e.2))).filter (fun e => e.1 = k)).length =
      if a = k then es.length else 0 := by
  by_cases h : a = k
  · simp [h, List.filter_map, Function.comp_def]
  · simp [h, List.filter_map, Function.comp_def]

theorem in_filter_length (a k : K) (es : List (K × W)) (hs : StdMap.Sorted es) :
    ((es.map (fun e => (a, e.1, e.2))).filter (fun e => e.2.1 = k)).length =
      if (StdMap.find k es).isSome then 1 else 0 := by
  induction es with
  | nil => simp [StdMap.find]
  | cons e rest ih =>
    obtain ⟨k', w'⟩ := e
    by_cases h1 : k' = k
    · subst h1
      have habs : StdMap.find k' rest = none :=
        (StdMap.find_eq_none_iff k' rest).mpr (fun hmem => lt_irrefl _ (hs.head_lt k' hmem))
      have := ih hs.tail
      rw [habs] at this
      simp only [Option.isSome_none, Bool.false_eq_true, if_false] at this
      simp [StdMap.find, List.filter_cons, this]
    · simp [StdMap.find, List.filter_cons, h1, ih hs.tail]

theorem out_count (k : K) (m : List (K × Node K V W)) (hs : StdMap.Sorted m) :
    ((m.flatMap (fun p => p.2.m_edges.map (fun e => (p.1, e.1, e.2)))).filter
        (fun e => e.1 = k)).length =
      ((StdMap.find k m).map Node.size).getD 0 := by
  induction m with
  | nil => simp [StdMap.find]
  | cons p rest ih =>
    obtain ⟨k', nd⟩ := p
    rw [List.flatMap_cons, List.filter_append, List.length_append, out_filter_length,
      ih hs.tail]
    by_cases h1 : k' = k
    · subst h1
      have habs : StdMap.find k' rest = none :=
        (StdMap.find_eq_none_iff k' rest).mpr (fun hmem => lt_irrefl _ (hs.head_lt k' hmem))
      simp [StdMap.find, habs, Node.size]
    · simp [StdMap.find, h1]

theorem in_count (k : K) (m : List (K × Node K V W))
    (hs : ∀ p ∈ m, StdMap.Sorted p.2.m_edges) :
    ∀ acc : Nat,
      m.foldl (fun res it => if (StdMap.find k it.2.m_edges).isSome then res + 1 else res) acc =
        acc + ((m.flatMap (fun p => p.2.m_edges.map (fun e => (p.1, e.1, e.2)))).filter
          (fun e => e.2.1 = k)).length := by
  induction m with
  | nil => intro acc; simp
  | cons p rest ih =>
    intro acc
    rw [List.foldl_cons, ih (fun q hq => hs q (List.mem_cons_of_mem _ hq)), List.flatMap_cons,
      List.filter_append, List.length_append,
      in_filter_length p.1 k p.2.m_edges (hs p (List.mem_cons_self _ _))]
    split <;> omega

end Graph

/-! ## The claims on the graph container -/

section MatrixClaims

variable {K V W : Type} [LinearOrder K] [Zero W] [DecidableEq W]

theorem edge_cell_iff {cell : W} {e : Option W} (h1 : cell ≠ 0 → e = some cell)
    (h2 : cell = 0 → e = none) :
    (e.isSome ↔ cell ≠ 0) ∧ ∀ w, e = some w → w = cell := by
  by_cases hz : cell = 0
  · rw [h2 hz]
    simp [hz]
  · rw [h1 hz]
    simp [hz]

/-- C6: for an `N×N` matrix and `N` `(key, value)` pairs with pairwise distinct keys, the
constructed graph has exactly the supplied keys as nodes, with the supplied values, and the
edge from the `i`-th key to the `j`-th key exists if and only if the cell `(i, j)` is not
zero, with the cell as its weight; `read_graph` builds the same for the keys `0..N-1`, all
with the default value `false`. -/
theorem matrix_graph_spec (nodes : List (K × V)) (matr : Matrix W) (N : Nat)
    (hr : matr.num_rows = N) (hc : matr.num_cols = N) (hn : nodes.length = N)
    (hd : (nodes.map Prod.fst).Nodup) :
    (∃ g, Graph.of_matrix nodes matr = .ok g ∧
      (∀ k v, (∃ nd, StdMap.find k g.m_nodes = some nd ∧ nd.m_value = v) ↔ (k, v) ∈ nodes) ∧
      ∀ i j p q, nodes[i]? = some p → nodes[j]? = some q →
        ((g.edge_weight p.1 q.1).isSome ↔ matr.cell i j ≠ 0) ∧
        ∀ w, g.edge_weight p.1 q.1 = some w → w = matr.cell i j) ∧
    (∃ g, read_graph matr = .ok g ∧
      (∀ k v, (∃ nd, StdMap.find k g.m_nodes = some nd ∧ nd.m_value = v) ↔
        (k < N ∧ v = false)) ∧
      ∀ i j, i < N → j < N →
        ((g.edge_weight i j).isSome ↔ matr.cell i j ≠ 0) ∧
        ∀ w, g.edge_weight i j = some w → w = matr.cell i j) := by
  obtain ⟨g, hg, hval, hedge⟩ := Graph.of_matrix_characterised nodes matr N hr hc hn hd
  obtain ⟨g', hg', hval', hedge'⟩ := read_graph_characterised matr N hr hc
  refine ⟨⟨g, hg, fun k v => (hval k v).symm, ?_⟩, ⟨g', hg', fun k v => (hval' k v).symm, ?_⟩⟩
  · intro i j p q hp hq
    exact edge_cell_iff (hedge i j p q hp hq).1 (hedge i j p q hp hq).2
  · intro i j hi hj
    exact edge_cell_iff (hedge' i j hi hj).1 (hedge' i j hi hj).2

/-- Witness of C6: the adjacency matrix of the 4-node scenario with the keys `0, 1, 2, 3`;
`read_graph` builds the scenario graph from it. -/
theorem matrix_graph_spec_witness :
    read_graph scenario_matrix = .ok scenario ∧
    (∃ g, Graph.of_matrix [(0, false), (1, false), (2, false), (3, false)] scenario_matrix
        = .ok g ∧
      (∀ k v, (∃ nd, StdMap.find k g.m_nodes = some nd ∧ nd.m_value = v) ↔
        (k, v) ∈ [(0, false), (1, false), (2, false), (3, false)]) ∧
      ∀ i j p q, [(0, false), (1, false), (2, false), (3, false)][i]? = some p →
        [(0, false), (1, false), (2, false), (3, false)][j]? = some q →
        ((g.edge_weight p.1 q.1).isSome ↔ scenario_matrix.cell i j ≠ 0) ∧
        ∀ w, g.edge_weight p.1 q.1 = some w → w = scenario_matrix.cell i j) ∧
    (∃ g, read_graph scenario_matrix = .ok g ∧
      (∀ k v, (∃ nd, StdMap.find k g.m_nodes = some nd ∧ nd.m_value = v) ↔
        (k < 4 ∧ v = false)) ∧
      ∀ i j, i < 4 → j < 4 →
        ((g.edge_weight i j).isSome ↔ scenario_matrix.cell i j ≠ 0) ∧
        ∀ w, g.edge_weight i j = some w → w = scenario_matrix.cell i j) :=
  ⟨rfl, matrix_graph_spec [(0, false), (1, false), (2, false), (3, false)] scenario_matrix 4
    rfl rfl rfl (by decide)⟩

/-- C7: the matrix constructor raises an error if and only if the matrix is not square or its
dimension differs from the number of supplied pairs, and succeeds in every other case;
`read_graph` raises if and only if the matrix is not square. -/
theorem matrix_graph_error_iff (nodes : List (K × V)) (matr : Matrix W) :
    ((∃ e, Graph.of_matrix nodes matr = .error e) ↔
      (matr.num_rows ≠ matr.num_cols ∨ matr.num_rows ≠ nodes.length)) ∧
    ((∃ g, Graph.of_matrix nodes matr = .ok g) ↔
      ¬ (matr.num_rows ≠ matr.num_cols ∨ matr.num_rows ≠ nodes.length)) ∧
    ((∃ e, read_graph matr = .error e) ↔ matr.num_rows ≠ matr.num_cols) ∧
    ((∃ g, read_graph matr = .ok g) ↔ matr.num_rows = matr.num_cols) := by
  have hbad : (matr.num_rows ≠ matr.num_cols ∨ matr.num_rows ≠ nodes.length) →
      Graph.of_matrix nodes matr = .error .matrix_constructor_failed := by
    intro h
    unfold Graph.of_matrix
    rw [if_pos h]
  have hgood : ¬ (matr.num_rows ≠ matr.num_cols ∨ matr.num_rows ≠ nodes.length) →
      ∃ g, Graph.of_matrix nodes matr = .ok g := by
    intro h
    rw [not_or, not_not, not_not] at h
    exact Graph.of_matrix_ok nodes matr h.1 h.2
  have hbad' : matr.num_rows ≠ matr.num_cols → read_graph matr = .error .not_squared := by
    intro h
    unfold read_graph
    rw [if_pos h]
  refine ⟨⟨?_, fun h => ⟨_, hbad h⟩⟩, ⟨?_, hgood⟩, ⟨?_, fun h => ⟨_, hbad' h⟩⟩,
    ⟨?_, read_graph_ok matr⟩⟩
  · rintro ⟨e, he⟩
    by_contra hn
    obtain ⟨g, hg⟩ := hgood hn
    rw [hg] at he
    exact absurd he (by simp)
  · rintro ⟨g, hg⟩ hn
    rw [hbad hn] at hg
    exact absurd hg (by simp)
  · rintro ⟨e, he⟩
    by_contra hn
    obtain ⟨g, hg⟩ := read_graph_ok matr hn
    rw [hg] at he
    exact absurd he (by simp)
  · rintro ⟨g, hg⟩
    by_contra hn
    rw [hbad' hn] at hg
    exact absurd hg (by simp)

/-- Witness of C7: a matrix with 3 rows and 2 columns is rejected. -/
theorem matrix_graph_error_iff_witness :
    (∃ e, (Graph.of_matrix [(0, false), (1, false), (2, false)] matrix_3x2 :
      Except Error (graph_t Int)) = .error e) ∧
    (∃ e, read_graph matrix_3x2 = .error e) :=
  ⟨(matrix_graph_error_iff [(0, false), (1, false), (2, false)] matrix_3x2).1.mpr
      (Or.inl (by decide)),
    ⟨_, rfl⟩⟩

end MatrixClaims

section NodeClaims

variable {K V W : Type} [LinearOrder K]

/-- C8: on a well-formed graph, after `erase_node(k)` the key `k` is not a node, no node has an
edge targeting `k`, every other node keeps its value and exactly its former edges whose target
is not `k`, and the returned flag tells whether `k` was a node. -/
theorem erase_node_spec (g : Graph K V W) (hwf : g.WF) (k : K) :
    StdMap.find k (g.erase_node k).1.m_nodes = none ∧
    (∀ u, (g.erase_node k).1.edge_weight u k = none) ∧
    (∀ u, u ≠ k → (StdMap.find u (g.erase_node k).1.m_nodes).map Node.m_value =
      (StdMap.find u g.m_nodes).map Node.m_value) ∧
    (∀ u v, u ≠ k → v ≠ k → (g.erase_node k).1.edge_weight u v = g.edge_weight u v) ∧
    ((g.erase_node k).2 = true ↔ (StdMap.find k g.m_nodes).isSome) := by
  have hsorted : StdMap.Sorted (g.m_nodes.map (fun it => (it.1, (it.2.erase_edge k).1))) :=
    StdMap.sorted_map_val (fun nd => (nd.erase_edge k).1) _ hwf.1
  have hfind : ∀ u, StdMap.find u (g.erase_node k).1.m_nodes =
      if u = k then none
      else (StdMap.find u g.m_nodes).map (fun nd => (nd.erase_edge k).1) := by
    intro u
    simp only [Graph.erase_node]
    rw [StdMap.find_erase k u _ hsorted,
      StdMap.find_map_val (fun nd => (nd.erase_edge k).1) u g.m_nodes]
  have hedges : ∀ u nd, StdMap.find u g.m_nodes = some nd → ∀ v,
      StdMap.find v (nd.erase_edge k).1.m_edges =
        if v = k then none else StdMap.find v nd.m_edges := by
    intro u nd hnd v
    simp only [Node.erase_edge]
    exact StdMap.find_erase k v _ (hwf.2 _ (StdMap.find_some_mem _ _ _ hnd))
  refine ⟨by rw [hfind, if_pos rfl], ?_, ?_, ?_, ?_⟩
  · intro u
    unfold Graph.edge_weight
    rw [hfind]
    by_cases huk : u = k
    · rw [if_pos huk]
    · rw [if_neg huk]
      cases hnd : StdMap.find u g.m_nodes with
      | none => rfl
      | some nd =>
        simp only [Option.map_some']
        rw [hedges u nd hnd, if_pos rfl]
  · intro u huk
    rw [hfind, if_neg huk]
    cases StdMap.find u g.m_nodes with
    | none => rfl
    | some nd => rfl
  · intro u v huk hvk
    unfold Graph.edge_weight
    rw [hfind, if_neg huk]
    cases hnd : StdMap.find u g.m_nodes with
    | none => rfl
    | some nd =>
      simp only [Option.map_some']
      rw [hedges u nd hnd, if_neg hvk]
  · simp only [Graph.erase_node, decide_eq_true_eq]
    rw [StdMap.erase_count, StdMap.find_map_val (fun nd => (nd.erase_edge k).1) k g.m_nodes]
    cases StdMap.find k g.m_nodes with
    | none => simp
    | some nd => simp

/-- Witness of C8: erasing node `2` of the 4-node scenario. -/
theorem erase_node_spec_witness :
    (scenario.erase_node 2).1 =
      ⟨[(0, ⟨false, [(3, 4)]⟩), (1, ⟨false, [(0, 2)]⟩), (3, ⟨false, []⟩)]⟩ ∧
    StdMap.find 2 (scenario.erase_node 2).1.m_nodes = none ∧
    (∀ u, (scenario.erase_node 2).1.edge_weight u 2 = none) ∧
    (∀ u, u ≠ 2 → (StdMap.find u (scenario.erase_node 2).1.m_nodes).map Node.m_value =
      (StdMap.find u scenario.m_nodes).map Node.m_value) ∧
    (∀ u v, u ≠ 2 → v ≠ 2 →
      (scenario.erase_node 2).1.edge_weight u v = scenario.edge_weight u v) ∧
    ((scenario.erase_node 2).2 = true ↔ (StdMap.find 2 scenario.m_nodes).isSome) :=
  ⟨rfl, erase_node_spec scenario scenario_indexed.wf 2⟩

/-- C9: on a well-formed graph, for a key `k` that is a node, `degree_out(k)` is the number of
edges whose source is `k` and `degree_in(k)` the number of edges of the whole graph whose
target is `k`; for a key that is not a node both raise the missing-key error. -/
theorem degree_spec (g : Graph K V W) (hwf : g.WF) (k : K) :
    ((StdMap.find k g.m_nodes).isSome →
      g.degree_out k = .ok (g.edges.filter (fun e => e.1 = k)).length ∧
      g.degree_in k = .ok (g.edges.filter (fun e => e.2.1 = k)).length) ∧
    (StdMap.find k g.m_nodes = none →
      g.degree_out k = .error .out_of_range ∧ g.degree_in k = .error .out_of_range) := by
  constructor
  · intro hk
    obtain ⟨nd, hnd⟩ := Option.isSome_iff_exists.mp hk
    constructor
    · unfold Graph.degree_out Graph.edges
      rw [Graph.out_count k g.m_nodes hwf.1, hnd]
      simp [StdMap.at, hnd, Except.map]
    · unfold Graph.degree_in Graph.edges
      rw [Graph.in_count k g.m_nodes hwf.2 0, hnd]
      simp
  · intro hk
    constructor
    · simp [Graph.degree_out, StdMap.at, hk, Except.map]
    · simp [Graph.degree_in, hk]

/-- Witness of C9: node `2` of the 4-node scenario has two incoming and no outgoing edge. -/
theorem degree_spec_witness :
    scenario.degree_in 2 = .ok 2 ∧ scenario.degree_out 2 = .ok 0 ∧
    ((StdMap.find 2 scenario.m_nodes).isSome →
      scenario.degree_out 2 = .ok (scenario.edges.filter (fun e => e.1 = 2)).length ∧
      scenario.degree_in 2 = .ok (scenario.edges.filter (fun e => e.2.1 = 2)).length) ∧
    (StdMap.find 2 scenario.m_nodes = none →
      scenario.degree_out 2 = .error .out_of_range ∧
      scenario.degree_in 2 = .error .out_of_range) :=
  ⟨rfl, rfl, degree_spec scenario scenario_indexed.wf 2⟩

/-- C10: for a key `k` that is a node, `loop(k)` returns, and it returns true if and only if
the graph has the edge `k → k`. -/
theorem loop_spec (g : Graph K V W) (k : K) (hk : (StdMap.find k g.m_nodes).isSome) :
    (∃ b, g.loop k = .ok b) ∧ (g.loop k = .ok true ↔ (g.edge_weight k k).isSome) := by
  obtain ⟨nd, hnd⟩ := Option.isSome_iff_exists.mp hk
  have hrun : g.loop k = .ok (Graph.loop_scan k nd.m_edges) := by
    simp [Graph.loop, StdMap.at, hnd, Except.map]
  refine ⟨⟨_, hrun⟩, ?_⟩
  rw [hrun, Graph.loop_scan_eq]
  simp [Graph.edge_weight, hnd]

/-- Witness of C10: a node with a self-loop. -/
theorem loop_spec_witness :
    loop_graph.loop 0 = .ok true ∧ loop_graph.loop 1 = .ok false ∧
    (∃ b, loop_graph.loop 0 = .ok b) ∧
    (loop_graph.loop 0 = .ok true ↔ (loop_graph.edge_weight 0 0).isSome) :=
  ⟨rfl, rfl, loop_spec loop_graph 0 rfl⟩

end NodeClaims

/-! ## Inserting nodes and edges, keyed access -/

namespace StdMap
variable {K T : Type} [LinearOrder K]

theorem insert_present (k : K) (v : T) (m : List (K × T)) (hs : Sorted m)
    (h : (find k m).isSome) : insert k v m = (m, false) := by
  induction m with
  | nil => simp [find] at h
  | cons e rest ih =>
    obtain ⟨k', v'⟩ := e
    by_cases h1 : k' = k
    · subst h1
      simp [insert]
    · have hrest : (find k rest).isSome := by simpa [find, h1] using h
      have hmem : k ∈ keys rest := by
        by_contra hn
        rw [(find_eq_none_iff k rest).mpr hn] at hrest
        simp at hrest
      have hlt : ¬ k < k' := not_lt.mpr (le_of_lt (hs.head_lt k hmem))
      simp only [insert, if_neg hlt, if_neg h1, ih hs.tail hrest]

theorem insert_absent_flag (k : K) (v : T) (m : List (K × T)) (h : find k m = none) :
    (insert k v m).2 = true := by
  induction m with
  | nil => rfl
  | cons e rest ih =>
    obtain ⟨k', v'⟩ := e
    have hk' : ¬ k' = k := by
      intro h'
      simp [find, h'] at h
    have hrest : find k rest = none := by simpa [find, hk'] using h
    by_cases h1 : k < k'
    · simp [insert, h1]
    · simp only [insert, if_neg h1, if_neg hk', ih hrest]

theorem find_insert_or_assign (k : K) (v : T) (x : K) (m : List (K × T)) :
    find x (insert_or_assign k v m).1 = if x = k then some v else find x m := by
  induction m with
  | nil =>
    by_cases hx : x = k
    · simp [insert_or_assign, find, hx]
    · have : ¬ k = x := fun h' => hx h'.symm
      simp [insert_or_assign, find, hx, this]
  | cons e rest ih =>
    obtain ⟨k', v'⟩ := e
    by_cases h1 : k < k'
    · by_cases hx : x = k
      · simp [insert_or_assign, h1, find, hx]
      · have : ¬ k = x := fun h' => hx h'.symm
        simp [insert_or_assign, h1, find, hx, this]
    · by_cases h2 : k' = k
      · subst h2
        by_cases hx : x = k'
        · simp [insert_or_assign, find, hx]
        · have : ¬ k' = x := fun h' => hx h'.symm
          simp [insert_or_assign, find, hx, this]
      · simp only [insert_or_assign, if_neg h1, if_neg h2, find, ih]
        by_cases hx : x = k
        · have : ¬ k' = x := by rw [hx]; exact h2
          simp [hx, h2]
        · simp [hx]

theorem insert_or_assign_flag (k : K) (v : T) (m : List (K × T)) (hs : Sorted m) :
    (insert_or_assign k v m).2 = true ↔ find k m = none := by
  induction m with
  | nil => simp [insert_or_assign, find]
  | cons e rest ih =>
    obtain ⟨k', v'⟩ := e
    by_cases h1 : k < k'
    · have hne : ¬ k' = k := fun h => absurd h1 (by rw [h]; exact lt_irrefl _)
      have habs : find k rest = none := by
        apply (find_eq_none_iff k rest).mpr
        intro hmem
        exact absurd (lt_trans h1 (hs.head_lt k hmem)) (lt_irrefl _)
      simp [insert_or_assign, h1, find, hne, habs]
    · by_cases h2 : k' = k
      · simp [insert_or_assign, h1, h2, find]
      · simp only [insert_or_assign, if_neg h1, if_neg h2, find, ih hs.tail]

theorem modify_eq_self (k : K) (f : T → T) (m : List (K × T))
    (h : ∀ v, find k m = some v → f v = v) : modify k f m = m := by
  induction m with
  | nil => rfl
  | cons e rest ih =>
    obtain ⟨k', v'⟩ := e
    by_cases h1 : k' = k
    · have := h v' (by simp [find, h1])
      simp [modify, h1, this]
    · have hrest : ∀ v, find k rest = some v → f v = v := by
        intro v hv
        exact h v (by simp [find, h1, hv])
      simp [modify, h1, ih hrest]

end StdMap

section NodeClaims2

variable {K V W : Type} [LinearOrder K]

/-- C11: on a well-formed graph `insert_node` never overwrites: for a key that is already a
node it returns false and the graph is unchanged; for a key that is not a node it returns true
and the graph gains the node with the given value and no outgoing edge, every other node being
unchanged. -/
theorem insert_node_spec (g : Graph K V W) (hwf : g.WF) (k : K) (v : V) :
    ((StdMap.find k g.m_nodes).isSome → g.insert_node k v = (g, false)) ∧
    (StdMap.find k g.m_nodes = none →
      (g.insert_node k v).2 = true ∧
      StdMap.find k (g.insert_node k v).1.m_nodes = some ⟨v, []⟩ ∧
      ∀ x, x ≠ k → StdMap.find x (g.insert_node k v).1.m_nodes = StdMap.find x g.m_nodes) := by
  constructor
  · intro hk
    simp only [Graph.insert_node, StdMap.insert_present k _ g.m_nodes hwf.1 hk]
  · intro hk
    refine ⟨StdMap.insert_absent_flag k _ g.m_nodes hk, ?_, ?_⟩
    · simp only [Graph.insert_node, StdMap.find_insert_absent k _ k g.m_nodes hk, if_true]
      rfl
    · intro x hx
      simp only [Graph.insert_node, StdMap.find_insert_absent k _ x g.m_nodes hk, if_neg hx]

/-- Witness of C11: inserting the existing key `0` and the new key `9` into the scenario. -/
theorem insert_node_spec_witness :
    scenario.insert_node 0 true = (scenario, false) ∧
    (scenario.insert_node 9 true).2 = true ∧
    ((StdMap.find 0 scenario.m_nodes).isSome → scenario.insert_node 0 true = (scenario, false)) ∧
    (StdMap.find 0 scenario.m_nodes = none →
      (scenario.insert_node 0 true).2 = true ∧
      StdMap.find 0 (scenario.insert_node 0 true).1.m_nodes = some ⟨true, []⟩ ∧
      ∀ x, x ≠ 0 → StdMap.find x (scenario.insert_node 0 true).1.m_nodes =
        StdMap.find x scenario.m_nodes) :=
  ⟨rfl, rfl, insert_node_spec scenario scenario_indexed.wf 0 true⟩

/-- C12: `insert_or_assign_node` is total; afterwards the key holds the given value and an
empty edge map, and every other node keeps its value and all of its edges, edges that target
the key included. On a well-formed graph the returned flag tells an insertion (true) from an
assignment (false). -/
theorem insert_or_assign_node_spec (g : Graph K V W) (k : K) (v : V) :
    StdMap.find k (g.insert_or_assign_node k v).1.m_nodes = some ⟨v, []⟩ ∧
    (∀ x, x ≠ k →
      StdMap.find x (g.insert_or_assign_node k v).1.m_nodes = StdMap.find x g.m_nodes) ∧
    (∀ u x, u ≠ k →
      (g.insert_or_assign_node k v).1.edge_weight u x = g.edge_weight u x) ∧
    (g.WF → ((g.insert_or_assign_node k v).2 = true ↔ StdMap.find k g.m_nodes = none)) := by
  have hfind : ∀ x, StdMap.find x (g.insert_or_assign_node k v).1.m_nodes =
      if x = k then some (Node.ofValue v) else StdMap.find x g.m_nodes := by
    intro x
    simp only [Graph.insert_or_assign_node, StdMap.find_insert_or_assign]
  refine ⟨?_, ?_, ?_, ?_⟩
  · rw [hfind, if_pos rfl]
    rfl
  · intro x hx
    rw [hfind, if_neg hx]
  · intro u x hu
    unfold Graph.edge_weight
    rw [hfind, if_neg hu]
  · intro hwf
    exact StdMap.insert_or_assign_flag k _ g.m_nodes hwf.1

/-- Witness of C12: assigning node `0` of the scenario drops its two edges and keeps the edge
`1→0`. -/
theorem insert_or_assign_node_spec_witness :
    (scenario.insert_or_assign_node 0 true).1 =
      ⟨[(0, ⟨true, []⟩), (1, ⟨false, [(0, 2)]⟩), (2, ⟨false, []⟩), (3, ⟨false, [(2, 5)]⟩)]⟩ ∧
    StdMap.find 0 (scenario.insert_or_assign_node 0 true).1.m_nodes = some ⟨true, []⟩ ∧
    (∀ x, x ≠ 0 → StdMap.find x (scenario.insert_or_assign_node 0 true).1.m_nodes =
      StdMap.find x scenario.m_nodes) ∧
    (∀ u x, u ≠ 0 →
      (scenario.insert_or_assign_node 0 true).1.edge_weight u x = scenario.edge_weight u x) ∧
    (scenario.WF → ((scenario.insert_or_assign_node 0 true).2 = true ↔
      StdMap.find 0 scenario.m_nodes = none)) :=
  ⟨rfl, insert_or_assign_node_spec scenario 0 true⟩

/-- C13: on a well-formed graph `insert_edge((src, dst), w)` raises the missing-key error if and
only if `src` is not a node; when `src` is a node and the edge `src→dst` exists it returns
false and the graph is unchanged; when `src` is a node and there is no edge `src→dst` it
returns true and adds exactly that edge with weight `w`, whether or not `dst` is a node. -/
theorem insert_edge_spec (g : Graph K V W) (hwf : g.WF) (src dst : K) (w : W) :
    ((∃ e, g.insert_edge (src, dst) w = .error e) ↔ StdMap.find src g.m_nodes = none) ∧
    (StdMap.find src g.m_nodes = none → g.insert_edge (src, dst) w = .error .out_of_range) ∧
    (∀ nd, StdMap.find src g.m_nodes = some nd →
      ((StdMap.find dst nd.m_edges).isSome → g.insert_edge (src, dst) w = .ok (g, false)) ∧
      (StdMap.find dst nd.m_edges = none →
        ∃ g', g.insert_edge (src, dst) w = .ok (g', true) ∧
          (∀ u v, g'.edge_weight u v =
            if u = src ∧ v = dst then some w else g.edge_weight u v) ∧
          ∀ x, (StdMap.find x g'.m_nodes).map Node.m_value =
            (StdMap.find x g.m_nodes).map Node.m_value)) := by
  have hnone : StdMap.find src g.m_nodes = none →
      g.insert_edge (src, dst) w = .error .out_of_range := by
    intro h
    simp [Graph.insert_edge, StdMap.at, h]
  refine ⟨⟨?_, fun h => ⟨_, hnone h⟩⟩, hnone, ?_⟩
  · rintro ⟨e, he⟩
    cases hnd : StdMap.find src g.m_nodes with
    | none => rfl
    | some nd =>
      rw [Graph.insert_edge_of_find dst w hnd] at he
      exact absurd he (by simp)
  · intro nd hnd
    rw [Graph.insert_edge_of_find dst w hnd]
    have hsorted : StdMap.Sorted nd.m_edges := hwf.2 _ (StdMap.find_some_mem _ _ _ hnd)
    constructor
    · intro hdst
      have hins := StdMap.insert_present dst w nd.m_edges hsorted hdst
      have hmod : StdMap.modify src (fun x => (x.insert_edge dst w).1) g.m_nodes = g.m_nodes := by
        apply StdMap.modify_eq_self
        intro nd' hnd'
        rw [hnd] at hnd'
        have : nd = nd' := by simpa using hnd'
        subst this
        simp only [Node.insert_edge, hins]
      rw [hmod]
      simp only [Node.insert_edge, hins]
    · intro hdst
      refine ⟨⟨StdMap.modify src (fun x => (x.insert_edge dst w).1) g.m_nodes⟩, ?_, ?_, ?_⟩
      · simp only [Node.insert_edge, StdMap.insert_absent_flag dst w nd.m_edges hdst]
      · intro u v
        simp only [Graph.edge_weight, StdMap.find_modify]
        by_cases hu : u = src
        · subst hu
          simp only [if_true, hnd, Option.map_some', Node.insert_edge, true_and]
          rw [StdMap.find_insert_absent _ _ _ _ hdst]
        · simp [hu]
      · intro x
        simp only [StdMap.find_modify]
        by_cases hx : x = src
        · subst hx
          rw [if_pos rfl, hnd]
          rfl
        · rw [if_neg hx]

/-- Witness of C13: on the scenario, the edge `0→2` exists, the dangling edge `0→9` is added,
and the absent source `9` raises. -/
theorem insert_edge_spec_witness :
    scenario.insert_edge (0, 2) 100 = .ok (scenario, false) ∧
    scenario.insert_edge (9, 0) 100 = .error .out_of_range ∧
    (∃ g', scenario.insert_edge (0, 9) 100 = .ok (g', true) ∧
      g'.edge_weight 0 9 = some 100) ∧
    ((∃ e, scenario.insert_edge (0, 9) 100 = .error e) ↔
      StdMap.find 0 scenario.m_nodes = none) :=
  ⟨rfl, rfl, ⟨_, rfl, rfl⟩, (insert_edge_spec scenario scenario_indexed.wf 0 9 100).1⟩

/-- C14: `erase_edges_go_from` never raises: for a key that is not a node it returns false and
the graph is unchanged; for a node it returns true, the node keeps its value and has no
outgoing edge, and every other node, with all of its edges, is unchanged. -/
theorem erase_edges_go_from_spec (g : Graph K V W) (k : K) :
    (StdMap.find k g.m_nodes = none → g.erase_edges_go_from k = (g, false)) ∧
    (∀ nd, StdMap.find k g.m_nodes = some nd →
      (g.erase_edges_go_from k).2 = true ∧
      StdMap.find k (g.erase_edges_go_from k).1.m_nodes = some ⟨nd.m_value, []⟩ ∧
      ∀ x, x ≠ k →
        StdMap.find x (g.erase_edges_go_from k).1.m_nodes = StdMap.find x g.m_nodes) := by
  constructor
  · intro h
    simp [Graph.erase_edges_go_from, StdMap.at, h]
  · intro nd hnd
    have hrun : g.erase_edges_go_from k =
        (⟨StdMap.modify k (fun nd => { nd with m_edges := [] }) g.m_nodes⟩, true) := by
      simp [Graph.erase_edges_go_from, StdMap.at, hnd]
    rw [hrun]
    refine ⟨rfl, ?_, ?_⟩
    · simp only [StdMap.find_modify, if_true, hnd, Option.map_some']
    · intro x hx
      simp only [StdMap.find_modify, if_neg hx]

/-- Witness of C14: on the scenario, the absent key `7` gives false and node `0` loses its two
edges. -/
theorem erase_edges_go_from_spec_witness :
    scenario.erase_edges_go_from 7 = (scenario, false) ∧
    (scenario.erase_edges_go_from 0).2 = true ∧
    (StdMap.find 7 scenario.m_nodes = none →
      scenario.erase_edges_go_from 7 = (scenario, false)) :=
  ⟨rfl, rfl, (erase_edges_go_from_spec scenario 7).1⟩

/-- C15 fails on the code: nothing in the `try` block of `erase_edges_go_to` looks the key up or
throws, so the handler that returns false is never reached; for the key `7`, which is not a
node of the scenario, `erase_edges_go_to` returns true while `erase_edges_go_from` returns
false. -/
theorem erase_edges_go_to_absent_key :
    StdMap.find 7 scenario.m_nodes = none ∧
    (scenario.erase_edges_go_to 7).2 = true ∧
    (scenario.erase_edges_go_from 7).2 = false :=
  ⟨rfl, rfl, rfl⟩

/-- C16: for a key that is not a node, `at` raises the missing-key error while index access adds
the key with the default value and no edge and leaves every other node unchanged; for a key
that is a node both return the stored value, and index access leaves the graph unchanged. -/
theorem at_index_spec [Inhabited V] (g : Graph K V W) (k : K) :
    (StdMap.find k g.m_nodes = none →
      g.at k = .error .out_of_range ∧
      (g.index k).2 = default ∧
      StdMap.find k (g.index k).1.m_nodes = some ⟨default, []⟩ ∧
      ∀ x, x ≠ k → StdMap.find x (g.index k).1.m_nodes = StdMap.find x g.m_nodes) ∧
    (∀ nd, StdMap.find k g.m_nodes = some nd →
      g.at k = .ok nd.m_value ∧ g.index k = (g, nd.m_value)) := by
  constructor
  · intro h
    refine ⟨by simp [Graph.at, StdMap.at, h, Except.map], ?_, ?_, ?_⟩
    · simp [Graph.index, StdMap.index, h]
    · simp only [Graph.index, StdMap.index, h, StdMap.find_insert_absent k _ k g.m_nodes h,
        if_true]
    · intro x hx
      simp only [Graph.index, StdMap.index, h, StdMap.find_insert_absent k _ x g.m_nodes h,
        if_neg hx]
  · intro nd hnd
    exact ⟨by simp [Graph.at, StdMap.at, hnd, Except.map],
      by simp [Graph.index, StdMap.index, hnd]⟩

/-- Witness of C16: on the scenario, `at(7)` raises and `graph[7]` creates node `7`; `at(1)` and
`graph[1]` both give the stored value. -/
theorem at_index_spec_witness :
    scenario.at 7 = .error .out_of_range ∧
    (scenario.index 7).1 =
      ⟨[(0, ⟨false, [(2, 7), (3, 4)]⟩), (1, ⟨false, [(0, 2)]⟩), (2, ⟨false, []⟩),
        (3, ⟨false, [(2, 5)]⟩), (7, ⟨false, []⟩)]⟩ ∧
    scenario.at 1 = .ok false ∧ scenario.index 1 = (scenario, false) ∧
    (StdMap.find 7 scenario.m_nodes = none →
      scenario.at 7 = .error .out_of_range ∧
      (scenario.index 7).2 = default ∧
      StdMap.find 7 (scenario.index 7).1.m_nodes = some ⟨default, []⟩ ∧
      ∀ x, x ≠ 7 → StdMap.find x (scenario.index 7).1.m_nodes =
        StdMap.find x scenario.m_nodes) :=
  ⟨rfl, rfl, rfl, rfl, (at_index_spec scenario 7).1⟩

end NodeClaims2

/-! ## Selection of the next node -/

section
variable {W : Type} [LinearOrderedCommRing W]

end

/-! ## Rounding to 53 significant bits -/

namespace F64

theorem shift_loop_spec : ∀ (fuel m : Nat), m ≤ fuel →
    m / 2 ^ shift_loop fuel m < 2 ^ 53 ∧
      (shift_loop fuel m = 0 ∨ 2 ^ 52 ≤ m / 2 ^ shift_loop fuel m) := by
  intro fuel
  induction fuel with
  | zero =>
    intro m hm
    have : m = 0 := by omega
    subst this
    simp [shift_loop]
  | succ fuel ih =>
    intro m hm
    by_cases hlt : m < 2 ^ 53
    · have hstep : shift_loop (fuel + 1) m = 0 := by
        rw [shift_loop, if_pos hlt]
      rw [hstep]
      exact ⟨by simpa using hlt, Or.inl rfl⟩
    · have hstep : shift_loop (fuel + 1) m = shift_loop fuel (m / 2) + 1 := by
        rw [shift_loop, if_neg hlt]
      have hfuel : m / 2 ≤ fuel := by omega
      obtain ⟨h1, h2⟩ := ih (m / 2) hfuel
      have hdiv : m / 2 ^ (shift_loop fuel (m / 2) + 1) = m / 2 / 2 ^ shift_loop fuel (m / 2) := by
        rw [pow_succ', Nat.div_div_eq_div_mul]
      rw [hstep, hdiv]
      refine ⟨h1, Or.inr ?_⟩
      rcases h2 with h2 | h2
      · rw [h2]
        simp only [pow_zero, Nat.div_one]
        omega
      · exact h2

theorem shift_spec (m : Nat) :
    m / 2 ^ shift m < 2 ^ 53 ∧ (shift m = 0 ∨ 2 ^ 52 ≤ m / 2 ^ shift m) :=
  shift_loop_spec m m (le_refl m)

theorem lt_of_shift (m : Nat) : m < 2 ^ 53 * 2 ^ shift m := by
  have h := (shift_spec m).1
  have hpos : 0 < 2 ^ shift m := Nat.two_pow_pos _
  exact (Nat.div_lt_iff_lt_mul hpos).mp h

theorem le_of_shift_pos (m : Nat) (h : shift m ≠ 0) : 2 ^ 52 * 2 ^ shift m ≤ m := by
  rcases (shift_spec m).2 with h2 | h2
  · exact absurd h2 h
  · have hpos : 0 < 2 ^ shift m := Nat.two_pow_pos _
    exact (Nat.le_div_iff_mul_le hpos).mp h2

theorem shift_mono {m m' : Nat} (h : m ≤ m') : shift m ≤ shift m' := by
  by_contra hlt
  have hlt : shift m' < shift m := by omega
  have h1 := le_of_shift_pos m (by omega)
  have h2 := lt_of_shift m'
  have h3 : 2 ^ (shift m' + 1) ≤ 2 ^ shift m := Nat.pow_le_pow_right (by decide) hlt
  rw [pow_succ] at h3
  have h4 : 2 ^ 53 * 2 ^ shift m' ≤ 2 ^ 52 * 2 ^ shift m := by
    calc 2 ^ 53 * 2 ^ shift m' = 2 ^ 52 * (2 ^ shift m' * 2) := by ring
      _ ≤ 2 ^ 52 * 2 ^ shift m := Nat.mul_le_mul_left _ h3
  omega

theorem round_to_mul (k c : Nat) : round_to k (c * 2 ^ k) = c * 2 ^ k := by
  have hpos : 0 < 2 ^ k := Nat.two_pow_pos _
  simp [round_to, Nat.mul_mod_left, hpos]

theorem round_to_bounds (k m : Nat) :
    m / 2 ^ k * 2 ^ k ≤ round_to k m ∧ round_to k m ≤ (m / 2 ^ k + 1) * 2 ^ k := by
  unfold round_to
  split
  · exact ⟨le_refl _, Nat.mul_le_mul_right _ (Nat.le_succ _)⟩
  · exact ⟨Nat.mul_le_mul_right _ (Nat.le_succ _), le_refl _⟩

theorem round_to_mono (k : Nat) {m m' : Nat} (h : m ≤ m') : round_to k m ≤ round_to k m' := by
  have hpos : 0 < 2 ^ k := Nat.two_pow_pos _
  have hq : m / 2 ^ k ≤ m' / 2 ^ k := Nat.div_le_div_right h
  rcases Nat.lt_or_ge (m / 2 ^ k) (m' / 2 ^ k) with hlt | hge
  · calc round_to k m ≤ (m / 2 ^ k + 1) * 2 ^ k := (round_to_bounds k m).2
      _ ≤ m' / 2 ^ k * 2 ^ k := Nat.mul_le_mul_right _ hlt
      _ ≤ round_to k m' := (round_to_bounds k m').1
  · have heq : m / 2 ^ k = m' / 2 ^ k := le_antisymm hq hge
    have hm := Nat.div_add_mod m (2 ^ k)
    have hm' := Nat.div_add_mod m' (2 ^ k)
    have hr : m % 2 ^ k ≤ m' % 2 ^ k := by
      rw [heq] at hm
      omega
    unfold round_to
    rw [heq]
    by_cases c1 : 2 * (m % 2 ^ k) < 2 ^ k ∨
        (2 * (m % 2 ^ k) = 2 ^ k ∧ m' / 2 ^ k % 2 = 0)
    · rw [if_pos c1]
      split
      · exact le_refl _
      · exact Nat.mul_le_mul_right _ (Nat.le_succ _)
    · rw [if_neg c1]
      have c2 : ¬ (2 * (m' % 2 ^ k) < 2 ^ k ∨
          (2 * (m' % 2 ^ k) = 2 ^ k ∧ m' / 2 ^ k % 2 = 0)) := by
        intro hc
        apply c1
        rcases hc with hc | hc
        · left; omega
        · by_cases hlt : 2 * (m % 2 ^ k) < 2 ^ k
          · left; exact hlt
          · right; exact ⟨by omega, hc.2⟩
      rw [if_neg c2]

theorem round_to_le_mul (k : Nat) {m c : Nat} (h : m ≤ c * 2 ^ k) :
    round_to k m ≤ c * 2 ^ k := by
  have := round_to_mono k h
  rwa [round_to_mul] at this

theorem mul_le_round_to (k : Nat) {m c : Nat} (h : c * 2 ^ k ≤ m) :
    c * 2 ^ k ≤ round_to k m := by
  have := round_to_mono k h
  rwa [round_to_mul] at this

theorem round_nat_mono {m m' : Nat} (h : m ≤ m') : round_nat m ≤ round_nat m' := by
  unfold round_nat
  rcases Nat.lt_or_ge (shift m) (shift m') with hlt | hge
  · have h1 : m ≤ 2 ^ 53 * 2 ^ shift m := le_of_lt (lt_of_shift m)
    have h2 := le_of_shift_pos m' (by omega)
    have h3 : 2 ^ (shift m + 1) ≤ 2 ^ shift m' := Nat.pow_le_pow_right (by decide) hlt
    rw [pow_succ] at h3
    have h4 : 2 ^ 53 * 2 ^ shift m ≤ 2 ^ 52 * 2 ^ shift m' := by
      calc 2 ^ 53 * 2 ^ shift m = 2 ^ 52 * (2 ^ shift m * 2) := by ring
        _ ≤ 2 ^ 52 * 2 ^ shift m' := Nat.mul_le_mul_left _ h3
    calc round_to (shift m) m ≤ 2 ^ 53 * 2 ^ shift m := round_to_le_mul _ h1
      _ ≤ 2 ^ 52 * 2 ^ shift m' := h4
      _ ≤ round_to (shift m') m' := mul_le_round_to _ h2
  · have heq : shift m = shift m' := le_antisymm (shift_mono h) hge
    rw [heq]
    exact round_to_mono _ h

theorem round_nat_mul {c : Nat} (hc : c < 2 ^ 53) (j : Nat) :
    round_nat (c * 2 ^ j) = c * 2 ^ j := by
  unfold round_nat
  have hle : shift (c * 2 ^ j) ≤ j := by
    by_contra hlt
    have hlt : j < shift (c * 2 ^ j) := by omega
    have h1 := le_of_shift_pos (c * 2 ^ j) (by omega)
    have h3 : 2 ^ (j + 1) ≤ 2 ^ shift (c * 2 ^ j) := Nat.pow_le_pow_right (by decide) hlt
    rw [pow_succ] at h3
    have hpos : 0 < 2 ^ j := Nat.two_pow_pos _
    have h4 : 2 ^ 53 * 2 ^ j ≤ c * 2 ^ j := by
      calc 2 ^ 53 * 2 ^ j = 2 ^ 52 * (2 ^ j * 2) := by ring
        _ ≤ 2 ^ 52 * 2 ^ shift (c * 2 ^ j) := Nat.mul_le_mul_left _ h3
        _ ≤ c * 2 ^ j := h1
    have := Nat.le_of_mul_le_mul_right h4 hpos
    omega
  generalize shift (c * 2 ^ j) = k at hle
  obtain ⟨d, hd⟩ := Nat.exists_eq_add_of_le hle
  have : c * 2 ^ j = (c * 2 ^ d) * 2 ^ k := by
    rw [hd, pow_add]
    ring
  rw [this, round_to_mul]

theorem round_nat_form (m : Nat) :
    ∃ c j, c < 2 ^ 53 ∧ round_nat m = c * 2 ^ j := by
  have hq := (shift_spec m).1
  unfold round_nat round_to
  split
  · exact ⟨_, _, hq, rfl⟩
  · by_cases hc : m / 2 ^ shift m + 1 < 2 ^ 53
    · exact ⟨_, _, hc, rfl⟩
    · have : m / 2 ^ shift m + 1 = 2 ^ 53 := by omega
      refine ⟨2 ^ 52, shift m + 1, by norm_num, ?_⟩
      rw [this, pow_succ]
      ring

theorem round_nat_idem (m : Nat) : round_nat (round_nat m) = round_nat m := by
  obtain ⟨c, j, hc, h⟩ := round_nat_form m
  rw [h]
  exact round_nat_mul hc j

theorem round_nat_zero : round_nat 0 = 0 := by
  have := round_nat_mul (c := 0) (by norm_num) 0
  simpa using this

theorem lt_iff (a b : F64) : a < b ↔ lt a b = true := Iff.rfl

theorem le_iff (a b : F64) : a ≤ b ↔ le a b = true := Iff.rfl

theorem zero_def : (0 : F64) = finite 0 := rfl

theorem add_def (a b : F64) : a + b = add a b := rfl

protected theorem le_trans {a b c : F64} (h1 : a ≤ b) (h2 : b ≤ c) : a ≤ c := by
  rw [le_iff] at *
  rcases a with a | a | _ <;> rcases b with b | b | _ <;> rcases c with c | c | _ <;>
    simp_all [le] <;> first | omega | (cases a <;> simp_all)

protected theorem lt_of_lt_of_le {a b c : F64} (h1 : a < b) (h2 : b ≤ c) : a < c := by
  rw [lt_iff, le_iff] at *
  rcases a with a | a | _ <;> rcases b with b | b | _ <;> rcases c with c | c | _ <;>
    simp_all [le, lt]
  omega

protected theorem lt_of_le_of_lt {a b c : F64} (h1 : a ≤ b) (h2 : b < c) : a < c := by
  rw [lt_iff, le_iff] at *
  rcases a with a | a | _ <;> rcases b with b | b | _ <;> rcases c with c | c | _ <;>
    simp_all [le, lt]
  omega

protected theorem le_of_lt {a b : F64} (h : a < b) : a ≤ b := by
  rw [lt_iff, le_iff] at *
  rcases a with a | a | _ <;> rcases b with b | b | _ <;> simp_all [le, lt]
  omega

protected theorem lt_irrefl (a : F64) : ¬ a < a := by
  rw [lt_iff]
  rcases a with a | a | _ <;> simp [lt]

protected theorem not_lt_of_le {a b : F64} (h : a ≤ b) : ¬ b < a := by
  rw [lt_iff, le_iff] at *
  rcases a with a | a | _ <;> rcases b with b | b | _ <;> simp_all [le, lt]
  cases a <;> simp_all

protected theorem le_antisymm {a b : F64} (h1 : a ≤ b) (h2 : b ≤ a) : a = b := by
  rw [le_iff] at *
  rcases a with a | a | _ <;> rcases b with b | b | _ <;> simp_all [le] <;>
    first | omega | (cases a <;> cases b <;> simp_all)

protected theorem le_of_not_lt {a b : F64} (ha : a ≤ a) (hb : b ≤ b) (h : ¬ a < b) : b ≤ a := by
  rw [lt_iff, le_iff] at *
  rcases a with a | a | _ <;> rcases b with b | b | _ <;> simp_all [le, lt]
  cases a <;> simp_all

theorem le_self_of_le_left {a b : F64} (h : a ≤ b) : a ≤ a := by
  rw [le_iff] at *
  rcases a with a | a | _ <;> rcases b with b | b | _ <;> simp_all [le]

theorem le_self_of_le_right {a b : F64} (h : a ≤ b) : b ≤ b := by
  rw [le_iff] at *
  rcases a with a | a | _ <;> rcases b with b | b | _ <;> simp_all [le]

theorem nonneg_cases {x : F64} (h : 0 ≤ x) : x = inf false ∨ ∃ a : Int, 0 ≤ a ∧ x = finite a := by
  rw [le_iff, zero_def] at h
  rcases x with a | a | _
  · right
    exact ⟨a, by simpa [le] using h, rfl⟩
  · left
    simp [le] at h
    rw [h]
  · simp [le] at h

theorem round_of_nonneg {n : Int} (h : 0 ≤ n) :
    round n = if overflow ≤ round_nat n.natAbs then inf false else finite (round_nat n.natAbs) := by
  unfold round
  have : ¬ n < 0 := by omega
  simp [this]

theorem round_nonneg {n : Int} (h : 0 ≤ n) : (0 : F64) ≤ round n := by
  rw [round_of_nonneg h, le_iff, zero_def]
  split <;> simp [le]

theorem round_mono {a b : Int} (ha : 0 ≤ a) (hab : a ≤ b) : round a ≤ round b := by
  have hb : 0 ≤ b := by omega
  have hm : round_nat a.natAbs ≤ round_nat b.natAbs := round_nat_mono (by omega)
  rw [round_of_nonneg ha, round_of_nonneg hb, le_iff]
  split <;> split <;> simp [le] <;> omega

theorem round_of_isDouble {a : Int} (ha : 0 ≤ a) (hd : (finite a).IsDouble) :
    round a = finite a := by
  obtain ⟨h1, h2⟩ := hd
  rw [round_of_nonneg ha, h1, if_neg (by omega)]
  congr 1
  omega

theorem le_round_of_isDouble {a b : Int} (ha : 0 ≤ a) (hd : (finite a).IsDouble) (hab : a ≤ b) :
    finite a ≤ round b := by
  rw [← round_of_isDouble ha hd]
  exact round_mono ha hab

theorem isDouble_inf (b : Bool) : (inf b).IsDouble := True.intro

theorem isDouble_nan : nan.IsDouble := True.intro

theorem isDouble_round (n : Int) : (round n).IsDouble := by
  by_cases h : overflow ≤ round_nat n.natAbs
  · have h1 : round n = inf (decide (n < 0)) := if_pos h
    exact h1 ▸ isDouble_inf _
  · have h1 : round n =
        finite (if n < 0 then -(round_nat n.natAbs : Int) else round_nat n.natAbs) := if_neg h
    have hnat : (if n < 0 then -(round_nat n.natAbs : Int) else round_nat n.natAbs).natAbs =
        round_nat n.natAbs := by
      split <;> simp
    rw [h1]
    exact ⟨by rw [hnat, round_nat_idem], by rw [hnat]; omega⟩

theorem isDouble_add (x w : F64) : (x + w).IsDouble := by
  rw [add_def]
  rcases x with a | a | _ <;> rcases w with b | b | _
  · exact isDouble_round _
  · exact isDouble_inf _
  · exact isDouble_nan
  · exact isDouble_inf _
  · show (if a = b then inf a else nan).IsDouble
    by_cases h : a = b
    · rw [if_pos h]; exact isDouble_inf _
    · rw [if_neg h]; exact isDouble_nan
  · exact isDouble_nan
  · exact isDouble_nan
  · exact isDouble_nan
  · exact isDouble_nan

protected theorem add_nonneg {x w : F64} (hx : 0 ≤ x) (hw : 0 ≤ w) : 0 ≤ x + w := by
  rw [add_def]
  rcases nonneg_cases hx with rfl | ⟨a, ha, rfl⟩ <;>
    rcases nonneg_cases hw with rfl | ⟨b, hb, rfl⟩ <;> simp only [add]
  · simp [le_iff, zero_def, le]
  · simp [le_iff, zero_def, le]
  · simp [le_iff, zero_def, le]
  · exact round_nonneg (by omega)

theorem le_add_right {x w : F64} (hx : 0 ≤ x) (hd : x.IsDouble) (hw : 0 ≤ w) : x ≤ x + w := by
  rw [add_def]
  rcases nonneg_cases hx with rfl | ⟨a, ha, rfl⟩ <;>
    rcases nonneg_cases hw with rfl | ⟨b, hb, rfl⟩ <;> simp only [add]
  · simp [le_iff, le]
  · simp [le_iff, le]
  · simp [le_iff, le]
  · exact le_round_of_isDouble ha hd (by omega)

protected theorem add_le_add_right {x y w : F64} (hx : 0 ≤ x) (hxy : x ≤ y) (hw : 0 ≤ w) :
    x + w ≤ y + w := by
  have hy : 0 ≤ y := F64.le_trans hx hxy
  rw [add_def, add_def]
  rcases nonneg_cases hx with rfl | ⟨a, ha, rfl⟩ <;>
    rcases nonneg_cases hy with rfl | ⟨c, hc, rfl⟩ <;>
    rcases nonneg_cases hw with rfl | ⟨b, hb, rfl⟩ <;> simp only [add]
  · simp [le_iff, le]
  · simp [le_iff, le]
  · simp [le_iff, le]
  · simp [le_iff, le] at hxy
  · simp [le_iff, le]
  · rw [round_of_nonneg (show (0 : Int) ≤ a + b by omega)]
    split <;> simp [le_iff, le]
  · simp [le_iff, le]
  · exact round_mono (by omega) (by
      have : a ≤ c := by simpa [le_iff, le] using hxy
      omega)

end F64

/-! ## The main loop on `double` weights -/

theorem int_max_def : ((INT_MAX : Nat) : F64) = F64.finite (2147483647 * 2 ^ 1074) := by
  decide!

theorem zero_lt_int_max : (0 : F64) < ((INT_MAX : Nat) : F64) := by decide!

theorem zero_le_zero : (0 : F64) ≤ 0 := by decide!

theorem int_max_le_int_max : ((INT_MAX : Nat) : F64) ≤ ((INT_MAX : Nat) : F64) := by decide!

theorem isDouble_zero : (0 : F64).IsDouble := ⟨by decide!, by decide!⟩

theorem isDouble_int_max : ((INT_MAX : Nat) : F64).IsDouble := by
  rw [int_max_def]
  exact ⟨by decide!, by decide!⟩

theorem edge_facts {g : graph_t F64} (hg : g.Indexed) (hnn : g.NonNegative) {u v : Nat}
    {w : F64} (h : g.edge_weight u v = some w) : u < g.size ∧ v < g.size ∧ 0 ≤ w := by
  obtain ⟨nd, hfind, hmem, hvw⟩ := Graph.Indexed.mem_of_edge u v w h
  exact ⟨hg.lt_of_find u nd hfind, hg.targets_lt _ hmem _ hvw, hnn _ hmem _ hvw⟩

theorem PrevTree.relax_update {g : graph_t F64} {s : Nat} {P Q : Nat → Prop} {d cur v : Nat}
    {w : F64} {ways : List F64} {prev : List Nat} {dep : Nat → Nat}
    (hc : PrevTree g s P Q d ways prev dep) (hcur : cur < g.size) (hP : P cur)
    (hQP : ∀ u, Q u → P u)
    (hle : ∀ u, u < g.size → P u → ways.getD u 0 ≤ ways.getD cur 0)
    (hv : v < g.size) (hedge : g.edge_weight cur v = some w) (hw : 0 ≤ w)
    (hlt : ways.getD cur 0 + w < ways.getD v 0) (hd : dep cur + 1 ≤ d) :
    (v ≠ cur ∧ ¬ P v ∧ v ≠ s) ∧
    PrevTree g s P Q d (ways.set v (ways.getD cur 0 + w)) (prev.set v cur)
      (Function.update dep v (dep cur + 1)) := by
  have hcpos : 0 ≤ ways.getD cur 0 := hc.nonneg cur hcur
  have hstep : ways.getD cur 0 ≤ ways.getD cur 0 + w :=
    F64.le_add_right hcpos (hc.double cur hcur) hw
  have hcv : ways.getD cur 0 < ways.getD v 0 := F64.lt_of_le_of_lt hstep hlt
  have hnP : ¬ P v := by
    intro hPv
    exact F64.lt_irrefl _ (F64.lt_of_lt_of_le hcv (hle v hv hPv))
  have hvc : v ≠ cur := by
    intro h
    exact hnP (h ▸ hP)
  have hvs : v ≠ s := by
    intro h
    rw [h, hc.src_ways] at hcv
    exact F64.not_lt_of_le hcpos hcv
  have hvmax : ways.getD v 0 ≤ (INT_MAX : F64) := hc.le_max v hv
  have hvl : v < ways.length := by rw [hc.len_ways]; exact hv
  have hvl' : v < prev.length := by rw [hc.len_prev]; exact hv
  refine ⟨⟨hvc, hnP, hvs⟩, ?_⟩
  have hwset : ∀ x, x ≠ v → (ways.set v (ways.getD cur 0 + w)).getD x 0 = ways.getD x 0 :=
    fun x hx => getD_set_ne _ _ _ (Ne.symm hx)
  have hwv : (ways.set v (ways.getD cur 0 + w)).getD v 0 = ways.getD cur 0 + w :=
    getD_set_self _ _ _ hvl
  have hpset : ∀ x, x ≠ v → (prev.set v cur).getD x 0 = prev.getD x 0 :=
    fun x hx => getD_set_ne _ _ _ (Ne.symm hx)
  have hpv : (prev.set v cur).getD v 0 = cur := getD_set_self _ _ _ hvl'
  constructor
  · simp [hc.len_ways]
  · simp [hc.len_prev]
  · rw [hwset s (Ne.symm hvs)]; exact hc.src_ways
  · rw [hpset s (Ne.symm hvs)]; exact hc.src_prev
  · rw [Function.update_noteq (Ne.symm hvs)]; exact hc.src_dep
  · intro x hx
    by_cases hxv : x = v
    · rw [hxv, hwv]; exact F64.add_nonneg hcpos hw
    · rw [hwset x hxv]; exact hc.nonneg x hx
  · intro x hx
    by_cases hxv : x = v
    · rw [hxv, hwv]; exact F64.le_trans (F64.le_of_lt hlt) hvmax
    · rw [hwset x hxv]; exact hc.le_max x hx
  · intro x hx
    by_cases hxv : x = v
    · rw [hxv, hwv]; exact F64.isDouble_add _ _
    · rw [hwset x hxv]; exact hc.double x hx
  · intro x hx hxs hinf
    by_cases hxv : x = v
    · rw [hxv, hwv] at hinf
      rw [hinf] at hlt
      exact absurd hlt (F64.not_lt_of_le hvmax)
    · rw [hwset x hxv] at hinf
      rw [hpset x hxv]
      exact hc.inf_prev x hx hxs hinf
  · intro x hx hxs hfin
    by_cases hxv : x = v
    · subst hxv
      rw [hpv, hwv, hwset cur (Ne.symm hvc), Function.update_same,
        Function.update_noteq (Ne.symm hvc)]
      exact ⟨hP, hcur, ⟨w, hedge, rfl⟩, rfl, hd, fun h => absurd h hnP⟩
    · rw [hwset x hxv] at hfin
      obtain ⟨h1, h2, ⟨w', h3, h4⟩, h5, h6, h7⟩ := hc.fin_prev x hx hxs hfin
      have hpne : prev.getD x 0 ≠ v := by
        intro h
        exact hnP (h ▸ h1)
      rw [hpset x hxv, hwset x hxv, hwset _ hpne, Function.update_noteq hxv,
        Function.update_noteq hpne]
      exact ⟨h1, h2, ⟨w', h3, h4⟩, h5, h6, h7⟩
  · intro u hQ hu y w' he
    have hune : u ≠ v := by
      intro h
      exact hnP (h ▸ hQP u hQ)
    rw [hwset u hune]
    by_cases hyv : y = v
    · rw [hyv, hwv]
      have := hc.closed u hQ hu v w' (hyv ▸ he)
      exact F64.le_trans (F64.le_of_lt hlt) this
    · rw [hwset y hyv]
      exact hc.closed u hQ hu y w' he

theorem relax_tree {g : graph_t F64} {s : Nat} {P Q : Nat → Prop} {d cur : Nat}
    (hcur : cur < g.size) (hP : P cur) (hQP : ∀ u, Q u → P u) :
    ∀ (es : List (Nat × F64)) (ways : List F64) (prev : List Nat) (dep : Nat → Nat),
      PrevTree g s P Q d ways prev dep →
      (∀ u, u < g.size → P u → ways.getD u 0 ≤ ways.getD cur 0) →
      (∀ x, x < g.size → ¬ P x → ways.getD cur 0 ≤ ways.getD x 0) →
      (∀ e ∈ es, g.edge_weight cur e.1 = some e.2 ∧ e.1 < g.size ∧ 0 ≤ e.2) →
      (ways.getD cur 0 < (INT_MAX : F64) → dep cur + 1 ≤ d) →
      ∃ ways' prev' dep', relax cur es (ways, prev) = .ok (ways', prev') ∧
        PrevTree g s P Q d ways' prev' dep' ∧
        (∀ u, u < g.size → P u → ways'.getD u 0 ≤ ways'.getD cur 0) ∧
        (∀ x, x < g.size → ¬ P x → ways'.getD cur 0 ≤ ways'.getD x 0) ∧
        ways'.getD cur 0 = ways.getD cur 0 ∧
        (∀ x, x < g.size → ways'.getD x 0 ≤ ways.getD x 0) ∧
        (∀ e ∈ es, ways'.getD e.1 0 ≤ ways.getD cur 0 + e.2) := by
  intro es
  induction es with
  | nil =>
    intro ways prev dep hc hle hge _ _
    exact ⟨ways, prev, dep, rfl, hc, hle, hge, rfl,
      fun x hx => F64.le_self_of_le_right (hc.nonneg x hx), by simp⟩
  | cons e rest ih =>
    intro ways prev dep hc hle hge hes hfin
    obtain ⟨hedge, hv, hw⟩ := hes e (List.mem_cons_self _ _)
    have hes' : ∀ e' ∈ rest, g.edge_weight cur e'.1 = some e'.2 ∧ e'.1 < g.size ∧ 0 ≤ e'.2 :=
      fun e' he' => hes e' (List.mem_cons_of_mem _ he')
    have hcl : cur < ways.length := by rw [hc.len_ways]; exact hcur
    have hvl : e.1 < ways.length := by rw [hc.len_ways]; exact hv
    have hcpos : 0 ≤ ways.getD cur 0 := hc.nonneg cur hcur
    have hsum : ways.getD cur 0 ≤ ways.getD cur 0 + e.2 :=
      F64.le_add_right hcpos (hc.double cur hcur) hw
    have hstep : relax cur (e :: rest) (ways, prev) =
        if ways.getD cur 0 + e.2 < ways.getD e.1 0 then
          relax cur rest (ways.set e.1 (ways.getD cur 0 + e.2), prev.set e.1 cur)
        else relax cur rest (ways, prev) := by
      rw [relax, if_neg (F64.not_lt_of_le hw)]
      simp only [getElem?_eq_getD ways cur 0 hcl, getElem?_eq_getD ways e.1 0 hvl]
    rw [hstep]
    by_cases hlt : ways.getD cur 0 + e.2 < ways.getD e.1 0
    · rw [if_pos hlt]
      have hcfin : ways.getD cur 0 < (INT_MAX : F64) :=
        F64.lt_of_lt_of_le (F64.lt_of_le_of_lt hsum hlt) (hc.le_max e.1 hv)
      have hd := hfin hcfin
      obtain ⟨⟨hvc, hnP, _⟩, hc1⟩ := hc.relax_update hcur hP hQP hle hv hedge hw hlt hd
      have hwset : ∀ x, x ≠ e.1 →
          (ways.set e.1 (ways.getD cur 0 + e.2)).getD x 0 = ways.getD x 0 :=
        fun x hx => getD_set_ne _ _ _ (Ne.symm hx)
      have hwv : (ways.set e.1 (ways.getD cur 0 + e.2)).getD e.1 0 = ways.getD cur 0 + e.2 :=
        getD_set_self _ _ _ hvl
      have hcur1 := hwset cur (Ne.symm hvc)
      have hle1 : ∀ u, u < g.size → P u →
          (ways.set e.1 (ways.getD cur 0 + e.2)).getD u 0 ≤
            (ways.set e.1 (ways.getD cur 0 + e.2)).getD cur 0 := by
        intro u hu hPu
        have hue : u ≠ e.1 := fun h => hnP (h ▸ hPu)
        rw [hwset u hue, hcur1]
        exact hle u hu hPu
      have hge1 : ∀ x, x < g.size → ¬ P x →
          (ways.set e.1 (ways.getD cur 0 + e.2)).getD cur 0 ≤
            (ways.set e.1 (ways.getD cur 0 + e.2)).getD x 0 := by
        intro x hx hPx
        rw [hcur1]
        by_cases hxe : x = e.1
        · rw [hxe, hwv]; exact hsum
        · rw [hwset x hxe]; exact hge x hx hPx
      have hfin1 : (ways.set e.1 (ways.getD cur 0 + e.2)).getD cur 0 < (INT_MAX : F64) →
          Function.update dep e.1 (dep cur + 1) cur + 1 ≤ d := by
        intro _
        rw [Function.update_noteq (Ne.symm hvc)]
        exact hd
      obtain ⟨ways', prev', dep', hr, hc', hle', hge', hcur', hmono', hrest'⟩ :=
        ih _ _ _ hc1 hle1 hge1 hes' hfin1
      refine ⟨ways', prev', dep', hr, hc', hle', hge', by rw [hcur', hcur1], ?_, ?_⟩
      · intro x hx
        refine F64.le_trans (hmono' x hx) ?_
        by_cases hxe : x = e.1
        · rw [hxe, hwv]; exact F64.le_of_lt hlt
        · rw [hwset x hxe]; exact F64.le_self_of_le_right (hc.nonneg x hx)
      · intro e' he'
        rcases List.mem_cons.mp he' with h | h
        · subst h
          have := hmono' e'.1 hv
          rw [hwv] at this
          exact this
        · have := hrest' e' h
          rw [hcur1] at this
          exact this
    · rw [if_neg hlt]
      obtain ⟨ways', prev', dep', hr, hc', hle', hge', hcur', hmono', hrest'⟩ :=
        ih ways prev dep hc hle hge hes' hfin
      refine ⟨ways', prev', dep', hr, hc', hle', hge', hcur', hmono', ?_⟩
      intro e' he'
      rcases List.mem_cons.mp he' with h | h
      · subst h
        exact F64.le_trans (hmono' e'.1 hv)
          (F64.le_of_not_lt (F64.le_self_of_le_right hsum)
            (F64.le_self_of_le_right (hc.nonneg e'.1 hv)) hlt)
      · exact hrest' e' h

theorem PrevTree.weaken {g : graph_t F64} {s : Nat} {P Q P' Q' : Nat → Prop} {d d' : Nat}
    {ways : List F64} {prev : List Nat} {dep : Nat → Nat}
    (hc : PrevTree g s P Q d ways prev dep) (hP : ∀ v, P v → P' v) (hd : d ≤ d')
    (hP' : ∀ v, v < g.size → v ≠ s → ways.getD v 0 < (INT_MAX : F64) → P' v → dep v < d')
    (hcl : ∀ u, Q' u → u < g.size → ∀ v w, g.edge_weight u v = some w →
      ways.getD v 0 ≤ ways.getD u 0 + w) :
    PrevTree g s P' Q' d' ways prev dep where
  len_ways := hc.len_ways
  len_prev := hc.len_prev
  src_ways := hc.src_ways
  src_prev := hc.src_prev
  src_dep := hc.src_dep
  nonneg := hc.nonneg
  le_max := hc.le_max
  double := hc.double
  inf_prev := hc.inf_prev
  fin_prev := fun v hv hvs hf => by
    obtain ⟨h1, h2, h3, h4, h5, _⟩ := hc.fin_prev v hv hvs hf
    exact ⟨hP _ h1, h2, h3, h4, le_trans h5 hd, hP' v hv hvs hf⟩
  closed := hcl

theorem HeadTree.initial (g : graph_t F64) (s : Nat) (hs : s < g.size) :
    HeadTree g s ((List.replicate g.size (INT_MAX : F64)).set s 0) (List.replicate g.size false)
      (List.replicate g.size SIZE_MAX) := by
  have hlab : ∀ v, (List.replicate g.size false).getD v false = false := by
    intro v
    simp only [List.getD_eq_getElem?_getD, List.getElem?_replicate]
    split <;> rfl
  have hprev : ∀ v, v < g.size → (List.replicate g.size SIZE_MAX).getD v 0 = SIZE_MAX := by
    intro v hv
    simp [List.getD_eq_getElem?_getD, List.getElem?_replicate, hv]
  have hways : ∀ v, v < g.size → ((List.replicate g.size (INT_MAX : F64)).set s 0).getD v 0 =
      if v = s then 0 else (INT_MAX : F64) := by
    intro v hv
    by_cases hvs : v = s
    · subst hvs
      rw [getD_set_self _ _ _ (by simp [hv]), if_pos rfl]
    · rw [getD_set_ne _ _ _ (Ne.symm hvs), if_neg hvs]
      simp [List.getD_eq_getElem?_getD, List.getElem?_replicate, hv]
  refine ⟨by simp, ?_, fun _ => 0, ?_⟩
  · intro u v _ _ hu _
    rw [hlab u] at hu
    exact absurd hu (by simp)
  · constructor
    · simp
    · simp
    · rw [hways s hs, if_pos rfl]
    · exact hprev s hs
    · rfl
    · intro v hv
      rw [hways v hv]
      split
      · exact zero_le_zero
      · exact F64.le_of_lt zero_lt_int_max
    · intro v hv
      rw [hways v hv]
      split
      · exact F64.le_of_lt zero_lt_int_max
      · exact int_max_le_int_max
    · intro v hv
      rw [hways v hv]
      split
      · exact isDouble_zero
      · exact isDouble_int_max
    · intro v hv _ _
      exact hprev v hv
    · intro v hv hvs hf
      rw [hways v hv, if_neg hvs] at hf
      exact absurd hf (F64.lt_irrefl _)
    · intro u hu
      rw [hlab u] at hu
      exact absurd hu (by simp)

theorem HeadTree.advance {g : graph_t F64} (hg : g.Indexed) (hnn : g.NonNegative)
    {s : Nat} {ways : List F64} {labels : List Bool}
    {prev : List Nat} (h : HeadTree g s ways labels prev) {cur : Nat} {x : F64}
    (hx : ways[cur]? = some x) (hl : labels[cur]? = some false)
    (hmin : ∀ (k : Nat) (y : F64), ways[k]? = some y → labels[k]? = some false → x ≤ y) :
    ∃ nd ways' prev', g.get_node cur = .ok nd ∧
      relax cur nd.m_edges (ways, prev) = .ok (ways', prev') ∧
      HeadTree g s ways' (labels.set cur true) prev' := by
  obtain ⟨hlen, hord, dep, hc⟩ := h
  obtain ⟨hcl, hxe⟩ := List.getElem?_eq_some.mp hx
  have hcur : cur < g.size := by rw [← hc.len_ways]; exact hcl
  have hcl' : cur < labels.length := by rw [hlen]; exact hcur
  have hxd : ways.getD cur 0 = x := by
    simp [List.getD_eq_getElem?_getD, hx]
  have hld : labels.getD cur false = false := by
    simp [List.getD_eq_getElem?_getD, hl]
  obtain ⟨nd, hfind⟩ := hg.find_node cur hcur
  have hmem : (cur, nd) ∈ g.m_nodes := StdMap.find_some_mem _ _ _ hfind
  have hcnt := count_true_set labels cur hcl' hld
  have hdepcur : ways.getD cur 0 < (INT_MAX : F64) → dep cur ≤ labels.count true := by
    intro hf
    by_cases hcs : cur = s
    · rw [hcs, hc.src_dep]; omega
    · exact (hc.fin_prev cur hcur hcs hf).2.2.2.2.1
  -- the invariant while the edges of `cur` are relaxed
  have hc0 : PrevTree g s (fun v => labels.getD v false = true ∨ v = cur)
      (fun v => labels.getD v false = true)
      ((labels.set cur true).count true) ways prev dep := by
    apply hc.weaken (fun v hv => Or.inl hv)
    · rw [hcnt]; exact Nat.le_succ _
    · intro v hv hvs hf _
      rw [hcnt]
      have := (hc.fin_prev v hv hvs hf).2.2.2.2.1
      omega
    · exact hc.closed
  have hle : ∀ u, u < g.size → (labels.getD u false = true ∨ u = cur) →
      ways.getD u 0 ≤ ways.getD cur 0 := by
    intro u hu hP
    rcases hP with hP | hP
    · exact hord u cur hu hcur hP hld
    · rw [hP]
      exact F64.le_self_of_le_right (hc.nonneg cur hcur)
  have hge : ∀ v, v < g.size → ¬ (labels.getD v false = true ∨ v = cur) →
      ways.getD cur 0 ≤ ways.getD v 0 := by
    intro v hv hP
    rw [hxd]
    have hvf : labels.getD v false = false := by
      cases hvl : labels.getD v false
      · rfl
      · exact absurd (Or.inl hvl) hP
    apply hmin v (ways.getD v 0)
    · exact getElem?_eq_getD ways v 0 (by rw [hc.len_ways]; exact hv)
    · rw [getElem?_eq_getD labels v false (by rw [hlen]; exact hv), hvf]
  have hes : ∀ e ∈ nd.m_edges, g.edge_weight cur e.1 = some e.2 ∧ e.1 < g.size ∧ 0 ≤ e.2 := by
    intro e he
    obtain ⟨h1, h2⟩ := hg.edge_of_mem cur nd hfind e he
    exact ⟨h1, h2, hnn _ hmem e he⟩
  have hfin : ways.getD cur 0 < (INT_MAX : F64) →
      dep cur + 1 ≤ (labels.set cur true).count true := by
    intro hf
    rw [hcnt]
    have := hdepcur hf
    omega
  obtain ⟨ways', prev', dep', hr, hc', hle', hge', hcur', _, hrel⟩ :=
    relax_tree hcur (Or.inr rfl) (fun u hu => Or.inl hu) nd.m_edges ways prev dep
      hc0 hle hge hes hfin
  refine ⟨nd, ways', prev', by simp [Graph.get_node, StdMap.at, hfind], hr, ?_⟩
  have hV : ∀ v, (labels.set cur true).getD v false = true ↔
      (labels.getD v false = true ∨ v = cur) := by
    intro v
    by_cases hvc : v = cur
    · subst hvc
      rw [getD_set_self labels true false hcl']
      simp
    · rw [getD_set_ne _ _ _ (Ne.symm hvc)]
      simp [hvc]
  refine ⟨by simp [hlen], ?_, dep', ?_⟩
  · intro u v hu hv hVu hVv
    have hPu := (hV u).mp hVu
    have hPv : ¬ (labels.getD v false = true ∨ v = cur) := by
      intro hP
      rw [(hV v).mpr hP] at hVv
      exact absurd hVv (by simp)
    exact F64.le_trans (hle' u hu hPu) (hge' v hv hPv)
  · apply hc'.weaken (fun v hv => (hV v).mpr hv) (le_refl _)
    · intro v hv hvs hf hVv
      exact (hc'.fin_prev v hv hvs hf).2.2.2.2.2 ((hV v).mp hVv)
    · intro u hu hun v w hedge
      rcases (hV u).mp hu with hu' | hu'
      · exact hc'.closed u hu' hun v w hedge
      · subst hu'
        have hvw : (v, w) ∈ nd.m_edges := by
          simp only [Graph.edge_weight, hfind] at hedge
          exact StdMap.find_some_mem _ _ _ hedge
        have := hrel (v, w) hvw
        rw [hcur']
        exact this

/-- On the distances of the invariant `min_not_visited` selects an unvisited node of least
distance. -/
theorem HeadTree.select {g : graph_t F64} {s : Nat} {ways : List F64} {labels : List Bool}
    {prev : List Nat} (h : HeadTree g s ways labels prev) :
    (min_not_visited ways labels = .ok SIZE_MAX ∧
      ∀ k, k < ways.length → labels[k]? = some true) ∨
    ∃ r x, min_not_visited ways labels = .ok r ∧ ways[r]? = some x ∧
      labels[r]? = some false ∧
      ∀ (k : Nat) (y : F64), ways[k]? = some y → labels[k]? = some false → x ≤ y := by
  obtain ⟨hll, _, dep, hc⟩ := h
  apply min_not_visited_min (fun x : F64 => x ≤ x) (fun _ hx => hx)
    (fun _ _ _ => F64.le_trans) (fun _ _ => F64.le_of_lt)
    (fun _ _ ha hb hlt => F64.le_of_not_lt ha hb hlt) ways labels
  · intro x hx
    obtain ⟨k, hk⟩ := List.mem_iff_getElem?.mp hx
    obtain ⟨hkl, _⟩ := List.getElem?_eq_some.mp hk
    have hkg : k < g.size := by rw [← hc.len_ways]; exact hkl
    have := hc.nonneg k hkg
    rw [List.getD_eq_getElem?_getD, hk] at this
    exact F64.le_self_of_le_right this
  · rw [hll, hc.len_ways]

theorem count_true_of_all {labels : List Bool} {n : Nat} (hll : labels.length = n)
    (hall : ∀ k, k < n → labels[k]? = some true) : labels.count true = n := by
  rw [← hll]
  apply List.count_eq_length.mpr
  intro b hb
  obtain ⟨k, hk⟩ := List.mem_iff_getElem?.mp hb
  have hkl : k < n := by
    rw [← hll]
    exact (List.getElem?_eq_some.mp hk).1
  rw [hall k hkl] at hk
  exact (Option.some.inj hk)

theorem main_loop_trace_spec {g : graph_t F64} (hg : g.Indexed) (hnn : g.NonNegative)
    (s : Nat) :
    ∀ (fuel : Nat) (ways : List F64) (labels : List Bool) (prev : List Nat),
      HeadTree g s ways labels prev → g.size - labels.count true < fuel →
      ∃ tr ways' labels' prev',
        main_loop_trace g fuel ways labels prev = .ok (tr, ways', prev') ∧
        HeadTree g s ways' labels' prev' ∧
        (∀ v, v < g.size → labels'.getD v false = true) ∧
        tr.length = g.size - labels.count true ∧ tr.Nodup ∧
        ∀ x ∈ tr, x < g.size ∧ labels.getD x false = false := by
  intro fuel
  induction fuel with
  | zero => intro _ _ _ _ h; omega
  | succ fuel ih =>
    intro ways labels prev h hfuel
    have hll : labels.length = g.size := h.1
    have hwl : ways.length = g.size := by
      obtain ⟨_, _, _, hc⟩ := h
      exact hc.len_ways
    have hlen : labels.length = ways.length := by rw [hll, hwl]
    rcases h.select with ⟨hr, hall⟩ | ⟨cur, x, hr, hx, hl, hmin⟩
    · have hallD : ∀ v, v < g.size → labels.getD v false = true := by
        intro v hv
        simp [List.getD_eq_getElem?_getD, hall v (by rw [hwl]; exact hv)]
      have hcount : labels.count true = g.size :=
        count_true_of_all hll (fun k hk => hall k (by rw [hwl]; exact hk))
      refine ⟨[], ways, labels, prev, by simp [main_loop_trace, hr], h, hallD, ?_, List.nodup_nil,
        by simp⟩
      rw [hcount]
      simp
    · obtain ⟨hcl, _⟩ := List.getElem?_eq_some.mp hx
      have hcur : cur < g.size := by rw [← hwl]; exact hcl
      have hne : cur ≠ SIZE_MAX := by
        have := hg.size_le
        omega
      obtain ⟨nd, ways', prev', hnd, hrel, h'⟩ := h.advance hg hnn hx hl hmin
      have hcl' : cur < labels.length := by rw [hlen]; exact hcl
      have hld : labels.getD cur false = false := by
        simp [List.getD_eq_getElem?_getD, hl]
      have hcnt := count_true_set labels cur hcl' hld
      have hle := count_true_le (labels.set cur true)
      rw [List.length_set, hll] at hle
      obtain ⟨tr, ways'', labels'', prev'', hres, hinv, hall, htl, htn, htm⟩ :=
        ih ways' _ prev' h' (by omega)
      refine ⟨cur :: tr, ways'', labels'', prev'', ?_, hinv, hall, ?_, ?_, ?_⟩
      · simp [main_loop_trace, hr, hne, hnd, hrel, hres]
      · simp only [List.length_cons, htl]
        omega
      · refine List.nodup_cons.mpr ⟨?_, htn⟩
        intro hmem
        have := (htm cur hmem).2
        rw [getD_set_self labels true false hcl'] at this
        exact absurd this (by simp)
      · intro y hy
        rcases List.mem_cons.mp hy with h1 | h1
        · rw [h1]
          exact ⟨hcur, hld⟩
        · obtain ⟨h2, h3⟩ := htm y h1
          refine ⟨h2, ?_⟩
          by_cases hyc : y = cur
          · rw [hyc]; exact hld
          · rw [getD_set_ne _ _ _ (Ne.symm hyc)] at h3
            exact h3

/-- With no more fuel than unvisited nodes the main loop does not come to its end: every
iteration visits exactly one node, and the loop ends only when all are visited. -/
theorem main_loop_short_fuel {g : graph_t F64} (hg : g.Indexed) (hnn : g.NonNegative)
    (s : Nat) :
    ∀ (fuel : Nat) (ways : List F64) (labels : List Bool) (prev : List Nat),
      HeadTree g s ways labels prev → fuel ≤ g.size - labels.count true →
      main_loop g fuel ways labels prev = .error .out_of_fuel := by
  intro fuel
  induction fuel with
  | zero => intro _ _ _ _ _; rfl
  | succ fuel ih =>
    intro ways labels prev h hfuel
    have hll : labels.length = g.size := h.1
    have hwl : ways.length = g.size := by
      obtain ⟨_, _, _, hc⟩ := h
      exact hc.len_ways
    have hlen : labels.length = ways.length := by rw [hll, hwl]
    rcases h.select with ⟨_, hall⟩ | ⟨cur, x, hr, hx, hl, hmin⟩
    · have hcount : labels.count true = g.size :=
        count_true_of_all hll (fun k hk => hall k (by rw [hwl]; exact hk))
      omega
    · obtain ⟨hcl, _⟩ := List.getElem?_eq_some.mp hx
      have hcur : cur < g.size := by rw [← hwl]; exact hcl
      have hne : cur ≠ SIZE_MAX := by
        have := hg.size_le
        omega
      obtain ⟨nd, ways', prev', hnd, hrel, h'⟩ := h.advance hg hnn hx hl hmin
      have hcl' : cur < labels.length := by rw [hlen]; exact hcl
      have hld : labels.getD cur false = false := by
        simp [List.getD_eq_getElem?_getD, hl]
      have hcnt := count_true_set labels cur hcl' hld
      have hstep : main_loop g (fuel + 1) ways labels prev =
          main_loop g fuel ways' (labels.set cur true) prev' := by
        simp [main_loop, hr, hne, hnd, hrel]
      rw [hstep]
      exact ih ways' _ prev' h' (by omega)

section
variable {W : Type} [Zero W] [Add W] [LT W] [∀ a b : W, Decidable (a < b)]

theorem main_loop_eq_trace (g : graph_t W) :
    ∀ (fuel : Nat) (ways : List W) (labels : List Bool) (prev : List Nat),
      main_loop g fuel ways labels prev =
        match main_loop_trace g fuel ways labels prev with
        | .ok r => .ok r.2
        | .error e => .error e := by
  intro fuel
  induction fuel with
  | zero => intro _ _ _; rfl
  | succ fuel ih =>
    intro ways labels prev
    rw [main_loop, main_loop_trace]
    cases min_not_visited ways labels with
    | error e => rfl
    | ok cur =>
      by_cases hc : cur = SIZE_MAX
      · simp [hc]
      · simp only [if_neg hc]
        cases g.get_node cur with
        | error e => rfl
        | ok nd =>
          simp only
          cases relax cur nd.m_edges (ways, prev) with
          | error e => rfl
          | ok st =>
            simp only
            rw [ih]
            cases main_loop_trace g fuel st.1 (labels.set cur true) st.2 with
            | error e => rfl
            | ok r => rfl

omit [LT W] [∀ a b : W, Decidable (a < b)] in
theorem isPath_snoc {g : graph_t W} {p i : Nat} {w : W}
    (hedge : g.edge_weight p i = some w) :
    ∀ (l : List Nat) (a : Nat) (acc : W), g.IsPath a p l →
      g.IsPath a i (l ++ [i]) ∧
        g.route_weight_from acc (l ++ [i]) = g.route_weight_from acc l + w := by
  intro l
  induction l with
  | nil => intro a acc h; exact absurd h.2.2 (by simp [Graph.IsRoute])
  | cons x l ih =>
    intro a acc h
    obtain ⟨hhead, hlast, hr⟩ := h
    cases l with
    | nil =>
      have hxp : x = p := by simpa using hlast
      subst hxp
      refine ⟨⟨by simpa using hhead, by simp, ?_⟩, ?_⟩
      · simp [Graph.IsRoute, hedge]
      · simp [Graph.route_weight_from, hedge]
    | cons y l =>
      simp only [Graph.IsRoute] at hr
      have hlast' : (y :: l).getLast? = some p := by
        rw [List.getLast?_cons_cons] at hlast
        exact hlast
      obtain ⟨⟨_, h2, h3⟩, h4⟩ :=
        ih y (acc + (g.edge_weight x y).getD 0) ⟨by simp, hlast', hr.2⟩
      refine ⟨⟨by simpa using hhead, ?_, ?_⟩, ?_⟩
      · simpa [List.getLast?_cons_cons] using h2
      · simp only [List.cons_append, Graph.IsRoute]
        exact ⟨hr.1, h3⟩
      · exact h4

end

theorem PrevTree.lower_bound {g : graph_t F64} (hg : g.Indexed) (hnn : g.NonNegative)
    {s : Nat} {P Q : Nat → Prop} {d : Nat} {ways : List F64} {prev : List Nat}
    {dep : Nat → Nat} (hc : PrevTree g s P Q d ways prev dep) (hQ : ∀ u, u < g.size → Q u)
    (t : Nat) :
    ∀ (r : List Nat) (u : Nat) (acc : F64), g.IsRoute r → r.head? = some u →
      r.getLast? = some t → u < g.size → ways.getD u 0 ≤ acc →
      t < g.size ∧ ways.getD t 0 ≤ g.route_weight_from acc r := by
  intro r
  induction r with
  | nil => intro u acc h; exact absurd h (by simp [Graph.IsRoute])
  | cons a r ih =>
    intro u acc hr hhead hlast hu hacc
    have hau : a = u := by simpa using hhead
    subst hau
    cases r with
    | nil =>
      have hat : a = t := by simpa using hlast
      subst hat
      exact ⟨hu, by simpa [Graph.route_weight_from] using hacc⟩
    | cons c r =>
      simp only [Graph.IsRoute] at hr
      obtain ⟨hsome, hr'⟩ := hr
      obtain ⟨w, hw⟩ := Option.isSome_iff_exists.mp hsome
      obtain ⟨_, hcn, hw0⟩ := edge_facts hg hnn hw
      have hlast' : (c :: r).getLast? = some t := by
        rw [List.getLast?_cons_cons] at hlast
        exact hlast
      have h4 := hc.closed a (hQ a hu) hu c w hw
      have h5 : ways.getD a 0 + w ≤ acc + w :=
        F64.add_le_add_right (hc.nonneg a hu) hacc hw0
      obtain ⟨h1, h2⟩ := ih c (acc + w) hr' (by simp) hlast' hcn (F64.le_trans h4 h5)
      refine ⟨h1, ?_⟩
      simp only [Graph.route_weight_from, hw, Option.getD_some]
      exact h2

theorem PrevTree.walk_spec {g : graph_t F64} (hg : g.Indexed) (hnn : g.NonNegative)
    {s : Nat} {P Q : Nat → Prop} {d : Nat} {ways : List F64} {prev : List Nat}
    {dep : Nat → Nat} (hc : PrevTree g s P Q d ways prev dep) :
    ∀ (n i : Nat), dep i = n → i < g.size → ways.getD i 0 < (INT_MAX : F64) →
      ∃ r, (∀ (fuel : Nat) (acc : List Nat), n < fuel →
          route_loop prev s fuel i acc = .ok (r ++ acc)) ∧
        g.IsPath s i (s :: r) ∧ g.route_weight (s :: r) = ways.getD i 0 ∧ r.length = n ∧
        (∀ x ∈ r, x < g.size) ∧
        List.Chain' (fun a b => prev.getD b 0 = a) (s :: r) := by
  intro n
  induction n with
  | zero =>
    intro i hdep hi hfin
    have his : i = s := by
      by_contra his
      have := (hc.fin_prev i hi his hfin).2.2.2.1
      omega
    subst his
    refine ⟨[], ?_, ⟨by simp, by simp, by simp [Graph.IsRoute]⟩, ?_, rfl, by simp, by simp⟩
    · intro fuel acc hfuel
      obtain ⟨f, rfl⟩ : ∃ f, fuel = f + 1 := ⟨fuel - 1, by omega⟩
      simp [route_loop]
    · rw [hc.src_ways]
      rfl
  | succ n ih =>
    intro i hdep hi hfin
    have his : i ≠ s := by
      intro his
      rw [his, hc.src_dep] at hdep
      omega
    obtain ⟨_, hp, ⟨w, hedge, hways⟩, hd, _⟩ := hc.fin_prev i hi his hfin
    obtain ⟨_, _, hw0⟩ := edge_facts hg hnn hedge
    have hpfin : ways.getD (prev.getD i 0) 0 < (INT_MAX : F64) := by
      have h1 : ways.getD (prev.getD i 0) 0 ≤ ways.getD (prev.getD i 0) 0 + w :=
        F64.le_add_right (hc.nonneg _ hp) (hc.double _ hp) hw0
      rw [← hways] at h1
      exact F64.lt_of_le_of_lt h1 hfin
    obtain ⟨r, hr, hpath, hwt, hrl, hrm, hch⟩ := ih (prev.getD i 0) (by omega) hp hpfin
    obtain ⟨hpath', hwt'⟩ := isPath_snoc hedge (s :: r) s 0 hpath
    refine ⟨r ++ [i], ?_, by simpa using hpath', ?_, ?_, ?_, ?_⟩
    · intro fuel acc hfuel
      obtain ⟨f, rfl⟩ : ∃ f, fuel = f + 1 := ⟨fuel - 1, by omega⟩
      have hil : i < prev.length := by rw [hc.len_prev]; exact hi
      rw [route_loop, if_neg his]
      simp only [getElem?_eq_getD prev i 0 hil]
      rw [hr f (i :: acc) (by omega)]
      simp
    · have : g.route_weight (s :: (r ++ [i])) = g.route_weight_from 0 (s :: r ++ [i]) := by
        simp [Graph.route_weight]
      rw [this, hwt', hways]
      congr 1
    · simp [hrl]
    · intro x hx
      rcases List.mem_append.mp hx with h | h
      · exact hrm x h
      · have : x = i := by simpa using h
        rw [this]
        exact hi
    · have : s :: (r ++ [i]) = (s :: r) ++ [i] := by simp
      rw [this]
      apply List.Chain'.append hch (List.chain'_singleton i)
      intro x hx y hy
      have hxp : x = prev.getD i 0 := by
        have := hpath.2.1
        rw [this] at hx
        simpa using hx.symm
      have hyi : y = i := by simpa using hy.symm
      rw [hxp, hyi]

/-- What the two loops of `deijkstra` do on an indexed graph with non-negative `double`
weights, for `fuel > size`. The main loop ends with `(ways, prev_points)` after logging a
permutation `tr` of the nodes; `ways[t]` is at most the weight of every path from `s` to `t`;
`prev_points[t]` is the none marker exactly when `t = s` or `ways[t]` is still `INT_MAX`, and
otherwise the backward walk from `prev_points[t]` returns `res_route`, which with `s` in front
and `t` behind is a path of weight `ways[t]` along the predecessor links. -/
theorem deijkstra_loops {g : graph_t F64} (hg : g.Indexed) (hnn : g.NonNegative)
    {s t fuel : Nat} (hs : s < g.size) (ht : t < g.size) (hfuel : g.size < fuel) :
    ∃ (tr : List Nat) (ways : List F64) (prev : List Nat),
      main_loop_trace g fuel ((List.replicate g.size (INT_MAX : F64)).set s 0)
        (List.replicate g.size false) (List.replicate g.size SIZE_MAX) = .ok (tr, ways, prev) ∧
      main_loop g fuel ((List.replicate g.size (INT_MAX : F64)).set s 0)
        (List.replicate g.size false) (List.replicate g.size SIZE_MAX) = .ok (ways, prev) ∧
      tr.Perm (List.range g.size) ∧ ways.length = g.size ∧ prev.length = g.size ∧
      (∀ r, g.IsPath s t r → ways.getD t 0 ≤ g.route_weight r) ∧
      ((prev.getD t 0 = SIZE_MAX ∧ (t = s → ways.getD t 0 = 0) ∧
          (t ≠ s → ways.getD t 0 = (INT_MAX : F64)) ∧
          deijkstra fuel g s t = .ok (ways.getD t 0, [SIZE_MAX])) ∨
       (prev.getD t 0 ≠ SIZE_MAX ∧ t ≠ s ∧ ways.getD t 0 < (INT_MAX : F64) ∧
          ∃ res_route : List Nat,
            (∀ k, g.size ≤ k + 1 → route_loop prev s k (prev.getD t 0) [] = .ok res_route) ∧
            deijkstra fuel g s t = .ok (ways.getD t 0, s :: res_route ++ [t]) ∧
            res_route.length + 2 ≤ g.size ∧
            (∀ x ∈ s :: res_route ++ [t], x < g.size) ∧
            List.Chain' (fun a b => prev.getD b 0 = a) (s :: res_route ++ [t]) ∧
            g.IsPath s t (s :: res_route ++ [t]) ∧
            g.route_weight (s :: res_route ++ [t]) = ways.getD t 0)) := by
  obtain ⟨tr, ways, labels, prev, htrace, hinv, hall, htl, htn, htm⟩ :=
    main_loop_trace_spec hg hnn s fuel _ _ _ (HeadTree.initial g s hs) (by omega)
  have hres : main_loop g fuel ((List.replicate g.size (INT_MAX : F64)).set s 0)
      (List.replicate g.size false) (List.replicate g.size SIZE_MAX) = .ok (ways, prev) := by
    rw [main_loop_eq_trace, htrace]
  have hzero : List.count true (List.replicate g.size false) = 0 := by
    rw [List.count_replicate]
    simp
  have htlen : tr.length = g.size := by
    rw [htl, hzero]
    omega
  have hperm : tr.Perm (List.range g.size) := by
    apply List.Subperm.perm_of_length_le
    · exact List.Nodup.subperm htn (fun x hx => List.mem_range.mpr (htm x hx).1)
    · rw [htlen, List.length_range]
  obtain ⟨hlen, _, dep, hc⟩ := hinv
  have htw : t < ways.length := by rw [hc.len_ways]; exact ht
  have htp : t < prev.length := by rw [hc.len_prev]; exact ht
  have hrun : deijkstra fuel g s t =
      if prev.getD t 0 = SIZE_MAX then .ok (ways.getD t 0, [SIZE_MAX])
      else
        match route_loop prev s fuel (prev.getD t 0) [] with
        | .error e => .error e
        | .ok res_route => .ok (ways.getD t 0, s :: res_route ++ [t]) := by
    unfold deijkstra
    rw [if_neg (by omega), hres]
    simp only [getElem?_eq_getD prev t 0 htp, getElem?_eq_getD ways t 0 htw]
  have hlow : ∀ r, g.IsPath s t r → ways.getD t 0 ≤ g.route_weight r := by
    intro r hr
    refine (hc.lower_bound hg hnn hall t r s 0 hr.2.2 hr.1 hr.2.1 hs ?_).2
    rw [hc.src_ways]
    exact zero_le_zero
  refine ⟨tr, ways, prev, htrace, hres, hperm, hc.len_ways, hc.len_prev, hlow, ?_⟩
  by_cases hts : t = s
  · left
    subst hts
    refine ⟨hc.src_prev, fun _ => hc.src_ways, fun h => absurd rfl h, ?_⟩
    rw [hrun, if_pos hc.src_prev]
  · by_cases hfin : ways.getD t 0 < (INT_MAX : F64)
    · right
      obtain ⟨_, hp, ⟨w, hedge, hways⟩, hd, _, hdn⟩ := hc.fin_prev t ht hts hfin
      obtain ⟨_, _, hw0⟩ := edge_facts hg hnn hedge
      have hpne : prev.getD t 0 ≠ SIZE_MAX := by
        have := hg.size_le
        omega
      have hcnt : labels.count true ≤ g.size := by
        rw [← hlen]; exact count_true_le labels
      have hdt := hdn (hall t ht)
      have hpfin : ways.getD (prev.getD t 0) 0 < (INT_MAX : F64) := by
        have h1 : ways.getD (prev.getD t 0) 0 ≤ ways.getD (prev.getD t 0) 0 + w :=
          F64.le_add_right (hc.nonneg _ hp) (hc.double _ hp) hw0
        rw [← hways] at h1
        exact F64.lt_of_le_of_lt h1 hfin
      obtain ⟨r, hr, hpath, hwt, hrl, hrm, hch⟩ :=
        hc.walk_spec hg hnn (dep (prev.getD t 0)) (prev.getD t 0) rfl hp hpfin
      obtain ⟨hpath', hwt'⟩ := isPath_snoc hedge (s :: r) s 0 hpath
      refine ⟨hpne, hts, hfin, r, ?_, ?_, ?_, ?_, ?_, hpath', ?_⟩
      · intro k hk
        have := hr k [] (by omega)
        simpa using this
      · rw [hrun, if_neg hpne, hr fuel [] (by omega)]
        simp
      · omega
      · intro x hx
        simp only [List.cons_append, List.mem_cons, List.mem_append, List.mem_singleton,
          List.not_mem_nil, or_false] at hx
        rcases hx with h | h | h
        · rw [h]; exact hs
        · exact hrm x h
        · rw [h]; exact ht
      · apply List.Chain'.append hch (List.chain'_singleton t)
        intro x hx y hy
        have hxp : x = prev.getD t 0 := by
          have := hpath.2.1
          rw [this] at hx
          simpa using hx.symm
        have hyi : y = t := by simpa using hy.symm
        rw [hxp, hyi]
      · show g.route_weight_from 0 (s :: r ++ [t]) = ways.getD t 0
        rw [hwt', hways]
        congr 1
    · left
      have hinf : ways.getD t 0 = (INT_MAX : F64) :=
        F64.le_antisymm (hc.le_max t ht)
          (F64.le_of_not_lt (F64.le_self_of_le_right (hc.nonneg t ht)) int_max_le_int_max hfin)
      refine ⟨hc.inf_prev t ht hts hinf, fun h => absurd h hts, fun _ => hinf, ?_⟩
      rw [hrun, if_pos (hc.inf_prev t ht hts hinf)]

/-! ## The claims on the result of `deijkstra` -/

theorem scenario_double_indexed : scenario_double.Indexed where
  wf := by
    constructor
    · unfold StdMap.Sorted StdMap.keys scenario_double; decide
    · unfold StdMap.Sorted StdMap.keys scenario_double; decide
  size_le := by decide
  keys_eq := by decide
  targets_lt := by decide

theorem scenario_double_nonneg : scenario_double.NonNegative := by
  unfold Graph.NonNegative scenario_double; decide!

theorem two_step_graph_indexed : two_step_graph.Indexed where
  wf := by
    constructor
    · unfold StdMap.Sorted StdMap.keys two_step_graph; decide
    · unfold StdMap.Sorted StdMap.keys two_step_graph; decide
  size_le := by decide
  keys_eq := by decide
  targets_lt := by decide

theorem two_step_graph_nonneg : two_step_graph.NonNegative := by
  unfold Graph.NonNegative two_step_graph; decide!

theorem shortcut_graph_indexed : shortcut_graph.Indexed where
  wf := by
    constructor
    · unfold StdMap.Sorted StdMap.keys shortcut_graph; decide
    · unfold StdMap.Sorted StdMap.keys shortcut_graph; decide
  size_le := by decide
  keys_eq := by decide
  targets_lt := by decide

theorem shortcut_graph_nonneg : shortcut_graph.NonNegative := by
  unfold Graph.NonNegative shortcut_graph; decide!

theorem near_max_graph_indexed : near_max_graph.Indexed where
  wf := by
    constructor
    · unfold StdMap.Sorted StdMap.keys near_max_graph; decide
    · unfold StdMap.Sorted StdMap.keys near_max_graph; decide
  size_le := by decide
  keys_eq := by decide
  targets_lt := by decide

theorem near_max_graph_nonneg : near_max_graph.NonNegative := by
  unfold Graph.NonNegative near_max_graph; decide!

theorem heavy_graph_indexed : heavy_graph.Indexed where
  wf := by
    constructor
    · unfold StdMap.Sorted StdMap.keys heavy_graph; decide
    · unfold StdMap.Sorted StdMap.keys heavy_graph; decide
  size_le := by decide
  keys_eq := by decide
  targets_lt := by decide

theorem heavy_graph_nonneg : heavy_graph.NonNegative := by
  unfold Graph.NonNegative heavy_graph; decide!

theorem heavy_detour_graph_indexed : heavy_detour_graph.Indexed where
  wf := by
    constructor
    · unfold StdMap.Sorted StdMap.keys heavy_detour_graph; decide
    · unfold StdMap.Sorted StdMap.keys heavy_detour_graph; decide
  size_le := by decide
  keys_eq := by decide
  targets_lt := by decide

theorem heavy_detour_graph_nonneg : heavy_detour_graph.NonNegative := by
  unfold Graph.NonNegative heavy_detour_graph; decide!

/-- What `deijkstra` returns on an indexed graph with non-negative `double` weights: a weight
that is at most the weight of every path, with either the no-path route (and then the weight
`INT_MAX` when the destination is not the source), or a route that is a path of the returned
weight, which lies below `INT_MAX`. Path weights are sums in `double` arithmetic. -/
theorem deijkstra_general {g : graph_t F64} (hg : g.Indexed) (hnn : g.NonNegative)
    {s t fuel : Nat} (hs : s < g.size) (ht : t < g.size) (hfuel : g.size < fuel) :
    ∃ w : F64, (∀ r, g.IsPath s t r → w ≤ g.route_weight r) ∧
      ((deijkstra fuel g s t = .ok (w, [SIZE_MAX]) ∧ (t = s → w = 0) ∧
          (t ≠ s → w = (INT_MAX : F64))) ∨
       (t ≠ s ∧ w < (INT_MAX : F64) ∧ ∃ route, deijkstra fuel g s t = .ok (w, route) ∧
          g.IsPath s t route ∧ g.route_weight route = w ∧ route ≠ [SIZE_MAX])) := by
  obtain ⟨_, ways, prev, _, _, _, _, _, hlow, h⟩ := deijkstra_loops hg hnn hs ht hfuel
  refine ⟨ways.getD t 0, hlow, ?_⟩
  rcases h with ⟨_, h1, h2, h3⟩ | ⟨_, hts, hfin, r, _, hrun, _, hmem, _, hpath, hwt⟩
  · exact Or.inl ⟨h3, h1, h2⟩
  · refine Or.inr ⟨hts, hfin, _, hrun, hpath, hwt, ?_⟩
    intro hroute
    have := hmem SIZE_MAX (by rw [hroute]; simp)
    have hsz := hg.size_le
    omega

/-- C1 as stated fails: the weights `0.1`, `0.2`, `0.30000000000000004` are non-negative and
sum to less than `INT_MAX`, and the path `0→1→2` has the exact weight `0.1 + 0.2`, which is
less than `0.30000000000000004`; yet `0.1 + 0.2` rounds up to `0.30000000000000004` in `double`
arithmetic, the direct edge is kept, and `deijkstra` returns `0.30000000000000004`, which is
not the minimum of the exact path weights. -/
theorem deijkstra_exact_minimum_counterexample :
    shortcut_graph.Indexed ∧ shortcut_graph.Doubles ∧ shortcut_graph.NonNegative ∧
    shortcut_graph.exact_total_weight < 2147483647 * 2 ^ 1074 ∧
    shortcut_graph.IsPath 0 2 [0, 1, 2] ∧
    deijkstra 4 shortcut_graph 0 2 = .ok (three_tenths_up, [0, 2]) ∧
    shortcut_graph.exact_route_weight [0, 1, 2] < three_tenths_up.units :=
  ⟨shortcut_graph_indexed, by unfold Graph.Doubles shortcut_graph; decide!,
    shortcut_graph_nonneg, by decide!, ⟨rfl, rfl, rfl, rfl, trivial⟩,
    by decide!, by decide!⟩

/-- C1, amended: on a well-formed graph with keys exactly `0..n-1`, edge targets in `0..n-1`
and non-negative `double` weights, for a destination `t ≠ s` to which some directed path has a
weight below `INT_MAX`, `deijkstra` returns a weight that is the weight of some directed path
from `s` to `t` and is at most the weight of every directed path from `s` to `t`, where the
weight of a path is the sum of its edge weights in `double` arithmetic, added from the first
edge to the last. -/
theorem deijkstra_weight_minimal {g : graph_t F64} {s t fuel : Nat} (hg : g.Indexed)
    (hnn : g.NonNegative) (hs : s < g.size) (ht : t < g.size) (hts : t ≠ s)
    (hpath : ∃ r, g.IsPath s t r ∧ g.route_weight r < (INT_MAX : F64))
    (hfuel : g.size < fuel) :
    ∃ w route, deijkstra fuel g s t = .ok (w, route) ∧
      (∃ r, g.IsPath s t r ∧ g.route_weight r = w) ∧
      ∀ r, g.IsPath s t r → w ≤ g.route_weight r := by
  obtain ⟨w, hlow, ⟨_, _, hinf⟩ | ⟨_, _, route, hrun, hroute, hwt, _⟩⟩ :=
    deijkstra_general hg hnn hs ht hfuel
  · obtain ⟨r, hr, hlt⟩ := hpath
    have := hlow r hr
    rw [hinf hts] at this
    exact absurd hlt (F64.not_lt_of_le this)
  · exact ⟨w, route, hrun, ⟨route, hroute, hwt⟩, hlow⟩

/-- Witness of C1: the 4-node scenario with source `0` and destination `2` gives weight `7`. -/
theorem deijkstra_weight_minimal_witness :
    deijkstra 5 scenario_double 0 2 = .ok (7, [0, 2]) ∧
    ∃ w route, deijkstra 5 scenario_double 0 2 = .ok (w, route) ∧
      (∃ r, scenario_double.IsPath 0 2 r ∧ scenario_double.route_weight r = w) ∧
      ∀ r, scenario_double.IsPath 0 2 r → w ≤ scenario_double.route_weight r :=
  ⟨by decide!, deijkstra_weight_minimal scenario_double_indexed scenario_double_nonneg
    (by decide) (by decide) (by decide) ⟨[0, 2], ⟨rfl, rfl, rfl, trivial⟩, by decide!⟩
    (by decide)⟩

/-- C2 as stated fails: on the edges `0→1 (0.1)`, `1→2 (0.2)` the route `[0, 1, 2]` is returned
with the weight `0.30000000000000004`, the sum in `double` arithmetic, while the edge weights of
the route sum to exactly `0.1 + 0.2`, which is less. -/
theorem deijkstra_exact_sum_counterexample :
    two_step_graph.Indexed ∧ two_step_graph.Doubles ∧ two_step_graph.NonNegative ∧
    two_step_graph.exact_total_weight < 2147483647 * 2 ^ 1074 ∧
    two_step_graph.IsPath 0 2 [0, 1, 2] ∧
    deijkstra 4 two_step_graph 0 2 = .ok (three_tenths_up, [0, 1, 2]) ∧
    two_step_graph.exact_route_weight [0, 1, 2] ≠ three_tenths_up.units :=
  ⟨two_step_graph_indexed, by unfold Graph.Doubles two_step_graph; decide!,
    two_step_graph_nonneg, by decide!, ⟨rfl, rfl, rfl, rfl, trivial⟩,
    by decide!, by decide!⟩

/-- C2, amended: under the preconditions of the amended C1 the returned route starts with the
source, ends with the destination, has an edge of the graph between every two consecutive keys,
and the returned weight is the sum of the weights of its edges in `double` arithmetic, added
from the first edge to the last. -/
theorem deijkstra_route_valid {g : graph_t F64} {s t fuel : Nat} (hg : g.Indexed)
    (hnn : g.NonNegative) (hs : s < g.size) (ht : t < g.size) (hts : t ≠ s)
    (hpath : ∃ r, g.IsPath s t r ∧ g.route_weight r < (INT_MAX : F64))
    (hfuel : g.size < fuel) :
    ∃ w route, deijkstra fuel g s t = .ok (w, route) ∧
      route.head? = some s ∧ route.getLast? = some t ∧ g.IsRoute route ∧
      g.route_weight route = w := by
  obtain ⟨w, hlow, ⟨_, _, hinf⟩ | ⟨_, _, route, hrun, hroute, hwt, _⟩⟩ :=
    deijkstra_general hg hnn hs ht hfuel
  · obtain ⟨r, hr, hlt⟩ := hpath
    have := hlow r hr
    rw [hinf hts] at this
    exact absurd hlt (F64.not_lt_of_le this)
  · exact ⟨w, route, hrun, hroute.1, hroute.2.1, hroute.2.2, hwt⟩

/-- Witness of C2: the 4-node scenario with source `0` and destination `2` gives the route
`[0, 2]`. -/
theorem deijkstra_route_valid_witness :
    deijkstra 5 scenario_double 0 2 = .ok (7, [0, 2]) ∧
    ∃ w route, deijkstra 5 scenario_double 0 2 = .ok (w, route) ∧
      route.head? = some 0 ∧ route.getLast? = some 2 ∧ scenario_double.IsRoute route ∧
      scenario_double.route_weight route = w :=
  ⟨by decide!, deijkstra_route_valid scenario_double_indexed scenario_double_nonneg
    (by decide) (by decide) (by decide) ⟨[0, 2], ⟨rfl, rfl, rfl, trivial⟩, by decide!⟩
    (by decide)⟩

/-- C3 as stated fails: the weights `2147483646.0` and `0.99999999` are non-negative and sum to
less than `INT_MAX`, and node `2` is reachable from node `0`; yet
`2147483646.0 + 0.99999999` rounds to `2147483647.0`, the test against the initial distance
fails, and `deijkstra` returns the no-path result. -/
theorem deijkstra_rounded_no_path_counterexample :
    near_max_graph.Indexed ∧ near_max_graph.Doubles ∧ near_max_graph.NonNegative ∧
    near_max_graph.exact_total_weight < 2147483647 * 2 ^ 1074 ∧
    near_max_graph.Reachable 0 2 ∧
    deijkstra 4 near_max_graph 0 2 = .ok (2147483647, [SIZE_MAX]) :=
  ⟨near_max_graph_indexed, by unfold Graph.Doubles near_max_graph; decide!,
    near_max_graph_nonneg, by decide!, ⟨[0, 1, 2], rfl, rfl, rfl, rfl, trivial⟩, by decide!⟩

/-- C3, amended: on a well-formed graph with keys exactly `0..n-1`, edge targets in `0..n-1`
and non-negative `double` weights, for `s ≠ t` in range, `deijkstra` returns a result, and the
result is the no-path result (the route `[size_t(-1)]`) if and only if every directed path from
`s` to `t` has a weight of `INT_MAX` or more in `double` arithmetic; in particular it is the
no-path result when no directed path leads from `s` to `t`. -/
theorem deijkstra_no_path_iff {g : graph_t F64} {s t fuel : Nat} (hg : g.Indexed)
    (hnn : g.NonNegative) (hs : s < g.size) (ht : t < g.size) (hts : t ≠ s)
    (hfuel : g.size < fuel) :
    (∃ res, deijkstra fuel g s t = .ok res) ∧
    ((∃ w, deijkstra fuel g s t = .ok (w, [SIZE_MAX])) ↔
      ∀ r, g.IsPath s t r → (INT_MAX : F64) ≤ g.route_weight r) ∧
    (¬ g.Reachable s t → ∃ w, deijkstra fuel g s t = .ok (w, [SIZE_MAX])) := by
  obtain ⟨w, hlow, ⟨hrun, _, hinf⟩ | ⟨_, hfin, route, hrun, hroute, hwt, hne⟩⟩ :=
    deijkstra_general hg hnn hs ht hfuel
  · refine ⟨⟨_, hrun⟩, ⟨fun _ r hr => ?_, fun _ => ⟨w, hrun⟩⟩, fun _ => ⟨w, hrun⟩⟩
    have := hlow r hr
    rw [hinf hts] at this
    exact this
  · refine ⟨⟨_, hrun⟩, ⟨?_, ?_⟩, fun h => absurd ⟨route, hroute⟩ h⟩
    · rintro ⟨w', hw'⟩
      rw [hrun] at hw'
      injection hw' with h1
      exact absurd (Prod.mk.inj h1).2 hne
    · intro hall
      have := hall route hroute
      rw [hwt] at this
      exact absurd hfin (F64.not_lt_of_le this)

/-- Witness of C3: on the 4-node scenario, source `2` and destination `0` gives the no-path
result. -/
theorem deijkstra_no_path_iff_witness :
    deijkstra 5 scenario_double 2 0 = .ok (2147483647, [SIZE_MAX]) ∧
    (∃ res, deijkstra 5 scenario_double 2 0 = .ok res) ∧
    ((∃ w, deijkstra 5 scenario_double 2 0 = .ok (w, [SIZE_MAX])) ↔
      ∀ r, scenario_double.IsPath 2 0 r →
        (INT_MAX : F64) ≤ scenario_double.route_weight r) ∧
    (¬ scenario_double.Reachable 2 0 →
      ∃ w, deijkstra 5 scenario_double 2 0 = .ok (w, [SIZE_MAX])) :=
  ⟨by decide!, deijkstra_no_path_iff scenario_double_indexed scenario_double_nonneg
    (by decide) (by decide) (by decide) (by decide)⟩

/-- C18 as stated fails: the single edge `0→1` of weight `2147483647.0` makes node `1`
reachable from node `0`, yet the relaxation test `0 + 2147483647.0 < 2147483647.0` fails and
`deijkstra` returns the no-path result. -/
theorem deijkstra_heavy_edge_counterexample :
    heavy_graph.Indexed ∧ heavy_graph.Doubles ∧ heavy_graph.NonNegative ∧
    heavy_graph.Reachable 0 1 ∧
    deijkstra 3 heavy_graph 0 1 = .ok (2147483647, [SIZE_MAX]) :=
  ⟨heavy_graph_indexed, by unfold Graph.Doubles heavy_graph; decide!, heavy_graph_nonneg,
    ⟨[0, 1], rfl, rfl, rfl, trivial⟩, by decide!⟩

/-- C18, amended: the initial distance `INT_MAX` is a finite bound. On an indexed graph with
non-negative `double` weights of any magnitude, for a destination `t ≠ s`: if some path from
`s` to `t` has a weight below `INT_MAX`, `deijkstra` returns a route, which is a path from `s`
to `t`, and the minimum path weight; if every path from `s` to `t` (if any) has a weight of
`INT_MAX` or more, it returns the no-path result with the weight `INT_MAX`. The weight of a
path is the sum of its edge weights in `double` arithmetic, added from the first edge to the
last. -/
theorem deijkstra_below_int_max {g : graph_t F64} {s t fuel : Nat} (hg : g.Indexed)
    (hnn : g.NonNegative) (hs : s < g.size) (ht : t < g.size) (hts : t ≠ s)
    (hfuel : g.size < fuel) :
    ((∃ r, g.IsPath s t r ∧ g.route_weight r < (INT_MAX : F64)) →
      ∃ w route, deijkstra fuel g s t = .ok (w, route) ∧ route ≠ [SIZE_MAX] ∧
        g.IsPath s t route ∧ g.route_weight route = w ∧
        ∀ r, g.IsPath s t r → w ≤ g.route_weight r) ∧
    ((∀ r, g.IsPath s t r → (INT_MAX : F64) ≤ g.route_weight r) →
      deijkstra fuel g s t = .ok ((INT_MAX : F64), [SIZE_MAX])) := by
  obtain ⟨w, hlow, ⟨hrun, _, hinf⟩ | ⟨_, hfin, route, hrun, hroute, hwt, hne⟩⟩ :=
    deijkstra_general hg hnn hs ht hfuel
  · constructor
    · rintro ⟨r, hr, hlt⟩
      have := hlow r hr
      rw [hinf hts] at this
      exact absurd hlt (F64.not_lt_of_le this)
    · intro _
      rw [hrun, hinf hts]
  · constructor
    · intro _
      exact ⟨w, route, hrun, hne, hroute, hwt, hlow⟩
    · intro hall
      have := hall route hroute
      rw [hwt] at this
      exact absurd hfin (F64.not_lt_of_le this)

/-- Witness of the amended C18: the edges sum to more than `INT_MAX`, and node `1` is found at
distance `5`. -/
theorem deijkstra_below_int_max_witness :
    deijkstra 4 heavy_detour_graph 0 1 = .ok (5, [0, 1]) ∧
    ((∃ r, heavy_detour_graph.IsPath 0 1 r ∧
        heavy_detour_graph.route_weight r < (INT_MAX : F64)) →
      ∃ w route, deijkstra 4 heavy_detour_graph 0 1 = .ok (w, route) ∧ route ≠ [SIZE_MAX] ∧
        heavy_detour_graph.IsPath 0 1 route ∧ heavy_detour_graph.route_weight route = w ∧
        ∀ r, heavy_detour_graph.IsPath 0 1 r → w ≤ heavy_detour_graph.route_weight r) ∧
    ((∀ r, heavy_detour_graph.IsPath 0 1 r →
        (INT_MAX : F64) ≤ heavy_detour_graph.route_weight r) →
      deijkstra 4 heavy_detour_graph 0 1 = .ok ((INT_MAX : F64), [SIZE_MAX])) :=
  ⟨by decide!, deijkstra_below_int_max heavy_detour_graph_indexed heavy_detour_graph_nonneg
    (by decide) (by decide) (by decide) (by decide)⟩

/-- C19: on an indexed graph with non-negative `double` weights and keys `s`, `t` in range.
The main loop stops after exactly `size` iterations: it runs out of fuel with `size` units or
fewer and ends with any more. It selects every node exactly once: the log of the selected
indices, kept by the copy `main_loop_trace` that returns the same distances and predecessors,
is a permutation of `0 .. size-1`. No index or lookup is out of range, as both loops and
`deijkstra` return a result. When the destination has no predecessor the result is the no-path
result; when it has one, the backward walk from it ends at the source within `size - 1` units
of fuel, having pushed `res_route`, and the returned route `s :: res_route ++ [t]` has at most
`size` keys, all of them nodes (none is the none marker), each the predecessor of the next. -/
theorem deijkstra_runs_to_completion {g : graph_t F64} {s t fuel : Nat} (hg : g.Indexed)
    (hnn : g.NonNegative) (hs : s < g.size) (ht : t < g.size) (hfuel : g.size < fuel) :
    (∀ k, k ≤ g.size →
      main_loop g k ((List.replicate g.size (INT_MAX : F64)).set s 0)
        (List.replicate g.size false) (List.replicate g.size SIZE_MAX) = .error .out_of_fuel) ∧
    ∃ (tr : List Nat) (ways : List F64) (prev : List Nat),
      main_loop g fuel ((List.replicate g.size (INT_MAX : F64)).set s 0)
        (List.replicate g.size false) (List.replicate g.size SIZE_MAX) = .ok (ways, prev) ∧
      main_loop_trace g fuel ((List.replicate g.size (INT_MAX : F64)).set s 0)
        (List.replicate g.size false) (List.replicate g.size SIZE_MAX) = .ok (tr, ways, prev) ∧
      tr.Perm (List.range g.size) ∧ ways.length = g.size ∧ prev.length = g.size ∧
      ((prev.getD t 0 = SIZE_MAX ∧
          deijkstra fuel g s t = .ok (ways.getD t 0, [SIZE_MAX])) ∨
       (prev.getD t 0 ≠ SIZE_MAX ∧ ∃ res_route : List Nat,
          (∀ k, g.size ≤ k + 1 → route_loop prev s k (prev.getD t 0) [] = .ok res_route) ∧
          deijkstra fuel g s t = .ok (ways.getD t 0, s :: res_route ++ [t]) ∧
          res_route.length + 2 ≤ g.size ∧
          (∀ x ∈ s :: res_route ++ [t], x < g.size) ∧
          List.Chain' (fun a b => prev.getD b 0 = a) (s :: res_route ++ [t]))) := by
  constructor
  · intro k hk
    apply main_loop_short_fuel hg hnn s k _ _ _ (HeadTree.initial g s hs)
    rw [List.count_replicate]
    simpa using hk
  · obtain ⟨tr, ways, prev, htrace, hres, hperm, hwl, hpl, _, h⟩ :=
      deijkstra_loops hg hnn hs ht hfuel
    refine ⟨tr, ways, prev, hres, htrace, hperm, hwl, hpl, ?_⟩
    rcases h with ⟨h0, _, _, h3⟩ | ⟨h0, _, _, r, hwalk, hrun, hlen, hmem, hch, _⟩
    · exact Or.inl ⟨h0, h3⟩
    · exact Or.inr ⟨h0, r, hwalk, hrun, hlen, hmem, hch⟩

/-- Witness of C19: the 4-node scenario with source `0` and destination `2`; the nodes are
selected in the order `0, 3, 2, 1`, and four units of fuel do not suffice. -/
theorem deijkstra_runs_to_completion_witness :
    main_loop_trace scenario_double 5 ((List.replicate 4 (INT_MAX : F64)).set 0 0)
        (List.replicate 4 false) (List.replicate 4 SIZE_MAX) =
      .ok ([0, 3, 2, 1], [0, 2147483647, 7, 4], [SIZE_MAX, SIZE_MAX, 0, 0]) ∧
    main_loop scenario_double 4 ((List.replicate 4 (INT_MAX : F64)).set 0 0)
        (List.replicate 4 false) (List.replicate 4 SIZE_MAX) = .error .out_of_fuel ∧
    deijkstra 5 scenario_double 0 2 = .ok (7, [0, 2]) ∧
    ((∀ k, k ≤ scenario_double.size →
      main_loop scenario_double k
        ((List.replicate scenario_double.size (INT_MAX : F64)).set 0 0)
        (List.replicate scenario_double.size false)
        (List.replicate scenario_double.size SIZE_MAX) = .error .out_of_fuel) ∧
    ∃ (tr : List Nat) (ways : List F64) (prev : List Nat),
      main_loop scenario_double 5
        ((List.replicate scenario_double.size (INT_MAX : F64)).set 0 0)
        (List.replicate scenario_double.size false)
        (List.replicate scenario_double.size SIZE_MAX) = .ok (ways, prev) ∧
      main_loop_trace scenario_double 5
        ((List.replicate scenario_double.size (INT_MAX : F64)).set 0 0)
        (List.replicate scenario_double.size false)
        (List.replicate scenario_double.size SIZE_MAX) = .ok (tr, ways, prev) ∧
      tr.Perm (List.range scenario_double.size) ∧ ways.length = scenario_double.size ∧
      prev.length = scenario_double.size ∧
      ((prev.getD 2 0 = SIZE_MAX ∧
          deijkstra 5 scenario_double 0 2 = .ok (ways.getD 2 0, [SIZE_MAX])) ∨
       (prev.getD 2 0 ≠ SIZE_MAX ∧ ∃ res_route : List Nat,
          (∀ k, scenario_double.size ≤ k + 1 →
            route_loop prev 0 k (prev.getD 2 0) [] = .ok res_route) ∧
          deijkstra 5 scenario_double 0 2 = .ok (ways.getD 2 0, 0 :: res_route ++ [2]) ∧
          res_route.length + 2 ≤ scenario_double.size ∧
          (∀ x ∈ 0 :: res_route ++ [2], x < scenario_double.size) ∧
          List.Chain' (fun a b => prev.getD b 0 = a) (0 :: res_route ++ [2])))) :=
  ⟨by decide!, by decide!, by decide!,
    deijkstra_runs_to_completion scenario_double_indexed scenario_double_nonneg (by decide)
      (by decide) (by decide)⟩

end MyDijkstra
